import Mathlib

/-!
Aggregator (be/src/exec/aggregator.cpp): restartable drain, state layout, zero-row output,
streaming pre-aggregation, shared limit, spilling, state lifecycle, hash-variant selection;
binary truncation, the worker thread pool, and the vertical tablet writer.

A shallow embedding of the parts of `Aggregator` that the properties below are about:

* the two drain functions `convert_hash_map_to_chunk` / `convert_hash_set_to_chunk`
  (cursor `_it_hash`, end-of-data flag `_is_ht_eos`, the reserved null-key slot, and the
  scratch vector `_tmp_agg_states` the hash-map read loop stores into);
* the aggregate-state layout computed in `Aggregator::open` (`PAD`, `ALIGN_TO`, offsets, total size);
* `convert_to_chunk_no_groupby` and its zero-input-rows rule;
* `should_expand_preagg_hash_tables` (level loop over `STREAMING_HT_MIN_REDUCTION`);
* `build_hash_map` with a shared countdown (`_build_hash_map_with_shared_limit`);
* `spill_aggregate_data`;
* creation and destruction of aggregate states (`open`, `close`, `_release_agg_memory`,
  `check_has_error`);
* `is_group_columns_fixed_size` and `_init_agg_hash_variant`;
* `AggregatorParams::init` (nullability of the resolved function types),
  `update_continuous_limit` and `process_limit`;
* `BinaryFunctions::iceberg_truncate_binary` (be/src/exprs/binary_functions.cpp);
* the thread pool of be/src/util/threadpool.cpp as a transition system over the regions run
  under its lock;
* `VerticalGeneralTabletWriter::write_columns`
  (be/src/storage/lake/general_tablet_writer.cpp).

Conventions.  Iterators over the hash table are positions (`Nat`) in the sequence of entries
the table yields from `begin()` to `end()`.  Counters (`int64_t`, `size_t`) are natural numbers:
they count rows or bytes of objects that exist in memory, so no wrap-around is modelled, except
in `should_expand_preagg_hash_tables`, whose row difference can be negative and is wrapped
explicitly (`wrap_int64`).
Calls into the aggregate functions (`batch_finalize`, `finalize_to_column`, ...) produce column
values that are functions of the group state; their only effect on control flow is through the
error flag of a function context, which `check_has_error` reads.
-/

namespace starrocks

set_option autoImplicit false

/-! ## Status and function contexts -/

/-- The `Status` values that the embedded functions return. -/
inductive Status where
  | OK
  | RuntimeError (msg : String)
  | MemoryLimitExceeded (msg : String)
  | InternalError (msg : String)
  | MemoryAllocFailed (msg : String)
  | EndOfFile (msg : String)
  | ServiceUnavailable (msg : String)
  | Uninitialized (msg : String)
  | NotSupported (msg : String)
  deriving DecidableEq, Repr

/-- `Status::ok()`. -/
def Status.ok : Status → Bool
  | Status.OK => true
  | _ => false

/-- `Status::is_end_of_file()`. -/
def Status.is_end_of_file : Status → Bool
  | Status.EndOfFile _ => true
  | _ => false

/-- `Status::is_uninitialized()`. -/
def Status.is_uninitialized : Status → Bool
  | Status.Uninitialized _ => true
  | _ => false

/-- The part of `FunctionContext` read by the aggregator: `has_error()` and `error_msg()`. -/
structure FunctionContext where
  has_error : Bool
  error_msg : String
  deriving DecidableEq, Repr

/-- `Aggregator::check_has_error`: the first context (in function order) whose error flag is
set decides the result. -/
def check_has_error : List FunctionContext → Status
  | [] => Status.OK
  | ctx :: rest => if ctx.has_error then Status.RuntimeError ctx.error_msg else check_has_error rest

/-! ## The drain state of an `Aggregator` -/

/-- The fields of `Aggregator` used by the two drain functions.  `κ` is the key type of the
grouping structure, `σ` the aggregate state stored with a key.

* `state_chunk_size` is `_state->chunk_size()`, which is also the number of elements of the
  scratch vector `_tmp_agg_states` (`_tmp_agg_states.resize(_state->chunk_size())` in `prepare`);
* `use_intermediate_as_output` is the value of `_use_intermediate_as_output()`;
* `hash_map_states` are the entries `_state_allocator` yields from `begin()` to `end()`, each a
  key together with its aggregate state (`it.value()`); `null_key_data` is
  `hash_map_with_key.null_key_data` (`none` for `nullptr`, and for every variant with
  `has_single_null_key = false`);
* `hash_set_keys` are the keys `hash_set.hash_set` yields from `begin()` to `end()`;
  `has_null_key` is `hash_set.has_null_key` (`false` for every variant without a single null key);
* `_it_hash` is the stored cursor, a position in the entry sequence. -/
structure Aggregator (κ σ : Type) where
  state_chunk_size : Nat
  use_intermediate_as_output : Bool
  _agg_fn_ctxs : List FunctionContext
  hash_map_states : List (κ × σ)
  null_key_data : Option σ
  hash_set_keys : List κ
  has_null_key : Bool
  _it_hash : Nat
  _num_rows_returned : Nat
  _num_rows_processed : Nat
  _is_ht_eos : Bool

/-- A chunk produced by `convert_hash_map_to_chunk`: one row per group, the group-by column
(nullable: `none` is the NULL key) and the aggregate state the result columns are finalized or
serialized from; `intermediate` records which of the two. -/
structure HashMapChunk (κ σ : Type) where
  intermediate : Bool
  rows : List (Option κ × σ)

/-- A chunk produced by `convert_hash_set_to_chunk`: the (nullable) group-by column only. -/
structure HashSetChunk (κ : Type) where
  intermediate : Bool
  rows : List (Option κ)

/-- The read loop of the drain functions without the scratch vector (the loop of
`convert_hash_set_to_chunk`),
`while (it != end && read_index < chunk_size) { results[read_index] = *it; ++read_index; ++it; }`.
The first argument is `chunk_size - read_index`, `it` the position of the iterator, `results`
the entries read so far (`read_index = results.length`).  Returns the iterator and the results
when the loop exits. -/
def read_results {α : Type} (entries : List α) : Nat → Nat → List α → Nat × List α
  | 0, it, results => (it, results)
  | budget + 1, it, results =>
    match entries.get? it with
    | none => (it, results)
    | some value => read_results entries budget (it + 1) (results ++ [value])

/-- The test `it == end` for an iterator position over `entries`. -/
def it_at_end {α : Type} (entries : List α) (it : Nat) : Bool :=
  (entries.get? it).isNone

/-- The two ways a call of `convert_hash_map_to_chunk` ends without a chunk: it returns a
non-OK `Status`, or its read loop stores into the scratch vector `_tmp_agg_states` at an index
past the end of the vector (`operator[]` out of range). -/
inductive DrainFault where
  | status (err : Status)
  | tmp_agg_states_out_of_range
  deriving DecidableEq, Repr

/-- The read loop of `convert_hash_map_to_chunk`,
`while ((it != end) & (read_index < chunk_size)) { results[read_index] = key of it;
_tmp_agg_states[read_index] = value; ++read_index; it.next(); }`.
`results` is resized to `chunk_size` before the loop, so its store is in range;
`tmp_agg_states_size` is `_tmp_agg_states.size()`, and a store at
`read_index ≥ _tmp_agg_states.size()` is out of range: `none`.  The other arguments are those
of `read_results`. -/
def read_hash_map_results {α : Type} (entries : List α) (tmp_agg_states_size : Nat) :
    Nat → Nat → List α → Option (Nat × List α)
  | 0, it, results => some (it, results)
  | budget + 1, it, results =>
    match entries.get? it with
    | none => some (it, results)
    | some value =>
      if results.length < tmp_agg_states_size then
        read_hash_map_results entries tmp_agg_states_size budget (it + 1) (results ++ [value])
      else none

/-- `Aggregator::convert_hash_map_to_chunk(chunk_size, chunk, force_use_intermediate_as_output)`.

The loop reads at most `chunk_size` entries from the stored cursor and stores each state read
in `_tmp_agg_states`, which `prepare` sizes to `_state->chunk_size()` elements
(`_tmp_agg_states.resize(_state->chunk_size())`): reading more than `_state->chunk_size()`
entries in one call stores past the end of that vector.  `check_has_error` may abort the call
before anything is stored in the aggregator; `_is_ht_eos = (it == end)`; when the iterator is
at the end and a null key exists it is appended if `read_index < _state->chunk_size()` and
otherwise `_is_ht_eos` is reset to `false`; finally the cursor and the two row counters are
stored.  `chunk_size` (an `int32_t`) and `_state->chunk_size()` are taken non-negative. -/
def convert_hash_map_to_chunk {κ σ : Type} (chunk_size : Nat)
    (force_use_intermediate_as_output : Bool) (agg : Aggregator κ σ) :
    Except DrainFault (HashMapChunk κ σ × Aggregator κ σ) :=
  let use_intermediate := force_use_intermediate_as_output || agg.use_intermediate_as_output
  match read_hash_map_results agg.hash_map_states agg.state_chunk_size chunk_size
      agg._it_hash [] with
  | none => Except.error DrainFault.tmp_agg_states_out_of_range
  | some r =>
    let it := r.1
    let read_index := r.2.length
    let rows : List (Option κ × σ) := r.2.map (fun e => (some e.1, e.2))
    match check_has_error agg._agg_fn_ctxs with
    | Status.OK =>
      let eos := it_at_end agg.hash_map_states it
      match eos, agg.null_key_data with
      | true, some null_state =>
        if read_index < agg.state_chunk_size then
          match check_has_error agg._agg_fn_ctxs with
          | Status.OK =>
            Except.ok
              ({ intermediate := use_intermediate, rows := rows ++ [(none, null_state)] },
               { agg with
                  _is_ht_eos := true
                  _it_hash := it
                  _num_rows_returned := agg._num_rows_returned + (read_index + 1)
                  _num_rows_processed := agg._num_rows_processed + (read_index + 1) })
          | err => Except.error (DrainFault.status err)
        else
          Except.ok
            ({ intermediate := use_intermediate, rows := rows },
             { agg with
                _is_ht_eos := false
                _it_hash := it
                _num_rows_returned := agg._num_rows_returned + read_index
                _num_rows_processed := agg._num_rows_processed + read_index })
      | _, _ =>
        Except.ok
          ({ intermediate := use_intermediate, rows := rows },
           { agg with
              _is_ht_eos := eos
              _it_hash := it
              _num_rows_returned := agg._num_rows_returned + read_index
              _num_rows_processed := agg._num_rows_processed + read_index })
    | err => Except.error (DrainFault.status err)

/-- `Aggregator::convert_hash_set_to_chunk(chunk_size, chunk)`: the same protocol over the keys
of the hash set; the function returns `void`, there is no error path. -/
def convert_hash_set_to_chunk {κ σ : Type} (chunk_size : Nat) (agg : Aggregator κ σ) :
    HashSetChunk κ × Aggregator κ σ :=
  let r := read_results agg.hash_set_keys chunk_size agg._it_hash []
  let it := r.1
  let read_index := r.2.length
  let rows : List (Option κ) := r.2.map some
  let eos := it_at_end agg.hash_set_keys it
  if eos && agg.has_null_key then
    if read_index < agg.state_chunk_size then
      ({ intermediate := agg.use_intermediate_as_output, rows := rows ++ [none] },
       { agg with
          _is_ht_eos := true
          _it_hash := it
          _num_rows_returned := agg._num_rows_returned + (read_index + 1)
          _num_rows_processed := agg._num_rows_processed + (read_index + 1) })
    else
      ({ intermediate := agg.use_intermediate_as_output, rows := rows },
       { agg with
          _is_ht_eos := false
          _it_hash := it
          _num_rows_returned := agg._num_rows_returned + read_index
          _num_rows_processed := agg._num_rows_processed + read_index })
  else
    ({ intermediate := agg.use_intermediate_as_output, rows := rows },
     { agg with
        _is_ht_eos := eos
        _it_hash := it
        _num_rows_returned := agg._num_rows_returned + read_index
        _num_rows_processed := agg._num_rows_processed + read_index })

/-- The caller of the hash-map drain: call `convert_hash_map_to_chunk` with the same batch cap
until a call leaves `_is_ht_eos` set (or ends without a chunk); no call is made after that.  The
first argument bounds the number of calls; the chunks are returned in call order. -/
def drain_hash_map {κ σ : Type} (chunk_size : Nat) (force_use_intermediate_as_output : Bool) :
    Nat → Aggregator κ σ → Except DrainFault (List (HashMapChunk κ σ) × Aggregator κ σ)
  | 0, agg => Except.ok ([], agg)
  | calls + 1, agg =>
    match convert_hash_map_to_chunk chunk_size force_use_intermediate_as_output agg with
    | Except.error err => Except.error err
    | Except.ok (chunk, agg1) =>
      if agg1._is_ht_eos then Except.ok ([chunk], agg1)
      else
        match drain_hash_map chunk_size force_use_intermediate_as_output calls agg1 with
        | Except.error err => Except.error err
        | Except.ok (chunks, agg2) => Except.ok (chunk :: chunks, agg2)

/-- The caller of the hash-set drain: call `convert_hash_set_to_chunk` with the same batch cap
until a call leaves `_is_ht_eos` set. -/
def drain_hash_set {κ σ : Type} (chunk_size : Nat) :
    Nat → Aggregator κ σ → List (HashSetChunk κ) × Aggregator κ σ
  | 0, agg => ([], agg)
  | calls + 1, agg =>
    let r := convert_hash_set_to_chunk chunk_size agg
    if r.2._is_ht_eos then ([r.1], r.2)
    else
      let rest := drain_hash_set chunk_size calls r.2
      (r.1 :: rest.1, rest.2)

/-- All rows the hash map holds, in drain order: the entries of the table, then the null-key
group if the slot is populated. -/
def hash_map_all_rows {κ σ : Type} (agg : Aggregator κ σ) : List (Option κ × σ) :=
  agg.hash_map_states.map (fun e => (some e.1, e.2)) ++
    (match agg.null_key_data with
     | some null_state => [(none, null_state)]
     | none => [])

/-- All rows the hash set holds, in drain order. -/
def hash_set_all_rows {κ σ : Type} (agg : Aggregator κ σ) : List (Option κ) :=
  agg.hash_set_keys.map some ++ (if agg.has_null_key then [none] else [])

/-- A small aggregator over natural-number keys and states, positioned at `begin()`. -/
def sample_agg (state_chunk_size : Nat) (entries : List (Nat × Nat)) (null_state : Option Nat) :
    Aggregator Nat Nat :=
  { state_chunk_size := state_chunk_size
    use_intermediate_as_output := false
    _agg_fn_ctxs := [{ has_error := false, error_msg := "" }]
    hash_map_states := entries
    null_key_data := null_state
    hash_set_keys := entries.map Prod.fst
    has_null_key := null_state.isSome
    _it_hash := 0
    _num_rows_returned := 0
    _num_rows_processed := 0
    _is_ht_eos := false }

/-! ## The drain protocol on an abstract cursor

Both drain functions follow one protocol, the hash-map function on every call that returns a
chunk (no error flag, no store past the end of `_tmp_agg_states`).  `DrainView` keeps what the
protocol depends on: the rows not yet visited by the iterator, the row of the null key (if
any), `_state->chunk_size()` and the end-of-data flag.  The lemmas below are proved once on
views and transferred to the two functions through `hash_map_view` and `hash_set_view`. -/

/-- The protocol-relevant content of a drain state, with rows of type `ρ`. -/
structure DrainView (ρ : Type) where
  pending : List ρ
  null_row : Option ρ
  cap : Nat
  eos : Bool

/-- One drain call on a view: the rows returned and the view afterwards. -/
def DrainView.step {ρ : Type} (B : Nat) (v : DrainView ρ) : List ρ × DrainView ρ :=
  if v.pending.length ≤ B then
    match v.null_row with
    | some r =>
      if v.pending.length < v.cap then
        (v.pending ++ [r], { v with pending := [], eos := true })
      else
        (v.pending, { v with pending := [], eos := false })
    | none => (v.pending, { v with pending := [], eos := true })
  else
    (v.pending.take B, { v with pending := v.pending.drop B, eos := false })

/-- Repeated drain calls on a view, stopping after the first call that sets `eos`. -/
def DrainView.drain {ρ : Type} (B : Nat) : Nat → DrainView ρ → List (List ρ) × DrainView ρ
  | 0, v => ([], v)
  | calls + 1, v =>
    if (v.step B).2.eos then ([(v.step B).1], (v.step B).2)
    else ((v.step B).1 :: (DrainView.drain B calls (v.step B).2).1,
          (DrainView.drain B calls (v.step B).2).2)

/-- The view of an aggregator as seen by `convert_hash_map_to_chunk`. -/
def hash_map_view {κ σ : Type} (agg : Aggregator κ σ) : DrainView (Option κ × σ) :=
  { pending := (agg.hash_map_states.drop agg._it_hash).map (fun e => (some e.1, e.2))
    null_row := agg.null_key_data.map (fun s => (none, s))
    cap := agg.state_chunk_size
    eos := agg._is_ht_eos }

/-- The view of an aggregator as seen by `convert_hash_set_to_chunk`. -/
def hash_set_view {κ σ : Type} (agg : Aggregator κ σ) : DrainView (Option κ) :=
  { pending := (agg.hash_set_keys.drop agg._it_hash).map some
    null_row := if agg.has_null_key then some none else none
    cap := agg.state_chunk_size
    eos := agg._is_ht_eos }

/-- Rounding-up division, `ceil(K / B)`. -/
def ceil_div (K B : Nat) : Nat := (K + B - 1) / B

/-! ## Aggregate-state layout (`Aggregator::open`) -/

/-- The part of an aggregate function the layout reads: `size()` and `alignof_size()`. -/
structure AggregateFunction where
  size : Nat
  alignof_size : Nat
  deriving DecidableEq, Repr

/-- The two ways the layout arithmetic of `open` leaves defined behaviour: `operator[]` past
the end of `_agg_functions`, and `/` or `%` by an alignment of zero. -/
inductive LayoutFault where
  | index_out_of_range
  | division_by_zero
  deriving DecidableEq, Repr

/-- The macro `ALIGN_TO(size, align) ((size + align - 1) / align * align)`. -/
def ALIGN_TO (size align : Nat) : Except LayoutFault Nat :=
  if align = 0 then Except.error LayoutFault.division_by_zero
  else Except.ok ((size + align - 1) / align * align)

/-- The macro `PAD(size, align) (align - (size % align)) % align`. -/
def PAD (size align : Nat) : Except LayoutFault Nat :=
  if align = 0 then Except.error LayoutFault.division_by_zero
  else Except.ok ((align - size % align) % align)

/-- The layout fields of `Aggregator`: `_agg_states_offsets`, `_agg_states_total_size` and
`_max_agg_state_align_size`. -/
structure AggregateStateLayout where
  _agg_states_offsets : List Nat
  _agg_states_total_size : Nat
  _max_agg_state_align_size : Nat
  deriving DecidableEq, Repr

/-- The loop `for (int i = 0; i < _agg_fn_ctxs.size(); ++i)` of `open`, on the functions from
index `i` on: record the offset of function `i` (the `i`-th write into `_agg_states_offsets`),
add its size, update the maximum alignment and, if function `i + 1` exists, round the running
size up with `ALIGN_TO` to the alignment of function `i + 1`. -/
def layout_loop : List AggregateFunction → AggregateStateLayout →
    Except LayoutFault AggregateStateLayout
  | [], layout => Except.ok layout
  | fn :: rest, layout =>
    let offsets := layout._agg_states_offsets ++ [layout._agg_states_total_size]
    let total := layout._agg_states_total_size + fn.size
    let max_align := max layout._max_agg_state_align_size fn.alignof_size
    match rest with
    | [] =>
      Except.ok
        { _agg_states_offsets := offsets
          _agg_states_total_size := total
          _max_agg_state_align_size := max_align }
    | next :: _ =>
      match ALIGN_TO total next.alignof_size with
      | Except.error fault => Except.error fault
      | Except.ok aligned =>
        layout_loop rest
          { _agg_states_offsets := offsets
            _agg_states_total_size := aligned
            _max_agg_state_align_size := max_align }

/-- The layout block of `Aggregator::open`.  `num_group_by_exprs` is
`_group_by_expr_ctxs.size()`; `sizeof_KeyType` and `alignof_KeyType` are those of the key type
of the selected hash-map variant; `_is_only_group_by_columns` is computed as in `prepare`. -/
def open_layout (num_group_by_exprs sizeof_KeyType alignof_KeyType : Nat)
    (_agg_functions : List AggregateFunction) : Except LayoutFault AggregateStateLayout :=
  let _is_only_group_by_columns := _agg_functions.isEmpty && !(num_group_by_exprs == 0)
  if _is_only_group_by_columns then
    Except.ok
      { _agg_states_offsets := []
        _agg_states_total_size := 16
        _max_agg_state_align_size := 8 }
  else
    match _agg_functions with
    | [] => Except.error LayoutFault.index_out_of_range
    | fn0 :: _ =>
      let max_align := max alignof_KeyType fn0.alignof_size
      match PAD sizeof_KeyType fn0.alignof_size with
      | Except.error fault => Except.error fault
      | Except.ok pad =>
        match layout_loop _agg_functions
            { _agg_states_offsets := []
              _agg_states_total_size := sizeof_KeyType + pad
              _max_agg_state_align_size := max_align } with
        | Except.error fault => Except.error fault
        | Except.ok layout =>
          match ALIGN_TO layout._agg_states_total_size layout._max_agg_state_align_size with
          | Except.error fault => Except.error fault
          | Except.ok total => Except.ok { layout with _agg_states_total_size := total }

/-- Rounding `offset` up to the next multiple of `align`, as the design states it ("round the
current offset up to that function's required alignment"). -/
def round_up (offset align : Nat) : Nat :=
  if offset % align = 0 then offset else offset + (align - offset % align)

/-- The loop of the reference algorithm of the design: for each function in declaration order
round the current offset up to the function's alignment, record it as the function's offset,
advance by its state size, and track the maximum alignment seen.  Returns the recorded offsets
and the offset reached. -/
def reference_offsets : List AggregateFunction → Nat → List Nat × Nat
  | [], offset => ([], offset)
  | fn :: rest, offset =>
    let fn_offset := round_up offset fn.alignof_size
    let r := reference_offsets rest (fn_offset + fn.size)
    (fn_offset :: r.1, r.2)

/-- The maximum alignment seen over a list of functions (0 for no function). -/
def max_alignment (fns : List AggregateFunction) : Nat :=
  fns.foldl (fun m fn => max m fn.alignof_size) 0

/-- The reference algorithm of the design: start at the base offset reserved for the key
storage, run `reference_offsets`, and round the total up to the maximum alignment seen. -/
def reference_layout (base : Nat) (fns : List AggregateFunction) : AggregateStateLayout :=
  { _agg_states_offsets := (reference_offsets fns base).1
    _agg_states_total_size := round_up (reference_offsets fns base).2 (max_alignment fns)
    _max_agg_state_align_size := max_alignment fns }

/-! ## Scalar aggregation output (`convert_to_chunk_no_groupby`) -/

/-- The fields of `AggFunctionTypes` that decide nullability; `τ` is the type of type
descriptors. -/
structure AggFunctionTypes (τ : Type) where
  result_type : τ
  serde_type : τ
  has_nullable_child : Bool
  is_nullable : Bool
  is_always_nullable_result : Bool

/-- `AggFunctionTypes::is_result_nullable<UseIntermediateAsOutput>()`. -/
def AggFunctionTypes.is_result_nullable {τ : Type} (UseIntermediateAsOutput : Bool)
    (t : AggFunctionTypes τ) : Bool :=
  if UseIntermediateAsOutput then t.has_nullable_child
  else (t.has_nullable_child && t.is_nullable) || t.is_always_nullable_result

/-- Modelled from the spec: a column, whose class is not part of the sources at hand.  It has
a type descriptor, is nullable or not, and holds one cell per row; `none` is a NULL cell. -/
structure Column (τ ν : Type) where
  type_desc : τ
  nullable : Bool
  cells : List (Option ν)

/-- Modelled from the spec: `ColumnHelper::create_column(type, nullable)`, an empty column. -/
def create_column {τ ν : Type} (type_desc : τ) (nullable : Bool) : Column τ ν :=
  { type_desc := type_desc, nullable := nullable, cells := [] }

/-- Modelled from the spec: `Column::append_default()`.  On a nullable column it appends a NULL
cell ("forces a nullable-null output"); on a non-nullable column it appends the default value
of the type, given as `default_value`. -/
def Column.append_default {τ ν : Type} (default_value : ν) (c : Column τ ν) : Column τ ν :=
  { c with cells := c.cells ++ [if c.nullable then none else some default_value] }

/-- Modelled from the spec: `Chunk::num_rows()`, the common length of the columns of a chunk
(0 for a chunk without columns). -/
def chunk_num_rows {τ ν : Type} (columns : List (Column τ ν)) : Nat :=
  match columns with
  | [] => 0
  | c :: _ => c.cells.length

/-- One aggregate function of the aggregator: its resolved types (`_agg_fn_types[i]`), its
function context (`_agg_fn_ctxs[i]`), and the cell that `finalize_to_column` and
`serialize_to_column` of `_agg_functions[i]` append for a given aggregate state. -/
structure AggFunctionSlot (τ σ ν : Type) where
  types : AggFunctionTypes τ
  ctx : FunctionContext
  finalize_to_column : σ → Option ν
  serialize_to_column : σ → Option ν

/-- The fields of `Aggregator` used by `convert_to_chunk_no_groupby`.
`num_group_by_exprs` is `_group_by_expr_ctxs.size()`. -/
structure ScalarAggregator (τ σ ν : Type) where
  functions : List (AggFunctionSlot τ σ ν)
  _single_agg_state : σ
  _num_input_rows : Nat
  num_group_by_exprs : Nat
  use_intermediate_as_output : Bool
  default_value : ν
  _num_rows_returned : Nat
  _num_rows_processed : Nat
  _is_ht_eos : Bool

/-- `Aggregator::_create_agg_result_columns(num_rows, use_intermediate)`: one empty column per
function, of the result type or the serde type (`reserve` does not add rows). -/
def _create_agg_result_columns {τ σ ν : Type} (functions : List (AggFunctionSlot τ σ ν))
    (use_intermediate : Bool) : List (Column τ ν) :=
  if !use_intermediate then
    functions.map (fun fn =>
      create_column fn.types.result_type (fn.types.is_result_nullable false))
  else
    functions.map (fun fn =>
      create_column fn.types.serde_type (fn.types.is_result_nullable true))

/-- `Aggregator::_finalize_to_chunk(state, agg_result_columns)`: function `i` appends its
finalized value to column `i`. -/
def _finalize_to_chunk {τ σ ν : Type} (functions : List (AggFunctionSlot τ σ ν)) (state : σ)
    (agg_result_columns : List (Column τ ν)) : List (Column τ ν) :=
  List.zipWith (fun fn col => { col with cells := col.cells ++ [fn.finalize_to_column state] })
    functions agg_result_columns

/-- `Aggregator::_serialize_to_chunk(state, agg_result_columns)`. -/
def _serialize_to_chunk {τ σ ν : Type} (functions : List (AggFunctionSlot τ σ ν)) (state : σ)
    (agg_result_columns : List (Column τ ν)) : List (Column τ ν) :=
  List.zipWith (fun fn col => { col with cells := col.cells ++ [fn.serialize_to_column state] })
    functions agg_result_columns

/-- `Aggregator::convert_to_chunk_no_groupby(chunk)`.  The result columns are created for one
row and filled from `_single_agg_state`; after `check_has_error`, if no input row was seen,
there is no group-by expression and the output is final, the column of every function whose
`_agg_fn_types[i].is_nullable` is set is replaced by a fresh nullable column holding one
default (NULL) row.  The columns are returned in function order.  (Allocation failure inside
`TRY_CATCH_BAD_ALLOC` is not modelled.) -/
def convert_to_chunk_no_groupby {τ σ ν : Type} (agg : ScalarAggregator τ σ ν) :
    Except Status (List (Column τ ν) × ScalarAggregator τ σ ν) :=
  let use_intermediate := agg.use_intermediate_as_output
  let created := _create_agg_result_columns agg.functions use_intermediate
  let filled :=
    if !use_intermediate then _finalize_to_chunk agg.functions agg._single_agg_state created
    else _serialize_to_chunk agg.functions agg._single_agg_state created
  match check_has_error (agg.functions.map (fun fn => fn.ctx)) with
  | Status.OK =>
    let agg_result_column :=
      if agg._num_input_rows == 0 && agg.num_group_by_exprs == 0 && !use_intermediate then
        List.zipWith
          (fun fn col =>
            if fn.types.is_nullable then
              (create_column fn.types.result_type true).append_default agg.default_value
            else col)
          agg.functions filled
      else filled
    Except.ok
      (agg_result_column,
       { agg with
          _num_rows_returned := agg._num_rows_returned + 1
          _num_rows_processed := agg._num_rows_processed + 1
          _is_ht_eos := true })
  | err => Except.error err

/-- A scalar aggregator with `sum` over a non-nullable input (result may be NULL: `is_nullable`
set) and `count` (never NULL), whose state holds the sum and the count. -/
def sample_scalar_agg (num_input_rows : Nat) (state : Nat × Nat) :
    ScalarAggregator String (Nat × Nat) Nat :=
  { functions :=
      [{ types := { result_type := "BIGINT", serde_type := "BIGINT",
                    has_nullable_child := false, is_nullable := true,
                    is_always_nullable_result := false }
         ctx := { has_error := false, error_msg := "" }
         finalize_to_column := fun s => some s.1
         serialize_to_column := fun s => some s.1 },
       { types := { result_type := "BIGINT", serde_type := "BIGINT",
                    has_nullable_child := false, is_nullable := false,
                    is_always_nullable_result := false }
         ctx := { has_error := false, error_msg := "" }
         finalize_to_column := fun s => some s.2
         serialize_to_column := fun s => some s.2 }]
    _single_agg_state := state
    _num_input_rows := num_input_rows
    num_group_by_exprs := 0
    use_intermediate_as_output := false
    default_value := 0
    _num_rows_returned := 0
    _num_rows_processed := 0
    _is_ht_eos := false }

/-! ## Streaming pre-aggregation (`should_expand_preagg_hash_tables`) -/

/-- One entry of `STREAMING_HT_MIN_REDUCTION`; `D` is the type of `double` values. -/
structure StreamingHtMinReductionEntry (D : Type) where
  min_ht_mem : Int
  streaming_ht_min_reduction : D

/-- The constant array `STREAMING_HT_MIN_REDUCTION`, whose initialiser is not part of the
sources at hand: a C++ array, so it has a first element. -/
structure StreamingHtMinReductionTable (D : Type) where
  first : StreamingHtMinReductionEntry D
  rest : List (StreamingHtMinReductionEntry D)

/-- The elements of the array in index order. -/
def StreamingHtMinReductionTable.entries {D : Type} (t : StreamingHtMinReductionTable D) :
    List (StreamingHtMinReductionEntry D) :=
  t.first :: t.rest

/-- The constant `STREAMING_HT_MIN_REDUCTION_SIZE`, the number of elements of the array. -/
def STREAMING_HT_MIN_REDUCTION_SIZE {D : Type} (t : StreamingHtMinReductionTable D) : Nat :=
  t.entries.length

/-- The `double` operations `should_expand_preagg_hash_tables` uses: conversion from
`int64_t`, division, and the comparison `>`. -/
structure DoubleOps (D : Type) where
  of_int64 : Int → D
  div : D → D → D
  gt : D → D → Bool

/-- The value of an integer as an `int64_t` (two's complement wrap-around). -/
def wrap_int64 (z : Int) : Int :=
  (z + 2 ^ 63) % 2 ^ 64 - 2 ^ 63

/-- The loop
`while (cache_level + 1 < SIZE && ht_mem >= TABLE[cache_level + 1].min_ht_mem) cache_level++;`
on the elements from index `cache_level + 1` on. -/
def advance_cache_level {D : Type} (ht_mem : Int) :
    List (StreamingHtMinReductionEntry D) → Nat → Nat
  | [], cache_level => cache_level
  | next :: rest, cache_level =>
    if ht_mem ≥ next.min_ht_mem then advance_cache_level ht_mem rest (cache_level + 1)
    else cache_level

/-- `Aggregator::should_expand_preagg_hash_tables(prev_row_returned, input_chunk_size, ht_mem,
ht_rows)`.  `prev_row_returned` and `input_chunk_size` are `size_t` (their difference wraps at
`2 ^ 64` and is then read as `int64_t`), the other integers are `int64_t`.  The result is
`none` if the table were read past its end. -/
def should_expand_preagg_hash_tables {D : Type} (ops : DoubleOps D)
    (STREAMING_HT_MIN_REDUCTION : StreamingHtMinReductionTable D) (_num_rows_returned : Int)
    (prev_row_returned input_chunk_size : Nat) (ht_mem ht_rows : Int) : Option Bool :=
  if ht_rows = 0 then some true
  else
    let cache_level := advance_cache_level ht_mem STREAMING_HT_MIN_REDUCTION.rest 0
    let input_rows := wrap_int64 ((prev_row_returned : Int) - (input_chunk_size : Int))
    let aggregated_input_rows := wrap_int64 (input_rows - _num_rows_returned)
    let current_reduction := ops.div (ops.of_int64 aggregated_input_rows) (ops.of_int64 ht_rows)
    if aggregated_input_rows ≤ 0 then some true
    else
      match STREAMING_HT_MIN_REDUCTION.entries.get? cache_level with
      | some entry => some (ops.gt current_reduction entry.streaming_ht_min_reduction)
      | none => none

/-- Exact rational arithmetic in the role of the `double` operations. -/
def rational_ops : DoubleOps Rat :=
  { of_int64 := fun z => (z : Rat)
    div := fun a b => a / b
    gt := fun a b => decide (a > b) }

/-- A table with three levels: thresholds 0, 256 KB and 2 MB with minimum reductions
0, 1.1 and 2. -/
def sample_reduction_table : StreamingHtMinReductionTable Rat :=
  { first := { min_ht_mem := 0, streaming_ht_min_reduction := 0 }
    rest := [{ min_ht_mem := 262144, streaming_ht_min_reduction := 11 / 10 },
             { min_ht_mem := 2097152, streaming_ht_min_reduction := 2 }] }

/-! ## Building the hash map under a shared limit -/

/-- The fields of one sibling `Aggregator` used by the build functions: the keys of
`_hash_map_variant` (so `_hash_map_variant.size()` is their number) and `_limit`. -/
structure LimitedAggregator where
  hash_map_keys : List Nat
  _limit : Nat
  deriving DecidableEq, Repr

/-- Modelled from the spec: `build_hash_map_with_limit` of the hash-map variant, which is not
part of the sources at hand ("stop inserting new groups once a row-count cap is reached; rows
that would have created new groups beyond the cap are instead marked for pass-through").  For
each row of the chunk, a key not yet in the map is inserted while the map holds fewer than
`limit` groups.  Returns the keys of the map afterwards. -/
def build_hash_map_with_limit (limit : Nat) : List Nat → List Nat → List Nat
  | [], keys => keys
  | key :: rows, keys =>
    if key ∈ keys then build_hash_map_with_limit limit rows keys
    else if keys.length < limit then build_hash_map_with_limit limit rows (keys ++ [key])
    else build_hash_map_with_limit limit rows keys

/-- Modelled from the spec: the plain `build_hash_map` of the hash-map variant, which inserts
every key of the chunk that is not yet in the map. -/
def variant_build_hash_map : List Nat → List Nat → List Nat
  | [], keys => keys
  | key :: rows, keys =>
    if key ∈ keys then variant_build_hash_map rows keys
    else variant_build_hash_map rows (keys ++ [key])

/-- `Aggregator::build_hash_map_with_selection(chunk_size)`.  Modelled from the spec: the
variant's function of the same name only looks keys up and marks the rows not found in
`_streaming_selection`; the map is unchanged. -/
def build_hash_map_with_selection (agg : LimitedAggregator) : LimitedAggregator :=
  agg

/-- `Aggregator::_build_hash_map_with_shared_limit(chunk_size, shared_limit_countdown)`; the
chunk is given by the keys of its rows.  Returns the aggregator and the countdown after the
call: the countdown is read before the build and decremented after it by the number of groups
the build inserted. -/
def _build_hash_map_with_shared_limit (chunk : List Nat) (shared_limit_countdown : Int)
    (agg : LimitedAggregator) : LimitedAggregator × Int :=
  let start_size := agg.hash_map_keys.length
  if agg.hash_map_keys.length ≥ agg._limit ∨ shared_limit_countdown ≤ 0 then
    (build_hash_map_with_selection agg, shared_limit_countdown)
  else
    let built := build_hash_map_with_limit agg._limit chunk agg.hash_map_keys
    ({ agg with hash_map_keys := built },
     shared_limit_countdown - ((built.length - start_size : Nat) : Int))

/-- `Aggregator::build_hash_map(chunk_size, agg_group_by_with_limit)`. -/
def build_hash_map_local (chunk : List Nat) (agg_group_by_with_limit : Bool)
    (agg : LimitedAggregator) : LimitedAggregator :=
  if agg_group_by_with_limit && decide (agg.hash_map_keys.length ≥ agg._limit) then
    build_hash_map_with_selection agg
  else
    { agg with hash_map_keys := variant_build_hash_map chunk agg.hash_map_keys }

/-- `Aggregator::build_hash_map(chunk_size, shared_limit_countdown, agg_group_by_with_limit)`;
`enable_pipeline_share_limit` is `_params->enable_pipeline_share_limit`. -/
def build_hash_map (chunk : List Nat) (shared_limit_countdown : Int)
    (agg_group_by_with_limit enable_pipeline_share_limit : Bool) (agg : LimitedAggregator) :
    LimitedAggregator × Int :=
  if agg_group_by_with_limit && enable_pipeline_share_limit then
    _build_hash_map_with_shared_limit chunk shared_limit_countdown agg
  else
    (build_hash_map_local chunk agg_group_by_with_limit agg, shared_limit_countdown)

/-- One call of `build_hash_map` (both flags set) by the sibling at position `index`, with the
shared countdown; a position past the last sibling is no call. -/
def sibling_call (chunk : List Nat) : List LimitedAggregator → Nat → Int →
    List LimitedAggregator × Int
  | [], _, countdown => ([], countdown)
  | agg :: rest, 0, countdown =>
    ((build_hash_map chunk countdown true true agg).1 :: rest,
     (build_hash_map chunk countdown true true agg).2)
  | agg :: rest, index + 1, countdown =>
    (agg :: (sibling_call chunk rest index countdown).1,
     (sibling_call chunk rest index countdown).2)

/-- A sequence of calls interleaved at call granularity: each element names the sibling that
calls and the keys of its chunk. -/
def sibling_calls : List (Nat × List Nat) → List LimitedAggregator → Int →
    List LimitedAggregator × Int
  | [], siblings, countdown => (siblings, countdown)
  | call :: calls, siblings, countdown =>
    sibling_calls calls (sibling_call call.2 siblings call.1 countdown).1
      (sibling_call call.2 siblings call.1 countdown).2

/-- The number of groups held by all siblings together. -/
def total_groups (siblings : List LimitedAggregator) : Nat :=
  (siblings.map (fun agg => agg.hash_map_keys.length)).sum

/-! ## Spilling (`spill_aggregate_data`) -/

/-- The collaborators of `spill_aggregate_data`, none of which is part of the sources at hand,
as deterministic state machines: `χ` is the type of chunks with `Chunk::is_empty()`, `S` the
state of the spiller with `is_full()` and `spill(state, chunk, guard)` (which returns a status
and changes the spiller), `P` the state of the caller-supplied `chunk_provider`, whose
invocation returns a `StatusOr<ChunkPtr>` and changes the provider. -/
structure SpillEnv (χ S P : Type) where
  is_empty : χ → Bool
  is_full : S → Bool
  spill : S → χ → Status × S
  chunk_provider : P → Except Status χ × P

/-- What a call of `spill_aggregate_data` returns and does: the status returned, the results of
the invocations of `chunk_provider` in order, the chunks passed to `spiller->spill` in order
(each with the status `spill` returned), the providers handed to
`spill_channel->add_spill_task`, and the spiller afterwards. -/
structure SpillOutcome (χ S P : Type) where
  status : Status
  pulled : List (Except Status χ)
  spilled : List (χ × Status)
  spill_tasks : List P
  spiller : S

/-- `Aggregator::spill_aggregate_data(state, chunk_provider)`.  The first argument bounds the
number of iterations of `while (!spiller->is_full())`; the result is `none` if the loop has not
ended within that many iterations. -/
def spill_aggregate_data {χ S P : Type} (env : SpillEnv χ S P) :
    Nat → S → P → Option (SpillOutcome χ S P)
  | 0, _, _ => none
  | fuel + 1, spiller, chunk_provider =>
    if env.is_full spiller then
      some { status := Status.OK, pulled := [], spilled := [],
             spill_tasks := [chunk_provider], spiller := spiller }
    else
      match env.chunk_provider chunk_provider with
      | (Except.ok chunk, provider1) =>
        if !env.is_empty chunk then
          match env.spill spiller chunk with
          | (Status.OK, spiller1) =>
            match spill_aggregate_data env fuel spiller1 provider1 with
            | none => none
            | some r =>
              some { status := r.status, pulled := Except.ok chunk :: r.pulled,
                     spilled := (chunk, Status.OK) :: r.spilled,
                     spill_tasks := r.spill_tasks, spiller := r.spiller }
          | (err, spiller1) =>
            some { status := err, pulled := [Except.ok chunk], spilled := [(chunk, err)],
                   spill_tasks := [], spiller := spiller1 }
        else
          match spill_aggregate_data env fuel spiller provider1 with
          | none => none
          | some r =>
            some { status := r.status, pulled := Except.ok chunk :: r.pulled,
                   spilled := r.spilled, spill_tasks := r.spill_tasks, spiller := r.spiller }
      | (Except.error st, _) =>
        if st.is_end_of_file then
          some { status := Status.OK, pulled := [Except.error st], spilled := [],
                 spill_tasks := [], spiller := spiller }
        else
          some { status := st, pulled := [Except.error st], spilled := [],
                 spill_tasks := [], spiller := spiller }

/-- The provider after `n` invocations. -/
def provider_after {χ S P : Type} (env : SpillEnv χ S P) : Nat → P → P
  | 0, provider => provider
  | n + 1, provider => provider_after env n (env.chunk_provider provider).2

/-- The spiller after the results `pulled` have been handled: every non-empty chunk among them
has been passed to `spill`. -/
def spiller_after {χ S P : Type} (env : SpillEnv χ S P) : List (Except Status χ) → S → S
  | [], spiller => spiller
  | Except.ok chunk :: rest, spiller =>
    if !env.is_empty chunk then spiller_after env rest (env.spill spiller chunk).2
    else spiller_after env rest spiller
  | Except.error _ :: rest, spiller => spiller_after env rest spiller

/-- The chunk of a successful provider result. -/
def pulled_chunk {χ : Type} : Except Status χ → Option χ
  | Except.ok chunk => some chunk
  | Except.error _ => none

/-- A spiller that is full once it holds `capacity` rows and whose `spill` fails on a chunk
holding the row 0; chunks are lists of rows; the provider is the list of results it has yet to
return, followed by end-of-file. -/
def sample_spill_env (capacity : Nat) : SpillEnv (List Nat) Nat (List (Except Status (List Nat))) :=
  { is_empty := fun chunk => chunk.isEmpty
    is_full := fun held => decide (capacity ≤ held)
    spill := fun held chunk =>
      if 0 ∈ chunk then (Status.InternalError "spill failed", held)
      else (Status.OK, held + chunk.length)
    chunk_provider := fun results =>
      match results with
      | [] => (Except.error (Status.EndOfFile "eos"), [])
      | result :: rest => (result, rest) }

/-! ## Creating and destroying aggregate states -/

/-- The aggregate states of an aggregator: the single state of the no-group-by case
(`_single_agg_state`), the state of the null key of the hash map, and the states the state
allocator yields, by position. -/
inductive AggStateRef where
  | single
  | null_key
  | group (index : Nat)
  deriving DecidableEq, Repr

/-- A completed call `_agg_functions[fn]->create(...)` or `_agg_functions[fn]->destroy(...)`
on the slot of function `fn` in a state. -/
inductive AggStateCall where
  | create (fn : Nat) (state : AggStateRef)
  | destroy (fn : Nat) (state : AggStateRef)
  deriving DecidableEq, Repr

/-- The `try` block of `call_agg_create` in `open`, from function `i` on, with `remaining`
functions left: `create` is called in function order until one throws `std::bad_alloc`
(`create_throws i`).  Returns the completed `create` calls and, if one threw, the value of
`created` at that point. -/
def create_single_states (create_throws : Nat → Bool) : Nat → Nat → List AggStateCall × Option Nat
  | 0, _ => ([], none)
  | remaining + 1, i =>
    if create_throws i then ([], some i)
    else
      (AggStateCall.create i AggStateRef.single ::
          (create_single_states create_throws remaining (i + 1)).1,
       (create_single_states create_throws remaining (i + 1)).2)

/-- The result of the no-group-by block of `open`: the status, whether `_single_agg_state` is
null afterwards, and the `create` and `destroy` calls made, in order. -/
structure CreateStatesResult where
  status : Status
  single_agg_state_is_null : Bool
  calls : List AggStateCall
  deriving DecidableEq, Repr

/-- The lambda `call_agg_create` of `open`: on `std::bad_alloc` the states created so far are
destroyed in function order, `_single_agg_state` is set to `nullptr`, and a memory-limit error
is returned. -/
def call_agg_create (num_functions : Nat) (create_throws : Nat → Bool) : CreateStatesResult :=
  match create_single_states create_throws num_functions 0 with
  | (calls, none) =>
    { status := Status.OK, single_agg_state_is_null := false, calls := calls }
  | (calls, some created) =>
    { status := Status.MemoryLimitExceeded "aggregate::create allocate failed"
      single_agg_state_is_null := true
      calls := calls ++
        (List.range created).map (fun i => AggStateCall.destroy i AggStateRef.single) }

/-- The block `if (_group_by_expr_ctxs.empty()) { ... }` of `Aggregator::open`.
`num_group_by_exprs` is `_group_by_expr_ctxs.size()`, `num_functions` the number of aggregate
functions (`_agg_functions.size()`, also `_agg_expr_ctxs.size()`), `allocate_fails` says
whether `allocate_aligned` returns null.  With group-by expressions the block is skipped and
`_single_agg_state` stays null. -/
def open_create_states (num_group_by_exprs num_functions : Nat) (allocate_fails : Bool)
    (create_throws : Nat → Bool) : CreateStatesResult :=
  if num_group_by_exprs = 0 then
    if allocate_fails then
      { status := Status.MemoryAllocFailed "alloc single agg state failed"
        single_agg_state_is_null := true, calls := [] }
    else
      let created := call_agg_create num_functions create_throws
      if created.status.ok then
        if num_functions = 0 then
          { created with status := Status.InternalError "Invalid agg query plan" }
        else created
      else created
  else
    { status := Status.OK, single_agg_state_is_null := true, calls := [] }

/-- The fields of `Aggregator` that `close` and `_release_agg_memory` read: `is_pod_state`
holds `_agg_functions[i]->is_pod_state()` for every aggregate function, `hash_map_is_null`
says whether the pointer held by `_hash_map_variant` is null, `null_key_data_is_null` whether
`get_null_key_data()` returns null, and `num_group_states` is the number of states the state
allocator yields from `begin()` to `end()`. -/
structure AggregatorMemory where
  _is_closed : Bool
  mem_pool_is_null : Bool
  single_agg_state_is_null : Bool
  _is_only_group_by_columns : Bool
  is_pod_state : List Bool
  hash_map_is_null : Bool
  null_key_data_is_null : Bool
  num_group_states : Nat
  deriving DecidableEq, Repr

/-- The loop `for (i = 0; i < _agg_functions.size(); i++) _agg_functions[i]->destroy(...)` on
one state. -/
def destroy_state (num_functions : Nat) (state : AggStateRef) : List AggStateCall :=
  (List.range num_functions).map (fun i => AggStateCall.destroy i state)

/-- `Aggregator::_release_agg_memory()`: the `destroy` calls it makes, in order. -/
def _release_agg_memory (m : AggregatorMemory) : List AggStateCall :=
  let skip_destroy := m.is_pod_state.all (fun is_pod => is_pod)
  if !m.hash_map_is_null && !skip_destroy then
    (if !m.null_key_data_is_null then destroy_state m.is_pod_state.length AggStateRef.null_key
     else []) ++
    ((List.range m.num_group_states).map
      (fun index => destroy_state m.is_pod_state.length (AggStateRef.group index))).flatten
  else []

/-- `Aggregator::close(state)`: the `destroy` calls it makes and the fields afterwards. -/
def close (m : AggregatorMemory) : List AggStateCall × AggregatorMemory :=
  if m._is_closed then ([], m)
  else
    (if !m.mem_pool_is_null then
        if !m.single_agg_state_is_null then
          destroy_state m.is_pod_state.length AggStateRef.single
        else if !m._is_only_group_by_columns then _release_agg_memory m
        else []
      else [],
     { m with
        _is_closed := true
        hash_map_is_null := if m._is_only_group_by_columns then m.hash_map_is_null else true })

/-! ## Selecting the hash-table variant (`_init_agg_hash_variant`) -/

/-- `AggrPhase`. -/
inductive AggrPhase where
  | AggrPhase1
  | AggrPhase2
  deriving DecidableEq, Repr

/-- The values of `HashVariantType::Type` that `_init_agg_hash_variant` names; `unary` stands
for the types `get_unary_type` returns that are not one of the slice types. -/
inductive HashVariantType where
  | phase1_slice
  | phase2_slice
  | phase1_slice_fx4
  | phase2_slice_fx4
  | phase1_slice_fx8
  | phase2_slice_fx8
  | phase1_slice_fx16
  | phase2_slice_fx16
  | unary (tag : Nat)
  deriving DecidableEq, Repr

/-- One group-by column as `is_group_columns_fixed_size` sees it: `group_by_types[i].is_nullable`,
`ctx->root()->type().is_complex_type()`, and `get_size_of_fixed_length_type(ltype)`, which is 0
for a type that is not of fixed length. -/
structure GroupByColumn where
  is_nullable : Bool
  is_complex_type : Bool
  byte_size : Nat
  deriving DecidableEq, Repr

/-- The loop of `is_group_columns_fixed_size` from some column on, with the running `size` and
`*has_null`.  Returns the function's result, `size` and `*has_null` when it returns. -/
def group_columns_fixed_size_loop : List GroupByColumn → Nat → Bool → Bool × Nat × Bool
  | [], size, has_null => (true, size, has_null)
  | column :: rest, size, has_null =>
    let has_null1 := if column.is_nullable then true else has_null
    let size1 := if column.is_nullable then size + 1 else size
    if column.is_complex_type then (false, size1, has_null1)
    else if column.byte_size = 0 then (false, size1, has_null1)
    else group_columns_fixed_size_loop rest (size1 + column.byte_size) has_null1

/-- `is_group_columns_fixed_size(group_by_expr_ctxs, group_by_types, max_size, has_null)`:
returns the result, `*max_size` (left at the caller's 0 when the result is false) and
`*has_null`. -/
def is_group_columns_fixed_size (columns : List GroupByColumn) : Bool × Nat × Bool :=
  let r := group_columns_fixed_size_loop columns 0 false
  (r.1, if r.1 then r.2.1 else 0, r.2.2)

/-- `Aggregator::_init_agg_hash_variant`: the type passed to `hash_variant.init`, with
`has_null_column` and `fixed_byte_size`.  `unary_type` is what
`get_unary_type(_aggr_phase, _group_by_types[0].result_type.type, _has_nullable_key)` returns,
used when there is exactly one group-by column. -/
def _init_agg_hash_variant (_aggr_phase : AggrPhase) (unary_type : HashVariantType)
    (columns : List GroupByColumn) : HashVariantType × Bool × Nat :=
  let type0 :=
    if _aggr_phase = AggrPhase.AggrPhase1 then HashVariantType.phase1_slice
    else HashVariantType.phase2_slice
  let type1 := if columns.length = 1 then unary_type else type0
  if type1 = HashVariantType.phase1_slice ∨ type1 = HashVariantType.phase2_slice then
    let fixed := is_group_columns_fixed_size columns
    let max_size := fixed.2.1
    let has_null_column := fixed.2.2
    if fixed.1 then
      let type2 :=
        if max_size < 4 ∨ (!has_null_column ∧ max_size = 4) then
          (if _aggr_phase = AggrPhase.AggrPhase1 then HashVariantType.phase1_slice_fx4
           else HashVariantType.phase2_slice_fx4)
        else if max_size < 8 ∨ (!has_null_column ∧ max_size = 8) then
          (if _aggr_phase = AggrPhase.AggrPhase1 then HashVariantType.phase1_slice_fx8
           else HashVariantType.phase2_slice_fx8)
        else if max_size < 16 ∨ (!has_null_column ∧ max_size = 16) then
          (if _aggr_phase = AggrPhase.AggrPhase1 then HashVariantType.phase1_slice_fx16
           else HashVariantType.phase2_slice_fx16)
        else type1
      (type2, has_null_column, if !has_null_column then max_size else 0)
    else (type1, has_null_column, 0)
  else (type1, false, 0)

/-- The serialized width of a list of columns: the byte sizes plus one byte per nullable
column. -/
def serialized_width (columns : List GroupByColumn) : Nat :=
  (columns.map (fun column => column.byte_size + (if column.is_nullable then 1 else 0))).sum

/-- The fixed-width variant of a phase for the widths 4, 8 and 16. -/
def slice_fx (_aggr_phase : AggrPhase) (width : Nat) : HashVariantType :=
  match _aggr_phase, width with
  | AggrPhase.AggrPhase1, 4 => HashVariantType.phase1_slice_fx4
  | AggrPhase.AggrPhase2, 4 => HashVariantType.phase2_slice_fx4
  | AggrPhase.AggrPhase1, 8 => HashVariantType.phase1_slice_fx8
  | AggrPhase.AggrPhase2, 8 => HashVariantType.phase2_slice_fx8
  | AggrPhase.AggrPhase1, 16 => HashVariantType.phase1_slice_fx16
  | AggrPhase.AggrPhase2, 16 => HashVariantType.phase2_slice_fx16
  | AggrPhase.AggrPhase1, _ => HashVariantType.phase1_slice
  | AggrPhase.AggrPhase2, _ => HashVariantType.phase2_slice

/-! ## Resolving the aggregate function types (`AggregatorParams::init`) -/

/-- The set `ALWAYS_NULLABLE_RESULT_AGG_FUNCS`. -/
def ALWAYS_NULLABLE_RESULT_AGG_FUNCS : List String :=
  ["variance_samp", "var_samp", "stddev_samp", "covar_samp", "corr", "max_by_v2", "min_by_v2"]

/-- The constant `AGG_STATE_IF_SUFFIX`. -/
def AGG_STATE_IF_SUFFIX : String := "_if"

/-- The constant `FUNCTION_COUNT`. -/
def FUNCTION_COUNT : String := "count"

/-- `std::string::ends_with`. -/
def ends_with (name suffix : String) : Bool :=
  suffix.data.isSuffixOf name.data

/-- What `AggregatorParams::init` reads of one element `desc` of `aggregate_functions`:
`fn.name.function_name`, `desc.nodes[0].has_nullable_child`, `desc.nodes[0].is_nullable`,
`fn.__isset.agg_state_desc`, `fn.ret_type` and `fn.aggregate_fn.intermediate_type`, where `fn`
is `desc.nodes[0].fn`; `θ` is the type of the plan's type descriptions. -/
structure TAggregateFunction (θ : Type) where
  function_name : String
  has_nullable_child : Bool
  is_nullable : Bool
  isset_agg_state_desc : Bool
  ret_type : θ
  intermediate_type : θ

/-- The fields of `AggregatorParams` that decide the aggregate function types. -/
structure AggregatorParams (θ : Type) where
  has_outer_join_child : Bool
  aggregate_functions : List (TAggregateFunction θ)

/-- The body of the loop of `AggregatorParams::init` that fills `agg_fn_types[i]`.
`from_thrift` is `TypeDescriptor::from_thrift` and `TYPE_BIGINT` is
`TypeDescriptor(TYPE_BIGINT)`.  The braced initialiser of the `count` branch names five
members and leaves `is_always_nullable_result` out: that member then takes what the declaration
of `AggFunctionTypes`, which is not part of the sources at hand, gives it (its default member
initialiser, or `false` if it has none), here `is_always_nullable_result_initializer`. -/
def init_agg_fn_type {θ τ : Type} (from_thrift : θ → τ) (TYPE_BIGINT : τ)
    (is_always_nullable_result_initializer : Bool) (has_outer_join_child : Bool)
    (desc : TAggregateFunction θ) : AggFunctionTypes τ :=
  if desc.function_name = FUNCTION_COUNT ∨
      desc.function_name = FUNCTION_COUNT ++ AGG_STATE_IF_SUFFIX then
    { result_type := TYPE_BIGINT
      serde_type := TYPE_BIGINT
      has_nullable_child := false
      is_nullable := false
      is_always_nullable_result := is_always_nullable_result_initializer }
  else
    let has_nullable_child := has_outer_join_child || desc.has_nullable_child
    let is_nullable := desc.is_nullable
    let in_always_nullable_set := ALWAYS_NULLABLE_RESULT_AGG_FUNCS.contains desc.function_name
    { result_type := from_thrift desc.ret_type
      serde_type := from_thrift desc.intermediate_type
      has_nullable_child := has_nullable_child
      is_nullable := is_nullable
      is_always_nullable_result :=
        if desc.isset_agg_state_desc && ends_with desc.function_name AGG_STATE_IF_SUFFIX then true
        else in_always_nullable_set }

/-- `AggregatorParams::init`, the part that resolves `agg_fn_types`. -/
def AggregatorParams.init {θ τ : Type} (from_thrift : θ → τ) (TYPE_BIGINT : τ)
    (is_always_nullable_result_initializer : Bool) (params : AggregatorParams θ) :
    List (AggFunctionTypes τ) :=
  params.aggregate_functions.map
    (init_agg_fn_type from_thrift TYPE_BIGINT is_always_nullable_result_initializer
      params.has_outer_join_child)

/-- A plan with `sum` over a nullable child, `count`, `count_if`, `corr` and `max` over a
non-nullable child; the type descriptions are numbers. -/
def sample_params (has_outer_join_child : Bool) : AggregatorParams Nat :=
  { has_outer_join_child := has_outer_join_child
    aggregate_functions :=
      [⟨"sum", true, true, false, 7, 7⟩, ⟨"count", true, true, false, 7, 7⟩,
       ⟨"count_if", true, true, true, 7, 7⟩, ⟨"corr", false, true, false, 8, 9⟩,
       ⟨"max", false, true, false, 5, 5⟩] }

/-! ## The continuous limit of the streaming controller -/

/-- `AggrAutoContext::update_continuous_limit`: the new value of `continuous_limit`, a
`size_t`, so the product wraps at `2 ^ 64`.  `ContinuousUpperLimit` is a constant of the class
whose value is not part of the sources at hand. -/
def update_continuous_limit (ContinuousUpperLimit continuous_limit : Nat) : Nat :=
  if continuous_limit * 2 % 2 ^ 64 > ContinuousUpperLimit then ContinuousUpperLimit
  else continuous_limit * 2 % 2 ^ 64

/-! ## The layout block of `open` on the fields of the aggregator -/

/-- The loop `for (int i = 0; i < _agg_fn_ctxs.size(); ++i)` of `open` from index `i` on, acting
on the fields as they are: `_agg_states_offsets[i] = _agg_states_total_size` overwrites element
`i` of the vector (sized by `prepare`), and is a fault past its end. -/
def layout_loop_in_place : List AggregateFunction → Nat → AggregateStateLayout →
    Except LayoutFault AggregateStateLayout
  | [], _, layout => Except.ok layout
  | fn :: rest, i, layout =>
    if i < layout._agg_states_offsets.length then
      let offsets := layout._agg_states_offsets.set i layout._agg_states_total_size
      let total := layout._agg_states_total_size + fn.size
      let max_align := max layout._max_agg_state_align_size fn.alignof_size
      match rest with
      | [] =>
        Except.ok
          { _agg_states_offsets := offsets
            _agg_states_total_size := total
            _max_agg_state_align_size := max_align }
      | next :: _ =>
        match ALIGN_TO total next.alignof_size with
        | Except.error fault => Except.error fault
        | Except.ok aligned =>
          layout_loop_in_place rest (i + 1)
            { _agg_states_offsets := offsets
              _agg_states_total_size := aligned
              _max_agg_state_align_size := max_align }
    else Except.error LayoutFault.index_out_of_range

/-- The layout block of `Aggregator::open` as a change of the three layout fields, started
from whatever they hold (`prior`): the two totals are assigned 16 and 8, then (unless only
group-by columns exist) the size and alignment of the key type, and the offsets are written
element by element. -/
def open_layout_in_place (num_group_by_exprs sizeof_KeyType alignof_KeyType : Nat)
    (_agg_functions : List AggregateFunction) (prior : AggregateStateLayout) :
    Except LayoutFault AggregateStateLayout :=
  let _is_only_group_by_columns := _agg_functions.isEmpty && !(num_group_by_exprs == 0)
  let layout0 : AggregateStateLayout :=
    { prior with _agg_states_total_size := 16, _max_agg_state_align_size := 8 }
  if _is_only_group_by_columns then Except.ok layout0
  else
    let layout1 : AggregateStateLayout :=
      { layout0 with
        _agg_states_total_size := sizeof_KeyType
        _max_agg_state_align_size := alignof_KeyType }
    match _agg_functions with
    | [] => Except.error LayoutFault.index_out_of_range
    | fn0 :: _ =>
      let max_align := max layout1._max_agg_state_align_size fn0.alignof_size
      match PAD layout1._agg_states_total_size fn0.alignof_size with
      | Except.error fault => Except.error fault
      | Except.ok pad =>
        match layout_loop_in_place _agg_functions 0
            { layout1 with
              _agg_states_total_size := layout1._agg_states_total_size + pad
              _max_agg_state_align_size := max_align } with
        | Except.error fault => Except.error fault
        | Except.ok layout =>
          match ALIGN_TO layout._agg_states_total_size layout._max_agg_state_align_size with
          | Except.error fault => Except.error fault
          | Except.ok total => Except.ok { layout with _agg_states_total_size := total }

/-! ## Applying the limit (`process_limit`) -/

/-- Modelled from the spec: `Chunk::set_num_rows(count)`, whose class is not part of the
sources at hand.  A chunk is the list of its rows; the first `count` rows are kept (and rows
holding `default_row` are added should `count` exceed the number of rows). -/
def set_num_rows {ρ : Type} (default_row : ρ) (count : Nat) (chunk : List ρ) : List ρ :=
  chunk.take count ++ List.replicate (count - chunk.length) default_row

/-- The fields of `Aggregator` used by `process_limit`: `_limit` and `_num_rows_returned`
(both `int64_t`), `_is_ht_eos`, and the counter `_agg_stat->rows_returned_counter`. -/
structure LimitFields where
  _limit : Int
  _num_rows_returned : Int
  _is_ht_eos : Bool
  rows_returned_counter : Int
  deriving DecidableEq, Repr

/-- `Aggregator::process_limit(chunk)`.  `_reached_limit` is the result of the call
`_reached_limit()`, a member function whose body is not part of the sources at hand.  The
difference `num_rows() - num_rows_over` is taken in `size_t`, so it wraps at `2 ^ 64`. -/
def process_limit {ρ : Type} (default_row : ρ) (_reached_limit : Bool) (agg : LimitFields)
    (chunk : List ρ) : LimitFields × List ρ :=
  if _reached_limit then
    let num_rows_over := wrap_int64 (agg._num_rows_returned - agg._limit)
    ({ agg with rows_returned_counter := agg._limit, _is_ht_eos := true },
     set_num_rows default_row (((chunk.length : Int) - num_rows_over) % 2 ^ 64).toNat chunk)
  else (agg, chunk)

/-! ## Truncating binary values (`iceberg_truncate_binary`) -/

/-- The macro `SLICE_SIZE_MIN(x, y) x < y ? x : y` at its one use, with `x` the `int32_t` width
and `y` the `size_t` size of the value: the comparison and the result are taken in `size_t`, so
a negative width is read modulo `2 ^ 64`. -/
def SLICE_SIZE_MIN (width : Int) (size : Nat) : Nat :=
  if (width % 2 ^ 64).toNat < size then (width % 2 ^ 64).toNat else size

/-- The loop of `BinaryFunctions::iceberg_truncate_binary` over the rows of the first column,
as the macro `PREPARE_COLUMN_WITH_CONST_AND_NULL_FOR_ICEBERG_FUNC` (not part of the sources at
hand) leaves them: each row is its null flag (`raw_null_flags[i]`, a `uint8_t`) and its value
(`raw_c0[i]`, a sequence of bytes).  The result column holds NULL (`none`) or the first
`SLICE_SIZE_MIN(width, size)` bytes of the value. -/
def iceberg_truncate_binary (width : Int) : List (Nat × List Nat) → List (Option (List Nat))
  | [] => []
  | (null_flag, src_value) :: rows =>
    (if null_flag ≠ 0 then none
     else some (src_value.take (SLICE_SIZE_MIN width src_value.length))) ::
      iceberg_truncate_binary width rows

/-- A result column read back as an input column: a NULL row has its null flag set and an
empty value. -/
def as_input_column : List (Option (List Nat)) → List (Nat × List Nat)
  | [] => []
  | none :: rows => (1, []) :: as_input_column rows
  | some value :: rows => (0, value) :: as_input_column rows

/-! ## The worker thread pool (`util/threadpool.cpp`) -/

/-- `ThreadPool::ExecutionMode`. -/
inductive ExecutionMode where
  | SERIAL
  | CONCURRENT
  deriving DecidableEq, Repr

/-- `ThreadPoolToken::State`. -/
inductive TokenState where
  | IDLE
  | RUNNING
  | QUIESCING
  | QUIESCED
  deriving DecidableEq, Repr

/-- The fields of a `ThreadPoolToken`; `τ` is the type of tasks.  `_entries` is a
`PriorityQueue<NUM_PRIORITY, Task>`, kept as the list of its entries, each with its priority,
in the order they were added. -/
structure ThreadPoolToken (τ : Type) where
  _mode : ExecutionMode
  _state : TokenState
  _entries : List (Nat × τ)
  _active_threads : Int

/-- `ThreadPoolToken::transition(new_state)` as compiled with `NDEBUG` (the checks are inside
`#ifndef NDEBUG`): the state is assigned. -/
def ThreadPoolToken.transition {τ : Type} (t : ThreadPoolToken τ) (new_state : TokenState) :
    ThreadPoolToken τ :=
  { t with _state := new_state }

/-- Modelled from the spec: the position of `PriorityQueue::front()`, whose class is not part
of the sources at hand: the oldest entry among those of the highest priority. -/
def pq_front_index {τ : Type} : List (Nat × τ) → Nat
  | [] => 0
  | entry :: rest =>
    if rest.all (fun other => decide (other.1 ≤ entry.1)) then 0 else pq_front_index rest + 1

/-- Modelled from the spec: `PriorityQueue::pop_front()`. -/
def pq_pop_front {τ : Type} (entries : List (Nat × τ)) : List (Nat × τ) :=
  entries.eraseIdx (pq_front_index entries)

/-- What `do_submit` uses and the sources at hand do not hold: the member functions
`ThreadPoolToken::may_submit_new_tasks()` and `ThreadPoolToken::is_active()`, as functions of
the token's state, and the callbacks of the two `TEST_SYNC_POINT_CALLBACK`s, which are the
identity unless a test installs one. -/
structure SubmitEnv (τ : Type) where
  may_submit_new_tasks : TokenState → Bool
  is_active : TokenState → Bool
  sync_point_do_submit_1 : Int → Int
  sync_point_replace_task : τ → τ

/-- The fields of a `ThreadPool`.  A token is named by its position in `_tokens`; `_queue`
holds names of tokens, `_idle_threads` names of threads.  `running` is no field of the class:
it holds, for every worker thread between taking a task and finishing it, the token in the
thread's local variable `token`. -/
structure ThreadPool (τ : Type) where
  _min_threads : Int
  _max_threads : Int
  _max_queue_size : Int
  _pool_status : Status
  _num_threads : Int
  _num_threads_pending_start : Int
  _active_threads : Int
  _total_queued_tasks : Int
  _tokens : List (ThreadPoolToken τ)
  _queue : List Nat
  _idle_threads : List Nat
  running : List Nat

/-- The constructor `ThreadPool::ThreadPool(builder)`: no thread, no task, and the one token
used for tokenless submission. -/
def ThreadPool.construct {τ : Type} (_min_threads _max_threads _max_queue_size : Int) :
    ThreadPool τ :=
  { _min_threads := _min_threads
    _max_threads := _max_threads
    _max_queue_size := _max_queue_size
    _pool_status := Status.Uninitialized "The pool was not initialized."
    _num_threads := 0
    _num_threads_pending_start := 0
    _active_threads := 0
    _total_queued_tasks := 0
    _tokens := [{ _mode := ExecutionMode.CONCURRENT, _state := TokenState.IDLE, _entries := [],
                  _active_threads := 0 }]
    _queue := []
    _idle_threads := []
    running := [] }

/-- `ThreadPool::new_token(mode)`. -/
def ThreadPool.new_token {τ : Type} (pool : ThreadPool τ) (mode : ExecutionMode) : ThreadPool τ :=
  { pool with
    _tokens := pool._tokens ++
      [{ _mode := mode, _state := TokenState.IDLE, _entries := [], _active_threads := 0 }] }

/-- The message of the status `do_submit` returns when the pool is at capacity. -/
def at_capacity_message {τ : Type} (pool : ThreadPool τ) : String :=
  "Thread pool is at capacity (" ++
    toString (pool._num_threads + pool._num_threads_pending_start) ++ "/" ++
    toString pool._max_threads ++ " tasks running, " ++
    toString pool._total_queued_tasks ++ "/" ++
    toString pool._max_queue_size ++ " tasks queued)"

/-- The value `do_submit` computes for `capacity_remaining` before the sync point. -/
def capacity_remaining {τ : Type} (pool : ThreadPool τ) : Int :=
  if pool._max_threads ≥ pool._active_threads then
    pool._max_threads - pool._active_threads + pool._max_queue_size - pool._total_queued_tasks
  else pool._max_queue_size - pool._total_queued_tasks

/-- Whether `do_submit` puts the token on the queue: `state == IDLE || mode == CONCURRENT`. -/
def submit_enqueues {τ : Type} (t : ThreadPoolToken τ) : Bool :=
  decide (t._state = TokenState.IDLE) || decide (t._mode = ExecutionMode.CONCURRENT)

/-- What `do_submit` does to the token: the task is added to its entries, and an IDLE token
becomes RUNNING. -/
def submit_token {τ : Type} (pri : Nat) (task : τ) (t : ThreadPoolToken τ) : ThreadPoolToken τ :=
  let state := t._state
  let queued : ThreadPoolToken τ := { t with _entries := t._entries ++ [(pri, task)] }
  if submit_enqueues t then
    if state = TokenState.IDLE then queued.transition TokenState.RUNNING else queued
  else queued

/-- `ThreadPool::do_submit(r, token, pri)`: the status returned and the pool afterwards; `none`
if `token` names no token of the pool.  `create_thread` is the status the call
`create_thread()` returns should the submission need a thread.  The counters are `int`s that
count threads and tasks; no wrap-around is modelled. -/
def ThreadPool.do_submit {τ : Type} (env : SubmitEnv τ) (create_thread : Status)
    (pool : ThreadPool τ) (r : τ) (token : Nat) (pri : Nat) : Option (Status × ThreadPool τ) :=
  match pool._tokens.get? token with
  | none => none
  | some t =>
    if !pool._pool_status.ok then some (pool._pool_status, pool)
    else if !env.may_submit_new_tasks t._state then
      some (Status.ServiceUnavailable "Thread pool token was shut down", pool)
    else if env.sync_point_do_submit_1 (capacity_remaining pool) < 1 then
      some (Status.ServiceUnavailable (at_capacity_message pool), pool)
    else
      let threads_from_this_submit : Int :=
        if env.is_active t._state && decide (t._mode = ExecutionMode.SERIAL) then 0 else 1
      let inactive_threads :=
        pool._num_threads + pool._num_threads_pending_start - pool._active_threads
      let additional_threads :=
        (pool._queue.length : Int) + threads_from_this_submit - inactive_threads
      let need_a_thread :=
        decide (additional_threads > 0) &&
          decide (pool._num_threads + pool._num_threads_pending_start < pool._max_threads)
      let pending :=
        if need_a_thread then pool._num_threads_pending_start + 1
        else pool._num_threads_pending_start
      let task := env.sync_point_replace_task r
      let pool1 : ThreadPool τ :=
        { pool with
          _num_threads_pending_start := pending
          _tokens := pool._tokens.set token (submit_token pri task t)
          _queue := if submit_enqueues t then pool._queue ++ [token] else pool._queue
          _total_queued_tasks := pool._total_queued_tasks + 1
          _idle_threads := pool._idle_threads.tail }
      if need_a_thread && !create_thread.ok then
        let pool2 : ThreadPool τ :=
          { pool1 with _num_threads_pending_start := pool1._num_threads_pending_start - 1 }
        if pool2._num_threads + pool2._num_threads_pending_start = 0 then
          some (create_thread, pool2)
        else some (Status.OK, pool2)
      else some (Status.OK, pool1)

/-- `ThreadPoolToken::shutdown()` up to the point where it may wait: the token's entries are
moved out and their number is taken off `_total_queued_tasks`; an IDLE token quiesces; a
RUNNING token is erased from the queue and quiesces at once if no thread runs a task of it,
else it becomes QUIESCING; a QUIESCING token waits (no change) and a QUIESCED one falls to
`default`. -/
def ThreadPoolToken.shutdown {τ : Type} (pool : ThreadPool τ) (token : Nat) : ThreadPool τ :=
  match pool._tokens.get? token with
  | none => pool
  | some t =>
    let released : ThreadPoolToken τ := { t with _entries := [] }
    let total := pool._total_queued_tasks - (t._entries.length : Int)
    match t._state with
    | TokenState.IDLE =>
      { pool with
        _total_queued_tasks := total
        _tokens := pool._tokens.set token (released.transition TokenState.QUIESCED) }
    | TokenState.RUNNING =>
      { pool with
        _total_queued_tasks := total
        _queue := pool._queue.filter (fun queued => decide (queued ≠ token))
        _tokens := pool._tokens.set token
          (if t._active_threads = 0 then released.transition TokenState.QUIESCED
           else released.transition TokenState.QUIESCING) }
    | TokenState.QUIESCING =>
      { pool with _total_queued_tasks := total, _tokens := pool._tokens.set token released }
    | TokenState.QUIESCED =>
      { pool with _total_queued_tasks := total, _tokens := pool._tokens.set token released }

/-- The body of the loop `for (auto* t : _tokens)` of `ThreadPool::shutdown`. -/
def shutdown_token {τ : Type} (t : ThreadPoolToken τ) : ThreadPoolToken τ :=
  let released : ThreadPoolToken τ := { t with _entries := [] }
  match t._state with
  | TokenState.IDLE => released.transition TokenState.QUIESCED
  | TokenState.RUNNING =>
    released.transition
      (if t._active_threads > 0 then TokenState.QUIESCING else TokenState.QUIESCED)
  | TokenState.QUIESCING => released
  | TokenState.QUIESCED => released

/-- `ThreadPool::shutdown()` up to the point where it waits for the threads to exit. -/
def ThreadPool.shutdown {τ : Type} (pool : ThreadPool τ) : ThreadPool τ :=
  { pool with
    _pool_status := Status.ServiceUnavailable "The pool has been shut down."
    _queue := []
    _tokens := pool._tokens.map shutdown_token
    _total_queued_tasks := 0
    _idle_threads := [] }

/-- The loop of `ThreadPool::init` over the threads still to create: the first failing
`create_thread()` shuts the pool down and its status is returned. -/
def init_threads {τ : Type} (create_thread : Nat → Status) : List Nat → ThreadPool τ →
    Status × ThreadPool τ
  | [], pool => (Status.OK, pool)
  | i :: rest, pool =>
    if (create_thread i).ok then init_threads create_thread rest pool
    else (create_thread i, pool.shutdown)

/-- `ThreadPool::init()`; `create_thread i` is the status of the call `create_thread()` number
`i`. -/
def ThreadPool.init {τ : Type} (create_thread : Nat → Status) (pool : ThreadPool τ) :
    Status × ThreadPool τ :=
  if !pool._pool_status.is_uninitialized then
    (Status.NotSupported "The thread pool is already initialized", pool)
  else
    init_threads create_thread (List.range pool._min_threads.toNat)
      { pool with _pool_status := Status.OK, _num_threads_pending_start := pool._min_threads }

/-- `ThreadPool::update_max_threads(max_threads)`. -/
def ThreadPool.update_max_threads {τ : Type} (pool : ThreadPool τ) (max_threads : Int) :
    ThreadPool τ :=
  if max_threads < pool._min_threads then pool else { pool with _max_threads := max_threads }

/-- The start of `dispatch_thread`: a created thread registers itself. -/
def dispatch_thread_start {τ : Type} (pool : ThreadPool τ) : ThreadPool τ :=
  if pool._num_threads_pending_start > 0 then
    { pool with
      _num_threads := pool._num_threads + 1
      _num_threads_pending_start := pool._num_threads_pending_start - 1 }
  else pool

/-- The worker `me` in `dispatch_thread` finds the queue empty and goes idle. -/
def dispatch_thread_idle {τ : Type} (pool : ThreadPool τ) (me : Nat) : ThreadPool τ :=
  if pool._pool_status.ok && pool._queue.isEmpty then
    { pool with _idle_threads := me :: pool._idle_threads }
  else pool

/-- The worker `me` wakes up still linked in `_idle_threads` and unlinks itself. -/
def dispatch_thread_wake {τ : Type} (pool : ThreadPool τ) (me : Nat) : ThreadPool τ :=
  { pool with _idle_threads := pool._idle_threads.erase me }

/-- A worker in `dispatch_thread` takes the next token and task off the queue (the part from
"Get the next token and task to execute" to `l.unlock()`). -/
def dispatch_thread_take {τ : Type} (pool : ThreadPool τ) : ThreadPool τ :=
  if pool._pool_status.ok then
    match pool._queue with
    | [] => pool
    | token :: queue =>
      match pool._tokens.get? token with
      | none => pool
      | some t =>
        { pool with
          _queue := queue
          _tokens := pool._tokens.set token
            { t with _entries := pq_pop_front t._entries
                     _active_threads := t._active_threads + 1 }
          _total_queued_tasks := pool._total_queued_tasks - 1
          _active_threads := pool._active_threads + 1
          running := token :: pool.running }
  else pool

/-- What the end of a task does to its token: `--token->_active_threads`, and if that is 0
the transition to QUIESCED (from QUIESCING) or to IDLE (no entries left). -/
def finish_token {τ : Type} (t : ThreadPoolToken τ) : ThreadPoolToken τ :=
  let state := t._state
  let counted : ThreadPoolToken τ := { t with _active_threads := t._active_threads - 1 }
  if counted._active_threads = 0 then
    if state = TokenState.QUIESCING then counted.transition TokenState.QUIESCED
    else if t._entries.isEmpty then counted.transition TokenState.IDLE
    else counted
  else counted

/-- Whether the end of a task puts its token back on the queue: the last branch of
`if (--token->_active_threads == 0)`, for a SERIAL token with entries left. -/
def finish_requeues {τ : Type} (t : ThreadPoolToken τ) : Bool :=
  decide (t._active_threads - 1 = 0) && decide (t._state ≠ TokenState.QUIESCING) &&
    !t._entries.isEmpty && decide (t._mode = ExecutionMode.SERIAL)

/-- A worker that ran a task of `token` finishes it (the part of `dispatch_thread` after
`l.lock()`); no step if no worker is running a task of `token`. -/
def dispatch_thread_finish {τ : Type} (pool : ThreadPool τ) (token : Nat) : ThreadPool τ :=
  if token ∈ pool.running then
    match pool._tokens.get? token with
    | none => pool
    | some t =>
      { pool with
        _tokens := pool._tokens.set token (finish_token t)
        _queue := if finish_requeues t then pool._queue ++ [token] else pool._queue
        _active_threads := pool._active_threads - 1
        running := pool.running.erase token }
  else pool

/-- The end of `dispatch_thread`: a worker leaves the loop and exits. -/
def dispatch_thread_exit {τ : Type} (pool : ThreadPool τ) : ThreadPool τ :=
  { pool with _num_threads := pool._num_threads - 1 }

/-- The steps of a pool, each made while holding `_lock`. -/
inductive PoolEvent (τ : Type) where
  | init (create_thread : Nat → Status)
  | new_token (mode : ExecutionMode)
  | do_submit (r : τ) (token : Nat) (pri : Nat) (create_thread : Status)
  | token_shutdown (token : Nat)
  | pool_shutdown
  | update_max_threads (max_threads : Int)
  | thread_start
  | worker_idle (me : Nat)
  | worker_wake (me : Nat)
  | worker_take
  | worker_finish (token : Nat)
  | worker_exit

/-- The pool after one step. -/
def pool_step {τ : Type} (env : SubmitEnv τ) (pool : ThreadPool τ) : PoolEvent τ → ThreadPool τ
  | PoolEvent.init create_thread => (pool.init create_thread).2
  | PoolEvent.new_token mode => pool.new_token mode
  | PoolEvent.do_submit r token pri create_thread =>
    match pool.do_submit env create_thread r token pri with
    | none => pool
    | some result => result.2
  | PoolEvent.token_shutdown token => ThreadPoolToken.shutdown pool token
  | PoolEvent.pool_shutdown => pool.shutdown
  | PoolEvent.update_max_threads max_threads => pool.update_max_threads max_threads
  | PoolEvent.thread_start => dispatch_thread_start pool
  | PoolEvent.worker_idle me => dispatch_thread_idle pool me
  | PoolEvent.worker_wake me => dispatch_thread_wake pool me
  | PoolEvent.worker_take => dispatch_thread_take pool
  | PoolEvent.worker_finish token => dispatch_thread_finish pool token
  | PoolEvent.worker_exit => dispatch_thread_exit pool

/-- The pool after a sequence of steps. -/
def pool_run {τ : Type} (env : SubmitEnv τ) : List (PoolEvent τ) → ThreadPool τ → ThreadPool τ
  | [], pool => pool
  | event :: events, pool => pool_run env events (pool_step env pool event)

/-- The production environment of `do_submit`: a token may submit while it is IDLE or RUNNING,
is active while RUNNING or QUIESCING, and no sync point callback is installed. -/
def sample_submit_env : SubmitEnv Nat :=
  { may_submit_new_tasks := fun state =>
      decide (state = TokenState.IDLE) || decide (state = TokenState.RUNNING)
    is_active := fun state =>
      decide (state = TokenState.RUNNING) || decide (state = TokenState.QUIESCING)
    sync_point_do_submit_1 := fun capacity => capacity
    sync_point_replace_task := fun r => r }

/-- What holds of a token named `id` in every reachable pool, relative to the pool's queue and
to the tokens whose tasks are being run: `_active_threads` counts the workers running a task of
the token; the token is in the queue at most once per entry; a SERIAL token is queued or run at
most once at a time; an IDLE token is neither queued nor run; a QUIESCED token is neither
queued nor run and holds no entry; a QUIESCING token is not queued and holds no entry. -/
def TokenInv {τ : Type} (queue running : List Nat) (id : Nat) (t : ThreadPoolToken τ) : Prop :=
  t._active_threads = (running.count id : Int) ∧
    queue.count id ≤ t._entries.length ∧
    (t._mode = ExecutionMode.SERIAL → (queue.count id : Int) + t._active_threads ≤ 1) ∧
    (t._state = TokenState.IDLE → queue.count id = 0 ∧ t._active_threads = 0) ∧
    (t._state = TokenState.QUIESCED →
      queue.count id = 0 ∧ t._active_threads = 0 ∧ t._entries = []) ∧
    (t._state = TokenState.QUIESCING → queue.count id = 0 ∧ t._entries = [])

/-- The invariant of a pool: `TokenInv` for each of its tokens, and only tokens of the pool are
queued or run. -/
def PoolInv {τ : Type} (pool : ThreadPool τ) : Prop :=
  (∀ (id : Nat) (t : ThreadPoolToken τ),
    pool._tokens.get? id = some t → TokenInv pool._queue pool.running id t) ∧
  (∀ id : Nat, pool._tokens.length ≤ id → pool._queue.count id = 0 ∧ pool.running.count id = 0)

/-! ## Writing columns over segment writers (`VerticalGeneralTabletWriter::write_columns`) -/

/-- The member functions of `SegmentWriter`, whose class is not part of the sources at hand,
as `write_columns` uses them, on a writer state `W` and rows `ρ`: the two counters, `init`
(for the `column_indexes` of the call, with `is_key`), `append_chunk`, and `finalize_columns`
as reached through `flush_columns(segment_writer)`, taken as one step that returns the status
`flush_columns` returns; `create_segment_writer`, given `_seg_id` and `is_key`, returns the
writer or the error, and `_seg_id` afterwards. -/
structure SegmentWriterOps (W ρ : Type) where
  num_rows_written : W → Nat
  num_rows : W → Nat
  init : Bool → W → Status × W
  append_chunk : W → List ρ → Status × W
  flush_columns : W → Status × W
  create_segment_writer : Nat → Bool → Except Status W × Nat

/-- The fields of `VerticalGeneralTabletWriter` used by `write_columns`. -/
structure VerticalGeneralTabletWriter (W : Type) where
  _segment_writers : List W
  _current_writer_index : Nat
  _max_rows_per_segment : Nat
  _num_rows : Nat
  _seg_id : Nat

/-- The ways `write_columns` leaves defined behaviour or this model: `operator[]` past the end
of `_segment_writers`, and a loop still running after the given number of iterations. -/
inductive WriteFault where
  | index_out_of_range
  | out_of_iterations
  deriving DecidableEq, Repr

/-- A value stored in a `uint32_t`. -/
def to_uint32 (n : Nat) : Nat := n % 2 ^ 32

/-- What a call of the splitting loop leaves: the status, the writers before the current one,
the current one and those after it (so `_current_writer_index` is the number of writers
before), and the calls of `append_chunk` made, each with the index of its writer and the rows
of its chunk. -/
structure SplitOutcome (W ρ : Type) where
  status : Status
  before : List W
  current : W
  following : List W
  appends : List (Nat × List ρ)

/-- The loop `while (num_left_rows > 0)` of `write_columns`.  `_segment_writers` is
`before ++ current :: following` and `_current_writer_index` is `before.length`;
`num_rows_written` and `segment_num_rows` are the `uint32_t` locals, `num_left_rows` and
`offset` the `size_t` ones.  The first argument bounds the number of iterations.  A status
that is not OK is returned at once (`RETURN_IF_ERROR`). -/
def write_split_loop {W ρ : Type} (ops : SegmentWriterOps W ρ) (data : List ρ) :
    Nat → List W → W → List W → Nat → Nat → Nat → Nat → List (Nat × List ρ) →
    Except WriteFault (SplitOutcome W ρ)
  | 0, _, _, _, _, _, _, _, _ => Except.error WriteFault.out_of_iterations
  | fuel + 1, before, current, following, num_rows_written, segment_num_rows, num_left_rows,
      offset, appends =>
    if num_left_rows = 0 then
      Except.ok { status := Status.OK, before := before, current := current,
                  following := following, appends := appends }
    else if segment_num_rows = num_rows_written then
      if (ops.flush_columns current).1.ok then
        match following with
        | [] => Except.error WriteFault.index_out_of_range
        | next :: rest =>
          if (ops.init false next).1.ok then
            let next1 := (ops.init false next).2
            let num_rows_written1 := to_uint32 (ops.num_rows_written next1)
            let segment_num_rows1 := to_uint32 (ops.num_rows next1)
            let capacity := to_uint32 (segment_num_rows1 + 2 ^ 32 - num_rows_written1)
            let write_size := if capacity > num_left_rows then num_left_rows else capacity
            let write_chunk := (data.drop offset).take write_size
            if (ops.append_chunk next1 write_chunk).1.ok then
              write_split_loop ops data fuel (before ++ [(ops.flush_columns current).2])
                (ops.append_chunk next1 write_chunk).2 rest
                (to_uint32 (ops.num_rows_written (ops.append_chunk next1 write_chunk).2))
                segment_num_rows1 (num_left_rows - write_size) (offset + write_size)
                (appends ++ [(before.length + 1, write_chunk)])
            else
              Except.ok { status := (ops.append_chunk next1 write_chunk).1
                          before := before ++ [(ops.flush_columns current).2]
                          current := (ops.append_chunk next1 write_chunk).2
                          following := rest
                          appends := appends ++ [(before.length + 1, write_chunk)] }
          else
            Except.ok { status := (ops.init false next).1
                        before := before ++ [(ops.flush_columns current).2]
                        current := (ops.init false next).2
                        following := rest, appends := appends }
      else
        Except.ok { status := (ops.flush_columns current).1, before := before
                    current := (ops.flush_columns current).2
                    following := following, appends := appends }
    else
      let capacity := to_uint32 (segment_num_rows + 2 ^ 32 - num_rows_written)
      let write_size := if capacity > num_left_rows then num_left_rows else capacity
      let write_chunk := (data.drop offset).take write_size
      if (ops.append_chunk current write_chunk).1.ok then
        write_split_loop ops data fuel before (ops.append_chunk current write_chunk).2 following
          (to_uint32 (ops.num_rows_written (ops.append_chunk current write_chunk).2))
          segment_num_rows (num_left_rows - write_size) (offset + write_size)
          (appends ++ [(before.length, write_chunk)])
      else
        Except.ok { status := (ops.append_chunk current write_chunk).1, before := before
                    current := (ops.append_chunk current write_chunk).2
                    following := following
                    appends := appends ++ [(before.length, write_chunk)] }

/-- What a call of `write_columns` leaves: the status returned, the fields afterwards, and the
calls of `append_chunk` made, each with the index of its writer and the rows of its chunk. -/
structure WriteOutcome (W ρ : Type) where
  status : Status
  writer : VerticalGeneralTabletWriter W
  appends : List (Nat × List ρ)

/-- The end of `write_columns` after a successful branch: `_num_rows` grows for key columns. -/
def write_columns_done {W ρ : Type} (tw : VerticalGeneralTabletWriter W) (chunk_num_rows : Nat)
    (is_key : Bool) (appends : List (Nat × List ρ)) : WriteOutcome W ρ :=
  { status := Status.OK
    writer := if is_key then { tw with _num_rows := tw._num_rows + chunk_num_rows } else tw
    appends := appends }

/-- `VerticalGeneralTabletWriter::write_columns(data, column_indexes, is_key)`; the chunk is the
list of its rows.  The first argument bounds the iterations of the splitting loop. -/
def write_columns {W ρ : Type} (ops : SegmentWriterOps W ρ) (fuel : Nat)
    (tw : VerticalGeneralTabletWriter W) (data : List ρ) (is_key : Bool) :
    Except WriteFault (WriteOutcome W ρ) :=
  let chunk_num_rows := data.length
  if tw._segment_writers.isEmpty then
    match ops.create_segment_writer tw._seg_id is_key with
    | (Except.error err, seg_id) =>
      Except.ok { status := err, writer := { tw with _seg_id := seg_id }, appends := [] }
    | (Except.ok segment_writer, seg_id) =>
      match ops.append_chunk segment_writer data with
      | (Status.OK, writer1) =>
        Except.ok (write_columns_done
          { tw with _segment_writers := [writer1], _current_writer_index := 0, _seg_id := seg_id }
          chunk_num_rows is_key [(0, data)])
      | (err, writer1) =>
        Except.ok
          { status := err
            writer := { tw with _segment_writers := [writer1], _current_writer_index := 0,
                                _seg_id := seg_id }
            appends := [(0, data)] }
  else
    match tw._segment_writers.get? tw._current_writer_index with
    | none => Except.error WriteFault.index_out_of_range
    | some current =>
      if is_key then
        if ops.num_rows_written current + chunk_num_rows ≥ tw._max_rows_per_segment then
          match ops.flush_columns current with
          | (Status.OK, flushed) =>
            let writers := tw._segment_writers.set tw._current_writer_index flushed
            match ops.create_segment_writer tw._seg_id is_key with
            | (Except.error err, seg_id) =>
              Except.ok { status := err
                          writer := { tw with _segment_writers := writers, _seg_id := seg_id }
                          appends := [] }
            | (Except.ok segment_writer, seg_id) =>
              match (writers ++ [segment_writer]).get? (tw._current_writer_index + 1) with
              | none => Except.error WriteFault.index_out_of_range
              | some next =>
                match ops.append_chunk next data with
                | (Status.OK, next1) =>
                  Except.ok (write_columns_done
                    { tw with
                      _segment_writers :=
                        (writers ++ [segment_writer]).set (tw._current_writer_index + 1) next1
                      _current_writer_index := tw._current_writer_index + 1
                      _seg_id := seg_id }
                    chunk_num_rows is_key [(tw._current_writer_index + 1, data)])
                | (err, next1) =>
                  Except.ok
                    { status := err
                      writer :=
                        { tw with
                          _segment_writers :=
                            (writers ++ [segment_writer]).set (tw._current_writer_index + 1) next1
                          _current_writer_index := tw._current_writer_index + 1
                          _seg_id := seg_id }
                      appends := [(tw._current_writer_index + 1, data)] }
          | (err, flushed) =>
            Except.ok
              { status := err
                writer := { tw with _segment_writers :=
                              tw._segment_writers.set tw._current_writer_index flushed }
                appends := [] }
        else
          match ops.append_chunk current data with
          | (Status.OK, current1) =>
            Except.ok (write_columns_done
              { tw with _segment_writers :=
                  tw._segment_writers.set tw._current_writer_index current1 }
              chunk_num_rows is_key [(tw._current_writer_index, data)])
          | (err, current1) =>
            Except.ok
              { status := err
                writer := { tw with _segment_writers :=
                              tw._segment_writers.set tw._current_writer_index current1 }
                appends := [(tw._current_writer_index, data)] }
      else
        let num_rows_written := to_uint32 (ops.num_rows_written current)
        let segment_num_rows := to_uint32 (ops.num_rows current)
        let initialised : Status × W :=
          if tw._current_writer_index = 0 ∧ num_rows_written = 0 then ops.init is_key current
          else (Status.OK, current)
        if initialised.1.ok then
          let current0 := initialised.2
          if num_rows_written + chunk_num_rows ≤ segment_num_rows then
            match ops.append_chunk current0 data with
            | (Status.OK, current1) =>
              Except.ok (write_columns_done
                { tw with _segment_writers :=
                    tw._segment_writers.set tw._current_writer_index current1 }
                chunk_num_rows is_key [(tw._current_writer_index, data)])
            | (err, current1) =>
              Except.ok
                { status := err
                  writer := { tw with _segment_writers :=
                                tw._segment_writers.set tw._current_writer_index current1 }
                  appends := [(tw._current_writer_index, data)] }
          else
            match write_split_loop ops data fuel
                (tw._segment_writers.take tw._current_writer_index) current0
                (tw._segment_writers.drop (tw._current_writer_index + 1))
                num_rows_written segment_num_rows chunk_num_rows 0 [] with
            | Except.error fault => Except.error fault
            | Except.ok outcome =>
              let tw1 : VerticalGeneralTabletWriter W :=
                { tw with
                  _segment_writers := outcome.before ++ outcome.current :: outcome.following
                  _current_writer_index := outcome.before.length }
              if outcome.status.ok then
                Except.ok (write_columns_done tw1 chunk_num_rows is_key outcome.appends)
              else
                Except.ok { status := outcome.status, writer := tw1, appends := outcome.appends }
        else
          Except.ok
            { status := initialised.1
              writer := { tw with _segment_writers :=
                            tw._segment_writers.set tw._current_writer_index initialised.2 }
              appends := [] }

/-- The remaining row capacity of a writer as `write_columns` reads it:
`num_rows() - num_rows_written()`. -/
def remaining_capacity {W ρ : Type} (ops : SegmentWriterOps W ρ) (w : W) : Nat :=
  ops.num_rows w - ops.num_rows_written w

/-- The counters of a writer are as `write_columns` asserts them of the current writer
(`DCHECK_LE(num_rows_written, segment_num_rows)`) and fit a `uint32_t`. -/
def counters_ok {W ρ : Type} (ops : SegmentWriterOps W ρ) (w : W) : Prop :=
  ops.num_rows_written w ≤ ops.num_rows w ∧ ops.num_rows w < 2 ^ 32

/-- The split of the rows `data` over writers with the remaining capacities `capacities`, the
first of them at index `index`, as the design of the loop has it: each writer in turn receives
as many of the rows left as it has room for, until no row is left. -/
def split_reference {ρ : Type} : Nat → List Nat → List ρ → List (Nat × List ρ)
  | _, _, [] => []
  | _, [], _ :: _ => []
  | index, capacity :: capacities, row :: rows =>
    (index, (row :: rows).take capacity) ::
      split_reference (index + 1) capacities ((row :: rows).drop capacity)

/-- Segment writers as records of their two counters and the rows appended since `init`;
`init` for non-key columns resets the rows written, `append_chunk` fails on a chunk holding
the row 0, and `flush_columns` always succeeds. -/
def sample_segment_ops : SegmentWriterOps (Nat × Nat × List Nat) Nat :=
  { num_rows_written := fun w => w.2.1
    num_rows := fun w => w.1
    init := fun _ w => (Status.OK, (w.1, 0, []))
    append_chunk := fun w chunk =>
      if 0 ∈ chunk then (Status.InternalError "append failed", w)
      else (Status.OK, (w.1, w.2.1 + chunk.length, w.2.2 ++ chunk))
    flush_columns := fun w => (Status.OK, w)
    create_segment_writer := fun seg_id _ => (Except.ok (0, 0, []), seg_id + 1) }

/-! ## Lemmas on the read loop and the views -/

theorem read_results_eq {α : Type} (entries : List α) (budget it : Nat) (results : List α) :
    read_results entries budget it results =
      (it + min budget (entries.length - it), results ++ (entries.drop it).take budget) := by
  induction budget generalizing it results with
  | zero => simp [read_results]
  | succ b ih =>
    unfold read_results
    cases h : entries.get? it with
    | none =>
      have hlen : entries.length ≤ it := List.get?_eq_none.mp h
      simp [List.drop_eq_nil_of_le hlen, Nat.sub_eq_zero_of_le hlen]
    | some value =>
      have hlt : it < entries.length := by
        by_contra hc
        rw [List.get?_eq_none.mpr (Nat.le_of_not_lt hc)] at h
        cases h
      have hget : entries.get ⟨it, hlt⟩ = value := by
        rw [List.get?_eq_get hlt] at h
        exact Option.some.inj h
      have hdrop : entries.drop it = value :: entries.drop (it + 1) := by
        rw [← hget]
        exact List.drop_eq_getElem_cons hlt
      simp only [ih, hdrop, List.take_succ_cons, List.append_assoc, List.singleton_append]
      congr 1
      omega

theorem read_hash_map_results_eq {α : Type} (entries : List α) (n budget it : Nat)
    (results : List α) (hres : results.length ≤ n) :
    read_hash_map_results entries n budget it results =
      if results.length + min budget (entries.length - it) ≤ n then
        some (read_results entries budget it results)
      else none := by
  induction budget generalizing it results with
  | zero => simp [read_hash_map_results, read_results, hres]
  | succ b ih =>
    unfold read_hash_map_results read_results
    cases h : entries.get? it with
    | none =>
      have hlen : entries.length ≤ it := List.get?_eq_none.mp h
      simp [Nat.sub_eq_zero_of_le hlen, hres]
    | some value =>
      have hlt : it < entries.length := by
        by_contra hc
        rw [List.get?_eq_none.mpr (Nat.le_of_not_lt hc)] at h
        cases h
      by_cases hfit : results.length < n
      · have hiff : (results.length + 1 + min b (entries.length - (it + 1)) ≤ n) ↔
            (results.length + min (b + 1) (entries.length - it) ≤ n) := by omega
        simp only [hfit, if_true, ih (it + 1) (results ++ [value]) (by simp; omega),
          List.length_append, List.length_singleton, hiff]
      · have hno : ¬ (results.length + min (b + 1) (entries.length - it) ≤ n) := by omega
        simp only [hfit, if_false, hno]

theorem it_at_end_iff {α : Type} (entries : List α) (it : Nat) :
    it_at_end entries it = true ↔ entries.length ≤ it := by
  simp [it_at_end, List.get?_eq_none]

theorem drop_add_min {α : Type} (l : List α) (it B : Nat) :
    l.drop (it + min B (l.length - it)) = (l.drop it).drop B := by
  rw [List.drop_drop]
  by_cases h : B ≤ l.length - it
  · rw [Nat.min_eq_left h]
  · have h1 : l.length ≤ it + min B (l.length - it) := by omega
    have h2 : l.length ≤ it + B := by omega
    rw [List.drop_eq_nil_of_le h1, List.drop_eq_nil_of_le h2]

theorem it_at_end_after {α : Type} (l : List α) (it B : Nat) :
    it_at_end l (it + min B (l.length - it)) = decide (l.length - it ≤ B) := by
  rw [Bool.eq_iff_iff, it_at_end_iff]
  simp only [decide_eq_true_eq]
  omega

theorem hash_map_view_step {κ σ : Type} (B : Nat) (f : Bool) (agg : Aggregator κ σ)
    (hok : check_has_error agg._agg_fn_ctxs = Status.OK)
    (hfit : min B (agg.hash_map_states.length - agg._it_hash) ≤ agg.state_chunk_size) :
    ∃ agg1 : Aggregator κ σ,
      convert_hash_map_to_chunk B f agg =
        Except.ok ({ intermediate := f || agg.use_intermediate_as_output,
                     rows := ((hash_map_view agg).step B).1 }, agg1) ∧
      hash_map_view agg1 = ((hash_map_view agg).step B).2 ∧
      agg1._agg_fn_ctxs = agg._agg_fn_ctxs ∧
      agg1.hash_map_states = agg.hash_map_states ∧
      agg1.null_key_data = agg.null_key_data ∧
      agg1.state_chunk_size = agg.state_chunk_size ∧
      agg1._it_hash = agg._it_hash + min B (agg.hash_map_states.length - agg._it_hash) ∧
      agg1._num_rows_returned = agg._num_rows_returned + ((hash_map_view agg).step B).1.length ∧
      agg1._num_rows_processed =
        agg._num_rows_processed + ((hash_map_view agg).step B).1.length := by
  unfold convert_hash_map_to_chunk
  simp only [read_hash_map_results_eq _ _ _ _ [] (Nat.zero_le _), List.length_nil,
    Nat.zero_add, hfit, if_true, read_results_eq, hok, it_at_end_after, List.nil_append]
  by_cases hle : agg.hash_map_states.length - agg._it_hash ≤ B
  · have htake : (agg.hash_map_states.drop agg._it_hash).take B =
        agg.hash_map_states.drop agg._it_hash :=
      List.take_of_length_le (by simpa using hle)
    have hdrop : agg.hash_map_states.drop
        (agg._it_hash + min B (agg.hash_map_states.length - agg._it_hash)) = [] :=
      List.drop_eq_nil_of_le (by omega)
    cases hn : agg.null_key_data with
    | none =>
      simp only [hash_map_view, DrainView.step, hle, hn, htake, List.length_map,
        List.length_drop, decide_True, if_true, Option.map_none']
      refine ⟨_, rfl, ?_⟩
      simp [hdrop]
    | some null_state =>
      by_cases hlt : agg.hash_map_states.length - agg._it_hash < agg.state_chunk_size
      · simp only [hash_map_view, DrainView.step, hle, hn, htake, hlt, List.length_map,
          List.length_drop, decide_True, if_true, Option.map_some']
        refine ⟨_, rfl, ?_⟩
        simp [hdrop]
      · simp only [hash_map_view, DrainView.step, hle, hn, htake, hlt, List.length_map,
          List.length_drop, decide_True, if_true, if_false, Option.map_some']
        refine ⟨_, rfl, ?_⟩
        simp [hdrop]
  · have hmin : min B (agg.hash_map_states.length - agg._it_hash) = B :=
      Nat.min_eq_left (by omega)
    simp only [hash_map_view, DrainView.step, hle, List.length_map, List.length_drop,
      decide_False, if_false, hmin, List.map_take, List.map_drop]
    refine ⟨_, rfl, ?_⟩
    simp [List.drop_drop, List.length_take, Nat.add_comm]

theorem hash_set_view_step {κ σ : Type} (B : Nat) (agg : Aggregator κ σ) :
    (convert_hash_set_to_chunk B agg).1 =
        { intermediate := agg.use_intermediate_as_output,
          rows := ((hash_set_view agg).step B).1 } ∧
      hash_set_view (convert_hash_set_to_chunk B agg).2 = ((hash_set_view agg).step B).2 ∧
      (convert_hash_set_to_chunk B agg).2.hash_set_keys = agg.hash_set_keys ∧
      (convert_hash_set_to_chunk B agg).2.has_null_key = agg.has_null_key ∧
      (convert_hash_set_to_chunk B agg).2.state_chunk_size = agg.state_chunk_size ∧
      (convert_hash_set_to_chunk B agg).2._it_hash =
        agg._it_hash + min B (agg.hash_set_keys.length - agg._it_hash) ∧
      (convert_hash_set_to_chunk B agg).2._num_rows_returned =
        agg._num_rows_returned + ((hash_set_view agg).step B).1.length ∧
      (convert_hash_set_to_chunk B agg).2._num_rows_processed =
        agg._num_rows_processed + ((hash_set_view agg).step B).1.length := by
  unfold convert_hash_set_to_chunk
  simp only [read_results_eq, it_at_end_after, List.nil_append]
  by_cases hle : agg.hash_set_keys.length - agg._it_hash ≤ B
  · have htake : (agg.hash_set_keys.drop agg._it_hash).take B =
        agg.hash_set_keys.drop agg._it_hash :=
      List.take_of_length_le (by simpa using hle)
    have hdrop : agg.hash_set_keys.drop
        (agg._it_hash + min B (agg.hash_set_keys.length - agg._it_hash)) = [] :=
      List.drop_eq_nil_of_le (by omega)
    cases hn : agg.has_null_key with
    | false =>
      simp [hash_set_view, DrainView.step, hle, hn, htake, hdrop]
      omega
    | true =>
      by_cases hlt : agg.hash_set_keys.length - agg._it_hash < agg.state_chunk_size
      · simp [hash_set_view, DrainView.step, hle, hn, htake, hlt, hdrop]
        omega
      · simp [hash_set_view, DrainView.step, hle, hn, htake, hlt, hdrop]
        omega
  · have hmin : min B (agg.hash_set_keys.length - agg._it_hash) = B :=
      Nat.min_eq_left (by omega)
    simp [hash_set_view, DrainView.step, hle, hmin, List.map_take, List.map_drop,
      List.drop_drop, List.length_take, Nat.add_comm]

/-! ### Whole drains on views -/

theorem DrainView.step_rows {ρ : Type} (B : Nat) (v : DrainView ρ) :
    (v.step B).1 ++ (v.step B).2.pending ++
        (if (v.step B).2.eos then [] else v.null_row.toList) =
      v.pending ++ v.null_row.toList := by
  unfold DrainView.step
  by_cases hle : v.pending.length ≤ B
  · cases hn : v.null_row with
    | none => simp [hle]
    | some r =>
      by_cases hlt : v.pending.length < v.cap
      · simp [hle, hlt]
      · simp [hle, hlt]
  · simp [hle]

theorem DrainView.step_null_row {ρ : Type} (B : Nat) (v : DrainView ρ) :
    (v.step B).2.null_row = v.null_row ∧ (v.step B).2.cap = v.cap ∧
      ((v.step B).2.eos = true → (v.step B).2.pending = []) := by
  unfold DrainView.step
  by_cases hle : v.pending.length ≤ B
  · cases hn : v.null_row with
    | none => simp [hle]
    | some r =>
      by_cases hlt : v.pending.length < v.cap
      · simp [hle, hlt, hn]
      · simp [hle, hlt, hn]
  · simp [hle]

/-- Partial correctness of a drain: if the drain ended with `eos` set, the chunks returned are,
in order, exactly the pending rows followed by the null row (if any). -/
theorem DrainView.drain_flatten {ρ : Type} (B : Nat) (calls : Nat) (v : DrainView ρ)
    (heos : (DrainView.drain B calls v).2.eos = true) (hstart : v.eos = false) :
    (DrainView.drain B calls v).1.flatten = v.pending ++ v.null_row.toList := by
  induction calls generalizing v with
  | zero => simp [DrainView.drain, hstart] at heos
  | succ n ih =>
    have hrows := DrainView.step_rows B v
    have hnull := DrainView.step_null_row B v
    unfold DrainView.drain at heos ⊢
    by_cases he : (v.step B).2.eos = true
    · simp only [he, if_true] at heos ⊢
      rw [he, hnull.2.2 he] at hrows
      simpa using hrows
    · have he2 : (v.step B).2.eos = false := by simpa using he
      simp only [he2, Bool.false_eq_true, if_false] at heos ⊢
      rw [List.flatten_cons, ih _ heos he2, hnull.1, ← hrows, he2]
      simp

/-- Termination of a drain: with a positive batch cap, and a positive `cap` when there is a
null row, `eos` is set after at most `pending.length + 2` calls. -/
theorem DrainView.drain_eos {ρ : Type} (B : Nat) (hB : 1 ≤ B) (calls : Nat) (v : DrainView ρ)
    (hcap : 1 ≤ v.cap ∨ v.null_row = none) (hcalls : v.pending.length + 2 ≤ calls) :
    (DrainView.drain B calls v).2.eos = true := by
  induction calls generalizing v with
  | zero => omega
  | succ n ih =>
    unfold DrainView.drain
    by_cases he : (v.step B).2.eos = true
    · simp [he]
    · have he2 : (v.step B).2.eos = false := by simpa using he
      simp only [he2, Bool.false_eq_true, if_false]
      have hnull := DrainView.step_null_row B v
      apply ih
      · rw [hnull.2.1, hnull.1]; exact hcap
      · revert he
        unfold DrainView.step
        by_cases hle : v.pending.length ≤ B
        · cases hn : v.null_row with
          | none => simp [hle]
          | some r =>
            have hcap1 : 1 ≤ v.cap := by
              rcases hcap with h | h
              · exact h
              · rw [hn] at h; cases h
            by_cases hlt : v.pending.length < v.cap
            · simp [hle, hlt]
            · simp [hle, hlt]
              omega
        · simp [hle]
          omega

/-! ### Transfer to the two drain functions -/

theorem drain_hash_map_view {κ σ : Type} (B : Nat) (f : Bool) (calls : Nat)
    (agg : Aggregator κ σ) (hok : check_has_error agg._agg_fn_ctxs = Status.OK)
    (hfit : min B (agg.hash_map_states.length - agg._it_hash) ≤ agg.state_chunk_size) :
    ∃ (chunks : List (HashMapChunk κ σ)) (agg2 : Aggregator κ σ),
      drain_hash_map B f calls agg = Except.ok (chunks, agg2) ∧
      chunks.map (fun c => c.rows) = (DrainView.drain B calls (hash_map_view agg)).1 ∧
      hash_map_view agg2 = (DrainView.drain B calls (hash_map_view agg)).2 ∧
      agg2.hash_map_states = agg.hash_map_states ∧
      agg2.null_key_data = agg.null_key_data := by
  induction calls generalizing agg with
  | zero => exact ⟨[], agg, rfl, rfl, rfl, rfl, rfl⟩
  | succ n ih =>
    obtain ⟨agg1, hconv, hview, hctx, hstates, hnull, hsize, hit, -⟩ :=
      hash_map_view_step B f agg hok hfit
    have heos : agg1._is_ht_eos = ((hash_map_view agg).step B).2.eos := by
      rw [← hview]; rfl
    unfold drain_hash_map DrainView.drain
    rw [hconv]
    by_cases he : agg1._is_ht_eos = true
    · have he1 : ((hash_map_view agg).step B).2.eos = true := by rw [← heos]; exact he
      simp only [he, he1, if_true]
      exact ⟨_, _, rfl, rfl, hview, hstates, hnull⟩
    · have he0 : agg1._is_ht_eos = false := by simpa using he
      have he1 : ((hash_map_view agg).step B).2.eos = false := by rw [← heos]; exact he0
      obtain ⟨chunks, agg2, hdrain, hrows, hview2, hstates2, hnull2⟩ :=
        ih agg1 (by rw [hctx]; exact hok) (by rw [hstates, hsize, hit]; omega)
      simp only [he0, he1, Bool.false_eq_true, if_false, hdrain]
      refine ⟨_, _, rfl, ?_, ?_, ?_, ?_⟩
      · rw [List.map_cons, hrows, hview]
      · rw [hview2, hview]
      · rw [hstates2, hstates]
      · rw [hnull2, hnull]

theorem drain_hash_set_view {κ σ : Type} (B : Nat) (calls : Nat) (agg : Aggregator κ σ) :
    (drain_hash_set B calls agg).1.map (fun c => c.rows) =
        (DrainView.drain B calls (hash_set_view agg)).1 ∧
      hash_set_view (drain_hash_set B calls agg).2 =
        (DrainView.drain B calls (hash_set_view agg)).2 ∧
      (drain_hash_set B calls agg).2.hash_set_keys = agg.hash_set_keys ∧
      (drain_hash_set B calls agg).2.has_null_key = agg.has_null_key := by
  induction calls generalizing agg with
  | zero => exact ⟨rfl, rfl, rfl, rfl⟩
  | succ n ih =>
    obtain ⟨hchunk, hview, hkeys, hnull, -⟩ := hash_set_view_step B agg
    have heos : (convert_hash_set_to_chunk B agg).2._is_ht_eos =
        ((hash_set_view agg).step B).2.eos := by
      rw [← hview]; rfl
    unfold drain_hash_set DrainView.drain
    by_cases he : (convert_hash_set_to_chunk B agg).2._is_ht_eos = true
    · have he1 : ((hash_set_view agg).step B).2.eos = true := by rw [← heos]; exact he
      simp only [he, he1, if_true]
      exact ⟨by simp [hchunk], hview, hkeys, hnull⟩
    · have he0 : (convert_hash_set_to_chunk B agg).2._is_ht_eos = false := by simpa using he
      have he1 : ((hash_set_view agg).step B).2.eos = false := by rw [← heos]; exact he0
      obtain ⟨hrows, hview2, hkeys2, hnull2⟩ := ih (convert_hash_set_to_chunk B agg).2
      simp only [he0, he1, Bool.false_eq_true, if_false]
      refine ⟨?_, ?_, ?_, ?_⟩
      · rw [List.map_cons, hrows, hview, hchunk]
      · rw [hview2, hview]
      · rw [hkeys2, hkeys]
      · rw [hnull2, hnull]

theorem hash_map_all_rows_eq_view {κ σ : Type} (agg : Aggregator κ σ) (hbegin : agg._it_hash = 0) :
    hash_map_all_rows agg = (hash_map_view agg).pending ++ (hash_map_view agg).null_row.toList := by
  unfold hash_map_all_rows hash_map_view
  cases agg.null_key_data <;> simp [hbegin]

theorem hash_set_all_rows_eq_view {κ σ : Type} (agg : Aggregator κ σ) (hbegin : agg._it_hash = 0) :
    hash_set_all_rows agg = (hash_set_view agg).pending ++ (hash_set_view agg).null_row.toList := by
  unfold hash_set_all_rows hash_set_view
  cases agg.has_null_key <;> simp [hbegin]

theorem ceil_div_add (K B : Nat) (hB : 1 ≤ B) : ceil_div (K + B) B = ceil_div K B + 1 := by
  unfold ceil_div
  have h : K + B + B - 1 = K + B - 1 + B := by omega
  rw [h, Nat.add_div_right _ (by omega)]

theorem ceil_div_le_one (K B : Nat) (hB : 1 ≤ B) (hK : K ≤ B) : ceil_div K B ≤ 1 := by
  unfold ceil_div
  have h : (K + B - 1) / B < 2 := (Nat.div_lt_iff_lt_mul (by omega)).mpr (by omega)
  omega

theorem ceil_div_pos (K B : Nat) (hB : 1 ≤ B) (hK : 1 ≤ K) : 1 ≤ ceil_div K B := by
  unfold ceil_div
  exact (Nat.le_div_iff_mul_le (by omega)).mpr (by omega)

theorem DrainView.drain_calls {ρ : Type} (B : Nat) (hB : 1 ≤ B) (calls : Nat) (v : DrainView ρ)
    (hcap : v.null_row = none ∨ v.cap = B) (hcalls : v.pending.length + 2 ≤ calls) :
    (DrainView.drain B calls v).1.length =
      max 1 (ceil_div (v.pending.length + v.null_row.toList.length) B) := by
  induction calls generalizing v with
  | zero => omega
  | succ n ih =>
    unfold DrainView.drain DrainView.step
    by_cases hle : v.pending.length ≤ B
    · cases hn : v.null_row with
      | none =>
        have h1 := ceil_div_le_one v.pending.length B hB hle
        simp [hle]
        omega
      | some r =>
        have hcapB : v.cap = B := by
          rcases hcap with h | h
          · rw [hn] at h; cases h
          · exact h
        by_cases hlt : v.pending.length < v.cap
        · have h1 := ceil_div_le_one (v.pending.length + 1) B hB (by omega)
          simp [hle, hlt]
          omega
        · have hlen : v.pending.length = B := by omega
          have h2 := ih { v with pending := [], eos := false } (Or.inr hcapB)
            (by simp; omega)
          have h3 : ceil_div 1 B = 1 := by
            have := ceil_div_le_one 1 B hB hB
            have := ceil_div_pos 1 B hB (le_refl 1)
            omega
          have h4 := ceil_div_add 1 B hB
          simp [hn] at h2
          simp [hle, hlt, h2]
          rw [hlen, Nat.add_comm B 1, h4, h3]
          simp [h3]
    · have h2 := ih { v with pending := v.pending.drop B, eos := false } hcap
        (by simp; omega)
      have h3 := ceil_div_pos (v.pending.length - B + v.null_row.toList.length) B hB (by omega)
      have h4 := ceil_div_add (v.pending.length - B + v.null_row.toList.length) B hB
      have h5 : v.pending.length - B + v.null_row.toList.length + B =
          v.pending.length + v.null_row.toList.length := by omega
      rw [h5] at h4
      simp at h2
      simp [hle, h2, h4]
      omega

/-! ### Single calls -/

/-- What one call returns: either only rows read from the iterator, or those rows followed by
the null row, in which case the iterator is exhausted, fewer than `cap` rows were read and
`eos` is set. -/
theorem DrainView.step_cases {ρ : Type} (B : Nat) (v : DrainView ρ) :
    ((v.step B).1 = v.pending.take B ∧
        ((v.step B).2.eos = true → v.pending.length ≤ B ∧ v.null_row = none) ∧
        ((v.step B).2.eos = false → v.pending.length ≤ B →
          v.null_row ≠ none ∧ v.cap ≤ v.pending.length)) ∨
      (∃ r, v.null_row = some r ∧ (v.step B).1 = v.pending.take B ++ [r] ∧
        (v.step B).2.eos = true ∧ v.pending.length ≤ B ∧ v.pending.length < v.cap) := by
  unfold DrainView.step
  by_cases hle : v.pending.length ≤ B
  · have htake : v.pending.take B = v.pending := List.take_of_length_le hle
    cases hn : v.null_row with
    | none => simp [hle, htake]
    | some r =>
      by_cases hlt : v.pending.length < v.cap
      · simp [hle, hlt, htake]
      · simp [hle, hlt, htake]
        omega
  · simp [hle]

theorem DrainView.step_pending_length {ρ : Type} (B : Nat) (v : DrainView ρ) :
    (v.step B).2.pending.length = v.pending.length - B := by
  unfold DrainView.step
  by_cases hle : v.pending.length ≤ B
  · cases hn : v.null_row with
    | none => simp [hle]
    | some r =>
      by_cases hlt : v.pending.length < v.cap
      · simp [hle, hlt]
      · simp [hle, hlt]
  · simp [hle]

theorem convert_hash_map_ok_no_error {κ σ : Type} (B : Nat) (f : Bool) (agg : Aggregator κ σ)
    (chunk : HashMapChunk κ σ) (agg1 : Aggregator κ σ)
    (h : convert_hash_map_to_chunk B f agg = Except.ok (chunk, agg1)) :
    check_has_error agg._agg_fn_ctxs = Status.OK := by
  unfold convert_hash_map_to_chunk at h
  cases hr : read_hash_map_results agg.hash_map_states agg.state_chunk_size B agg._it_hash []
    with
  | none => simp [hr] at h
  | some r =>
    cases hc : check_has_error agg._agg_fn_ctxs with
    | OK => rfl
    | RuntimeError msg => simp [hr, hc] at h
    | MemoryLimitExceeded msg => simp [hr, hc] at h
    | InternalError msg => simp [hr, hc] at h
    | MemoryAllocFailed msg => simp [hr, hc] at h
    | EndOfFile msg => simp [hr, hc] at h
    | ServiceUnavailable msg => simp [hr, hc] at h
    | Uninitialized msg => simp [hr, hc] at h
    | NotSupported msg => simp [hr, hc] at h

/-- A call that returns a chunk has stored every state it read inside `_tmp_agg_states`: it
read at most `_state->chunk_size()` entries. -/
theorem convert_hash_map_ok_in_range {κ σ : Type} (B : Nat) (f : Bool) (agg : Aggregator κ σ)
    (chunk : HashMapChunk κ σ) (agg1 : Aggregator κ σ)
    (h : convert_hash_map_to_chunk B f agg = Except.ok (chunk, agg1)) :
    min B (agg.hash_map_states.length - agg._it_hash) ≤ agg.state_chunk_size := by
  unfold convert_hash_map_to_chunk at h
  rw [read_hash_map_results_eq _ _ _ _ [] (Nat.zero_le _)] at h
  by_contra hc
  simp only [List.length_nil, Nat.zero_add, hc, if_false] at h
  cases h

/-- A successful hash-map call in terms of the view: its rows, the view afterwards and the
fields it leaves alone. -/
theorem convert_hash_map_ok_view {κ σ : Type} (B : Nat) (f : Bool) (agg : Aggregator κ σ)
    (chunk : HashMapChunk κ σ) (agg1 : Aggregator κ σ)
    (h : convert_hash_map_to_chunk B f agg = Except.ok (chunk, agg1)) :
    chunk.rows = ((hash_map_view agg).step B).1 ∧
      hash_map_view agg1 = ((hash_map_view agg).step B).2 ∧
      agg1.hash_map_states = agg.hash_map_states ∧
      agg1.null_key_data = agg.null_key_data ∧
      agg1._it_hash = agg._it_hash + min B (agg.hash_map_states.length - agg._it_hash) := by
  obtain ⟨a, hconv, hview, -, hstates, hnull, -, hit, -⟩ :=
    hash_map_view_step B f agg (convert_hash_map_ok_no_error B f agg chunk agg1 h)
      (convert_hash_map_ok_in_range B f agg chunk agg1 h)
  rw [hconv] at h
  injection h with h
  injection h with h1 h2
  subst h2
  subst h1
  exact ⟨rfl, hview, hstates, hnull, hit⟩

/-- A drain that returned chunks, in terms of the view: no hypothesis on the batch cap, every
call of the drain returned a chunk. -/
theorem drain_hash_map_ok_view {κ σ : Type} (B : Nat) (f : Bool) (calls : Nat)
    (agg : Aggregator κ σ) (chunks : List (HashMapChunk κ σ)) (agg2 : Aggregator κ σ)
    (h : drain_hash_map B f calls agg = Except.ok (chunks, agg2)) :
    chunks.map (fun c => c.rows) = (DrainView.drain B calls (hash_map_view agg)).1 ∧
      hash_map_view agg2 = (DrainView.drain B calls (hash_map_view agg)).2 ∧
      agg2.hash_map_states = agg.hash_map_states ∧
      agg2.null_key_data = agg.null_key_data := by
  induction calls generalizing agg chunks agg2 with
  | zero =>
    unfold drain_hash_map at h
    injection h with h
    injection h with h1 h2
    subst h1
    subst h2
    exact ⟨rfl, rfl, rfl, rfl⟩
  | succ n ih =>
    unfold drain_hash_map at h
    cases hconv : convert_hash_map_to_chunk B f agg with
    | error err => rw [hconv] at h; cases h
    | ok r =>
      obtain ⟨chunk, agg1⟩ := r
      obtain ⟨hrows1, hview, hstates, hnull, -⟩ :=
        convert_hash_map_ok_view B f agg chunk agg1 hconv
      have heos : agg1._is_ht_eos = ((hash_map_view agg).step B).2.eos := by
        rw [← hview]; rfl
      rw [hconv] at h
      unfold DrainView.drain
      by_cases he : agg1._is_ht_eos = true
      · have he1 : ((hash_map_view agg).step B).2.eos = true := by rw [← heos]; exact he
        simp only [he, if_true] at h
        injection h with h
        injection h with h1 h2
        subst h1
        subst h2
        simp only [he1, if_true]
        exact ⟨by simp [hrows1], hview, hstates, hnull⟩
      · have he0 : agg1._is_ht_eos = false := by simpa using he
        have he1 : ((hash_map_view agg).step B).2.eos = false := by rw [← heos]; exact he0
        simp only [he0, Bool.false_eq_true, if_false] at h
        cases hrest : drain_hash_map B f n agg1 with
        | error err => rw [hrest] at h; cases h
        | ok r2 =>
          obtain ⟨chunks2, agg3⟩ := r2
          rw [hrest] at h
          injection h with h
          injection h with h1 h2
          subst h1
          subst h2
          obtain ⟨hrows2, hview2, hstates2, hnull2⟩ := ih agg1 chunks2 agg3 hrest
          simp only [he1, Bool.false_eq_true, if_false]
          refine ⟨?_, ?_, ?_, ?_⟩
          · rw [List.map_cons, hrows1, hrows2, hview]
          · rw [hview2, hview]
          · rw [hstates2, hstates]
          · rw [hnull2, hnull]

theorem hash_map_view_pending_length {κ σ : Type} (agg : Aggregator κ σ) :
    (hash_map_view agg).pending.length = agg.hash_map_states.length - agg._it_hash := by
  simp [hash_map_view]

theorem hash_set_view_pending_length {κ σ : Type} (agg : Aggregator κ σ) :
    (hash_set_view agg).pending.length = agg.hash_set_keys.length - agg._it_hash := by
  simp [hash_set_view]

theorem DrainView.step_length {ρ : Type} (B : Nat) (v : DrainView ρ) :
    (v.step B).1.length ≤ max B v.cap ∧ (v.step B).1.length ≤ B + 1 ∧
      (v.cap ≤ B → (v.step B).1.length ≤ B) ∧
      (v.null_row = none → (v.step B).1.length ≤ B) := by
  have htake : (v.pending.take B).length ≤ B := by
    rw [List.length_take]; exact Nat.min_le_left _ _
  rcases DrainView.step_cases B v with ⟨h, -⟩ | ⟨r, hn, h, -, hle, hlt⟩
  · rw [h]
    refine ⟨le_trans htake (le_max_left _ _), by omega, fun _ => htake, fun _ => htake⟩
  · have hlen : (v.step B).1.length = v.pending.length + 1 := by
      rw [h, List.take_of_length_le hle]; simp
    rw [hlen]
    refine ⟨le_trans hlt (le_max_right _ _), by omega, fun _ => by omega, fun h0 => ?_⟩
    rw [hn] at h0
    cases h0

theorem hash_map_view_take_keys {κ σ : Type} (agg : Aggregator κ σ) (B : Nat)
    (row : Option κ × σ) (hrow : row ∈ (hash_map_view agg).pending.take B) : row.1 ≠ none := by
  have hmem := List.mem_of_mem_take hrow
  simp only [hash_map_view, List.mem_map] at hmem
  obtain ⟨e, -, he⟩ := hmem
  rw [← he]
  simp

theorem hash_set_view_take_keys {κ σ : Type} (agg : Aggregator κ σ) (B : Nat)
    (row : Option κ) (hrow : row ∈ (hash_set_view agg).pending.take B) : row ≠ none := by
  have hmem := List.mem_of_mem_take hrow
  simp only [hash_set_view, List.mem_map] at hmem
  obtain ⟨e, -, he⟩ := hmem
  rw [← he]
  simp

/-! ## Properties of the drain functions -/

/-- Counterexample for C2: with caller cap 1 and `_state->chunk_size() = 2`, a table with one
group and a null-key group is returned in a single chunk of 2 rows, by the hash map and by the
hash set. -/
theorem drain_call_exceeds_caller_cap :
    (∃ (chunk : HashMapChunk Nat Nat) (agg1 : Aggregator Nat Nat),
        convert_hash_map_to_chunk 1 false (sample_agg 2 [(5, 50)] (some 99)) =
          Except.ok (chunk, agg1) ∧ chunk.rows.length = 2 ∧ ¬ chunk.rows.length ≤ 1) ∧
      (convert_hash_set_to_chunk 1 (sample_agg 2 [(5, 50)] (some 99))).1.rows.length = 2 ∧
      ¬ (convert_hash_set_to_chunk 1 (sample_agg 2 [(5, 50)] (some 99))).1.rows.length ≤ 1 :=
  ⟨⟨_, _, rfl, by decide, by decide⟩, by decide, by decide⟩

/-- C2 (amended).  A drain call with caller cap `B` returns at most
`max B (_state->chunk_size())` rows and at most `B + 1` rows; it returns at most `B` rows
whenever `_state->chunk_size() ≤ B` (in particular when the caller passes
`_state->chunk_size()`), and whenever there is no null-key group. -/
theorem drain_call_rows_bound {κ σ : Type} (B : Nat) (f : Bool) (agg : Aggregator κ σ) :
    (∀ (chunk : HashMapChunk κ σ) (agg1 : Aggregator κ σ),
        convert_hash_map_to_chunk B f agg = Except.ok (chunk, agg1) →
        chunk.rows.length ≤ max B agg.state_chunk_size ∧
        chunk.rows.length ≤ B + 1 ∧
        (agg.state_chunk_size ≤ B → chunk.rows.length ≤ B) ∧
        (agg.null_key_data = none → chunk.rows.length ≤ B)) ∧
      ((convert_hash_set_to_chunk B agg).1.rows.length ≤ max B agg.state_chunk_size ∧
        (convert_hash_set_to_chunk B agg).1.rows.length ≤ B + 1 ∧
        (agg.state_chunk_size ≤ B → (convert_hash_set_to_chunk B agg).1.rows.length ≤ B) ∧
        (agg.has_null_key = false → (convert_hash_set_to_chunk B agg).1.rows.length ≤ B)) := by
  constructor
  · intro chunk agg1 h
    obtain ⟨hrows, -⟩ := convert_hash_map_ok_view B f agg chunk agg1 h
    obtain ⟨h1, h2, h3, h4⟩ := DrainView.step_length B (hash_map_view agg)
    rw [hrows]
    refine ⟨h1, h2, h3, fun hn => h4 ?_⟩
    simp [hash_map_view, hn]
  · obtain ⟨hchunk, -⟩ := hash_set_view_step B agg
    obtain ⟨h1, h2, h3, h4⟩ := DrainView.step_length B (hash_set_view agg)
    rw [hchunk]
    refine ⟨h1, h2, h3, fun hn => h4 ?_⟩
    simp [hash_set_view, hn]

/-- Witness for C2 (amended): cap 2 with `_state->chunk_size() = 2`. -/
theorem drain_call_rows_bound_witness :
    (sample_agg 2 [(5, 50), (6, 60)] (some 99)).state_chunk_size ≤ 2 ∧
      (convert_hash_set_to_chunk 2 (sample_agg 2 [(5, 50), (6, 60)] (some 99))).1.rows.length
        ≤ 2 :=
  ⟨by decide,
    (drain_call_rows_bound 2 false (sample_agg 2 [(5, 50), (6, 60)] (some 99))).2.2.2.1
      (by decide)⟩

/-- C3.  With a populated null-key slot, a drain from `begin()` that has ended with
`_is_ht_eos` returned the null-key group exactly once and as the last row of the whole output
(the output is the table's entries, all with non-null keys, followed by the null-key row); a
call whose chunk contains a null-key row leaves the iterator exhausted and `_is_ht_eos` set, so
the caller makes no further call; and the drain does end when batch cap and runtime chunk size
are at least 1 and, for the hash map, no call reads more entries than `_tmp_agg_states` holds
(`min B (number of table entries) ≤ _state->chunk_size()`, in particular
`B ≤ _state->chunk_size()`).  Stated for the hash map and for the hash set. -/
theorem null_key_emitted_once_and_last {κ σ : Type} (B : Nat) (f : Bool)
    (agg : Aggregator κ σ) (null_state : σ)
    (hok : check_has_error agg._agg_fn_ctxs = Status.OK)
    (hnull : agg.null_key_data = some null_state) (hnull_set : agg.has_null_key = true)
    (hbegin : agg._it_hash = 0) (hstart : agg._is_ht_eos = false) :
    (∀ (calls : Nat) (chunks : List (HashMapChunk κ σ)) (agg2 : Aggregator κ σ),
        drain_hash_map B f calls agg = Except.ok (chunks, agg2) → agg2._is_ht_eos = true →
        (chunks.map (fun c => c.rows)).flatten =
          agg.hash_map_states.map (fun e => (some e.1, e.2)) ++ [(none, null_state)] ∧
        ((chunks.map (fun c => c.rows)).flatten.filter (fun r => r.1.isNone)).length = 1 ∧
        (chunks.map (fun c => c.rows)).flatten.getLast? = some (none, null_state)) ∧
      (∀ calls : Nat, (drain_hash_set B calls agg).2._is_ht_eos = true →
        ((drain_hash_set B calls agg).1.map (fun c => c.rows)).flatten =
          agg.hash_set_keys.map some ++ [none] ∧
        (((drain_hash_set B calls agg).1.map (fun c => c.rows)).flatten.filter
          (fun r => r.isNone)).length = 1 ∧
        ((drain_hash_set B calls agg).1.map (fun c => c.rows)).flatten.getLast? = some none) ∧
      (∀ (a : Aggregator κ σ) (chunk : HashMapChunk κ σ) (a1 : Aggregator κ σ),
        convert_hash_map_to_chunk B f a = Except.ok (chunk, a1) →
        (∃ row ∈ chunk.rows, row.1 = none) →
        it_at_end a1.hash_map_states a1._it_hash = true ∧ a1._is_ht_eos = true) ∧
      (∀ a : Aggregator κ σ, (∃ row ∈ (convert_hash_set_to_chunk B a).1.rows, row = none) →
        it_at_end (convert_hash_set_to_chunk B a).2.hash_set_keys
            (convert_hash_set_to_chunk B a).2._it_hash = true ∧
          (convert_hash_set_to_chunk B a).2._is_ht_eos = true) ∧
      (1 ≤ B → 1 ≤ agg.state_chunk_size →
        (min B agg.hash_map_states.length ≤ agg.state_chunk_size →
          ∀ calls : Nat, agg.hash_map_states.length + 2 ≤ calls →
          ∃ (chunks : List (HashMapChunk κ σ)) (agg2 : Aggregator κ σ),
            drain_hash_map B f calls agg = Except.ok (chunks, agg2) ∧
              agg2._is_ht_eos = true) ∧
        (∀ calls : Nat, agg.hash_set_keys.length + 2 ≤ calls →
          (drain_hash_set B calls agg).2._is_ht_eos = true)) := by
  refine ⟨?_, ?_, ?_, ?_, ?_⟩
  · intro calls chunks1 agg2 hdrain heos
    obtain ⟨hrows, hview, -⟩ := drain_hash_map_ok_view B f calls agg chunks1 agg2 hdrain
    have heos1 : (DrainView.drain B calls (hash_map_view agg)).2.eos = true := by
      rw [← hview]; exact heos
    have hflat := DrainView.drain_flatten B calls (hash_map_view agg) heos1 hstart
    have hall : (chunks1.map (fun c => c.rows)).flatten =
        agg.hash_map_states.map (fun e => (some e.1, e.2)) ++ [(none, null_state)] := by
      rw [hrows, hflat]
      simp [hash_map_view, hbegin, hnull]
    refine ⟨hall, ?_, ?_⟩
    · rw [hall, List.filter_append]
      simp [List.filter_map, Function.comp_def]
    · rw [hall]
      simp
  · intro calls heos
    obtain ⟨hrows, hview, -⟩ := drain_hash_set_view B calls agg
    have heos1 : (DrainView.drain B calls (hash_set_view agg)).2.eos = true := by
      rw [← hview]; exact heos
    have hflat := DrainView.drain_flatten B calls (hash_set_view agg) heos1 hstart
    have hall : ((drain_hash_set B calls agg).1.map (fun c => c.rows)).flatten =
        agg.hash_set_keys.map some ++ [none] := by
      rw [hrows, hflat]
      simp [hash_set_view, hbegin, hnull_set]
    refine ⟨hall, ?_, ?_⟩
    · rw [hall, List.filter_append]
      simp [List.filter_map, Function.comp_def]
    · rw [hall]
      simp
  · intro a chunk a1 h ⟨row, hrow, hkey⟩
    obtain ⟨hrows, hview, hstates, -, hit⟩ := convert_hash_map_ok_view B f a chunk a1 h
    have heos : a1._is_ht_eos = ((hash_map_view a).step B).2.eos := by
      rw [← hview]; rfl
    rw [hrows] at hrow
    rcases DrainView.step_cases B (hash_map_view a) with ⟨h1, -⟩ | ⟨r, -, -, he, hle, -⟩
    · rw [h1] at hrow
      exact absurd hkey (hash_map_view_take_keys a B row hrow)
    · rw [hash_map_view_pending_length] at hle
      refine ⟨?_, by rw [heos]; exact he⟩
      rw [it_at_end_iff, hstates, hit]
      omega
  · intro a ⟨row, hrow, hkey⟩
    obtain ⟨hchunk, hview, hkeys, -, -, hit, -⟩ := hash_set_view_step B a
    have heos : (convert_hash_set_to_chunk B a).2._is_ht_eos =
        ((hash_set_view a).step B).2.eos := by
      rw [← hview]; rfl
    rw [hchunk] at hrow
    rcases DrainView.step_cases B (hash_set_view a) with ⟨h1, -⟩ | ⟨r, -, -, he, hle, -⟩
    · simp only at hrow
      rw [h1] at hrow
      exact absurd hkey (hash_set_view_take_keys a B row hrow)
    · rw [hash_set_view_pending_length] at hle
      refine ⟨?_, by rw [heos]; exact he⟩
      rw [it_at_end_iff, hkeys, hit]
      omega
  · intro hB hS
    constructor
    · intro hfit calls hcalls
      obtain ⟨chunks1, agg3, hdrain1, -, hview, -⟩ :=
        drain_hash_map_view B f calls agg hok (by rw [hbegin]; omega)
      refine ⟨chunks1, agg3, hdrain1, ?_⟩
      have heos1 := DrainView.drain_eos B hB calls (hash_map_view agg) (Or.inl hS)
        (by rw [hash_map_view_pending_length]; omega)
      rw [← hview] at heos1
      exact heos1
    · intro calls hcalls
      obtain ⟨-, hview, -⟩ := drain_hash_set_view B calls agg
      have heos1 := DrainView.drain_eos B hB calls (hash_set_view agg) (Or.inl hS)
        (by rw [hash_set_view_pending_length]; omega)
      rw [← hview] at heos1
      exact heos1

/-- Witness for C3: two groups and a null-key group, cap 2 and runtime chunk size 2; the null
key is deferred to a third call. -/
theorem null_key_emitted_once_and_last_witness :
    check_has_error (sample_agg 2 [(5, 50), (6, 60)] (some 99))._agg_fn_ctxs = Status.OK ∧
      (sample_agg 2 [(5, 50), (6, 60)] (some 99)).null_key_data = some 99 ∧
      (sample_agg 2 [(5, 50), (6, 60)] (some 99)).has_null_key = true ∧
      (sample_agg 2 [(5, 50), (6, 60)] (some 99))._it_hash = 0 ∧
      (sample_agg 2 [(5, 50), (6, 60)] (some 99))._is_ht_eos = false ∧
      ((drain_hash_set 2 4 (sample_agg 2 [(5, 50), (6, 60)] (some 99))).1.map
          (fun c => c.rows)).flatten.getLast? = some none :=
  ⟨rfl, rfl, rfl, rfl, rfl,
    ((null_key_emitted_once_and_last 2 false (sample_agg 2 [(5, 50), (6, 60)] (some 99)) 99
      rfl rfl rfl rfl rfl).2.1 4 (by decide)).2.2⟩

/-- Counterexample for C4: caller cap 1, `_state->chunk_size() = 2`, one group and a null-key
group.  The call reads one row, so the batch is full for the caller's cap and the iterator is
exhausted, yet the null key is not deferred: it is appended and `_is_ht_eos` is set. -/
theorem null_key_not_deferred_when_caller_cap_reached :
    (∃ (chunk : HashMapChunk Nat Nat) (agg1 : Aggregator Nat Nat),
        convert_hash_map_to_chunk 1 false (sample_agg 2 [(5, 50)] (some 99)) =
          Except.ok (chunk, agg1) ∧
        agg1._it_hash - (sample_agg 2 [(5, 50)] (some 99))._it_hash = 1 ∧
        it_at_end agg1.hash_map_states agg1._it_hash = true ∧
        agg1._is_ht_eos = true ∧
        chunk.rows = [(some 5, 50), (none, 99)]) ∧
      ((convert_hash_set_to_chunk 1 (sample_agg 2 [(5, 50)] (some 99))).2._it_hash = 1 ∧
        (convert_hash_set_to_chunk 1 (sample_agg 2 [(5, 50)] (some 99))).2._is_ht_eos = true ∧
        (convert_hash_set_to_chunk 1 (sample_agg 2 [(5, 50)] (some 99))).1.rows =
          [some 5, none]) :=
  ⟨⟨_, _, rfl, by decide, by decide, by decide, by decide⟩, by decide, by decide, by decide⟩

/-- C4 (amended).  After a drain call `_is_ht_eos` is set only if the iterator is exhausted
and, when a null-key group is present, that group is the last row of the chunk of this call.
If the iterator is exhausted, a null-key group is present and the call has read at least
`_state->chunk_size()` rows (the batch is full with respect to the runtime chunk size, not the
caller's cap), the null key is deferred: the chunk holds no null-key row and `_is_ht_eos` is
false.  Stated for the hash map and for the hash set. -/
theorem eos_not_premature {κ σ : Type} (B : Nat) (f : Bool) (agg : Aggregator κ σ) :
    (∀ (chunk : HashMapChunk κ σ) (agg1 : Aggregator κ σ),
        convert_hash_map_to_chunk B f agg = Except.ok (chunk, agg1) →
        (agg1._is_ht_eos = true →
          it_at_end agg1.hash_map_states agg1._it_hash = true ∧
          ∀ null_state, agg.null_key_data = some null_state →
            chunk.rows.getLast? = some (none, null_state)) ∧
        (it_at_end agg1.hash_map_states agg1._it_hash = true →
          agg.null_key_data ≠ none →
          agg.state_chunk_size ≤ agg1._it_hash - agg._it_hash →
          agg1._is_ht_eos = false ∧ ∀ row ∈ chunk.rows, row.1 ≠ none)) ∧
      ((convert_hash_set_to_chunk B agg).2._is_ht_eos = true →
          it_at_end (convert_hash_set_to_chunk B agg).2.hash_set_keys
            (convert_hash_set_to_chunk B agg).2._it_hash = true ∧
          (agg.has_null_key = true →
            (convert_hash_set_to_chunk B agg).1.rows.getLast? = some none)) ∧
      (it_at_end (convert_hash_set_to_chunk B agg).2.hash_set_keys
            (convert_hash_set_to_chunk B agg).2._it_hash = true →
          agg.has_null_key = true →
          agg.state_chunk_size ≤ (convert_hash_set_to_chunk B agg).2._it_hash - agg._it_hash →
          (convert_hash_set_to_chunk B agg).2._is_ht_eos = false ∧
            ∀ row ∈ (convert_hash_set_to_chunk B agg).1.rows, row ≠ none) := by
  refine ⟨?_, ?_, ?_⟩
  · intro chunk agg1 h
    obtain ⟨hrows, hview, hstates, -, hit⟩ := convert_hash_map_ok_view B f agg chunk agg1 h
    have heos : agg1._is_ht_eos = ((hash_map_view agg).step B).2.eos := by
      rw [← hview]; rfl
    have hlen := hash_map_view_pending_length agg
    have hnr : (hash_map_view agg).null_row = agg.null_key_data.map (fun s => (none, s)) := rfl
    rw [it_at_end_iff, hstates, hit, hrows, heos]
    rcases DrainView.step_cases B (hash_map_view agg) with
      ⟨h1, h2, h3⟩ | ⟨r, hn, h1, he, hle, hlt⟩
    · constructor
      · intro he
        obtain ⟨hle, hnone⟩ := h2 he
        refine ⟨by omega, ?_⟩
        intro null_state hns
        rw [hnr, hns] at hnone
        cases hnone
      · intro hend hnn hcap
        have he0 : ((hash_map_view agg).step B).2.eos = false := by
          cases he : ((hash_map_view agg).step B).2.eos with
          | false => rfl
          | true =>
            obtain ⟨-, hnone⟩ := h2 he
            rw [hnr] at hnone
            cases hk : agg.null_key_data with
            | none => exact absurd hk hnn
            | some s => rw [hk] at hnone; cases hnone
        refine ⟨he0, ?_⟩
        intro row hrow
        rw [h1] at hrow
        exact hash_map_view_take_keys agg B row hrow
    · constructor
      · intro _
        refine ⟨by omega, ?_⟩
        intro null_state hns
        rw [hnr, hns] at hn
        rw [h1, ← Option.some.inj hn]
        simp
      · intro _ _ hcap
        have hcap1 : (hash_map_view agg).cap = agg.state_chunk_size := rfl
        omega
  · obtain ⟨hchunk, hview, hkeys, -, -, hit, -⟩ := hash_set_view_step B agg
    have heos : (convert_hash_set_to_chunk B agg).2._is_ht_eos =
        ((hash_set_view agg).step B).2.eos := by
      rw [← hview]; rfl
    have hlen := hash_set_view_pending_length agg
    rw [it_at_end_iff, hkeys, hit, hchunk, heos]
    intro he
    rcases DrainView.step_cases B (hash_set_view agg) with
      ⟨h1, h2, h3⟩ | ⟨r, hn, h1, -, hle, hlt⟩
    · obtain ⟨hle, hnone⟩ := h2 he
      refine ⟨by omega, ?_⟩
      intro hns
      simp [hash_set_view, hns] at hnone
    · refine ⟨by omega, ?_⟩
      intro hns
      simp only [hash_set_view, hns, if_true] at hn
      simp only
      rw [h1, ← Option.some.inj hn]
      simp
  · obtain ⟨hchunk, hview, hkeys, -, -, hit, -⟩ := hash_set_view_step B agg
    have heos : (convert_hash_set_to_chunk B agg).2._is_ht_eos =
        ((hash_set_view agg).step B).2.eos := by
      rw [← hview]; rfl
    have hlen := hash_set_view_pending_length agg
    rw [it_at_end_iff, hkeys, hit, hchunk, heos]
    intro hend hns hcap
    rcases DrainView.step_cases B (hash_set_view agg) with
      ⟨h1, h2, h3⟩ | ⟨r, hn, h1, -, hle, hlt⟩
    · have he0 : ((hash_set_view agg).step B).2.eos = false := by
        cases he : ((hash_set_view agg).step B).2.eos with
        | false => rfl
        | true =>
          obtain ⟨-, hnone⟩ := h2 he
          simp [hash_set_view, hns] at hnone
      refine ⟨he0, ?_⟩
      intro row hrow
      simp only at hrow
      rw [h1] at hrow
      exact hash_set_view_take_keys agg B row hrow
    · have hcap1 : (hash_set_view agg).cap = agg.state_chunk_size := rfl
      omega

/-- Witness for C4 (amended): cap 2 and runtime chunk size 2, two groups and a null-key
group; the call exhausts the iterator with a full batch and defers the null key. -/
theorem eos_not_premature_witness :
    it_at_end (convert_hash_set_to_chunk 2 (sample_agg 2 [(5, 50), (6, 60)] (some 99))).2.hash_set_keys
        (convert_hash_set_to_chunk 2 (sample_agg 2 [(5, 50), (6, 60)] (some 99))).2._it_hash
        = true ∧
      (sample_agg 2 [(5, 50), (6, 60)] (some 99)).has_null_key = true ∧
      (convert_hash_set_to_chunk 2 (sample_agg 2 [(5, 50), (6, 60)] (some 99))).2._is_ht_eos
        = false :=
  ⟨by decide, rfl,
    ((eos_not_premature 2 false (sample_agg 2 [(5, 50), (6, 60)] (some 99))).2.2
      (by decide) rfl (by decide)).1⟩

/-- Counterexample for C5: an empty structure (`K = 0`) takes one drain call, not
`ceil(0 / 1) = 0`; with caller cap 1 and `_state->chunk_size() = 2` a structure of `K = 2`
entries (one group and the null-key group) takes one call, not `ceil(2 / 1) = 2`; and with
caller cap 4 and `_state->chunk_size() = 2` the hash map of `K = 5` groups is not drained in
`ceil(5 / 4) = 2` calls: its first call stores past the end of `_tmp_agg_states`. -/
theorem drain_calls_not_ceil :
    ((drain_hash_set 1 5 (sample_agg 1 [] none)).2._is_ht_eos = true ∧
        (hash_set_all_rows (sample_agg 1 [] none)).length = 0 ∧
        (drain_hash_set 1 5 (sample_agg 1 [] none)).1.length = 1 ∧
        ceil_div 0 1 = 0) ∧
      ((drain_hash_set 1 5 (sample_agg 2 [(5, 50)] (some 99))).2._is_ht_eos = true ∧
        (hash_set_all_rows (sample_agg 2 [(5, 50)] (some 99))).length = 2 ∧
        (drain_hash_set 1 5 (sample_agg 2 [(5, 50)] (some 99))).1.length = 1 ∧
        ceil_div 2 1 = 2) ∧
      (∃ (chunks : List (HashMapChunk Nat Nat)) (agg2 : Aggregator Nat Nat),
        drain_hash_map 1 false 5 (sample_agg 2 [(5, 50)] (some 99)) = Except.ok (chunks, agg2) ∧
          agg2._is_ht_eos = true ∧ chunks.length = 1 ∧
          (hash_map_all_rows (sample_agg 2 [(5, 50)] (some 99))).length = 2) ∧
      ((hash_map_all_rows
          (sample_agg 2 [(5, 50), (6, 60), (7, 70), (8, 80), (9, 90)] none)).length = 5 ∧
        ceil_div 5 4 = 2 ∧
        drain_hash_map 4 false 2
            (sample_agg 2 [(5, 50), (6, 60), (7, 70), (8, 80), (9, 90)] none) =
          Except.error DrainFault.tmp_agg_states_out_of_range) :=
  ⟨⟨by decide, by decide, by decide, by decide⟩,
    ⟨by decide, by decide, by decide, by decide⟩,
    ⟨_, _, rfl, by decide, by decide, by decide⟩,
    ⟨by decide, by decide, rfl⟩⟩

/-- C5 (amended).  Draining a structure of `K` entries (the null-key group included) from
`begin()` with a batch cap `B ≥ 1` takes exactly `max 1 (ceil (K / B))` drain calls until
`_is_ht_eos` is set, that is `ceil (K / B)` calls for `K ≥ 1` and one call for `K = 0`,
provided there is no null-key group or the cap is the runtime chunk size
(`B = _state->chunk_size()`), and provided, for the hash map, that no call reads more entries
than `_tmp_agg_states` holds (`min B (number of table entries) ≤ _state->chunk_size()`, in
particular `B ≤ _state->chunk_size()`).  Stated for the hash map and for the hash set. -/
theorem drain_calls_eq_ceil {κ σ : Type} (B : Nat) (f : Bool) (agg : Aggregator κ σ)
    (hB : 1 ≤ B) (hok : check_has_error agg._agg_fn_ctxs = Status.OK)
    (hbegin : agg._it_hash = 0) :
    (agg.null_key_data = none ∨ agg.state_chunk_size = B →
      min B agg.hash_map_states.length ≤ agg.state_chunk_size →
      ∀ calls : Nat, agg.hash_map_states.length + 2 ≤ calls →
        ∃ (chunks : List (HashMapChunk κ σ)) (agg2 : Aggregator κ σ),
          drain_hash_map B f calls agg = Except.ok (chunks, agg2) ∧
          agg2._is_ht_eos = true ∧
          chunks.length = max 1 (ceil_div (hash_map_all_rows agg).length B) ∧
          (1 ≤ (hash_map_all_rows agg).length →
            chunks.length = ceil_div (hash_map_all_rows agg).length B)) ∧
      (agg.has_null_key = false ∨ agg.state_chunk_size = B →
        ∀ calls : Nat, agg.hash_set_keys.length + 2 ≤ calls →
          (drain_hash_set B calls agg).2._is_ht_eos = true ∧
          (drain_hash_set B calls agg).1.length =
            max 1 (ceil_div (hash_set_all_rows agg).length B) ∧
          (1 ≤ (hash_set_all_rows agg).length →
            (drain_hash_set B calls agg).1.length =
              ceil_div (hash_set_all_rows agg).length B)) := by
  constructor
  · intro hcap hfit calls hcalls
    obtain ⟨chunks1, agg3, hdrain1, hrows, hview, -⟩ :=
      drain_hash_map_view B f calls agg hok (by rw [hbegin]; omega)
    have hlen := hash_map_view_pending_length agg
    have hcap1 : (hash_map_view agg).null_row = none ∨ (hash_map_view agg).cap = B := by
      rcases hcap with h | h
      · left; simp [hash_map_view, h]
      · right; exact h
    have hcount := DrainView.drain_calls B hB calls (hash_map_view agg) hcap1 (by omega)
    have hS : 1 ≤ (hash_map_view agg).cap ∨ (hash_map_view agg).null_row = none := by
      rcases hcap1 with h | h
      · right; exact h
      · left; omega
    have hlen2 : chunks1.length = max 1 (ceil_div (hash_map_all_rows agg).length B) := by
      have h1 : chunks1.length = (chunks1.map (fun c => c.rows)).length := by simp
      rw [h1, hrows, hcount, hash_map_all_rows_eq_view agg hbegin, List.length_append]
    refine ⟨chunks1, agg3, hdrain1, ?_, hlen2, ?_⟩
    · have heos1 := DrainView.drain_eos B hB calls (hash_map_view agg) hS (by omega)
      rw [← hview] at heos1
      exact heos1
    · intro hK
      have := ceil_div_pos _ B hB hK
      omega
  · intro hcap calls hcalls
    obtain ⟨hrows, hview, -⟩ := drain_hash_set_view B calls agg
    have hlen := hash_set_view_pending_length agg
    have hcap1 : (hash_set_view agg).null_row = none ∨ (hash_set_view agg).cap = B := by
      rcases hcap with h | h
      · left; simp [hash_set_view, h]
      · right; exact h
    have hcount := DrainView.drain_calls B hB calls (hash_set_view agg) hcap1 (by omega)
    have hS : 1 ≤ (hash_set_view agg).cap ∨ (hash_set_view agg).null_row = none := by
      rcases hcap1 with h | h
      · right; exact h
      · left; omega
    have hlen2 : (drain_hash_set B calls agg).1.length =
        max 1 (ceil_div (hash_set_all_rows agg).length B) := by
      have h1 : (drain_hash_set B calls agg).1.length =
          ((drain_hash_set B calls agg).1.map (fun c => c.rows)).length := by simp
      rw [h1, hrows, hcount, hash_set_all_rows_eq_view agg hbegin, List.length_append]
    refine ⟨?_, hlen2, ?_⟩
    · have heos1 := DrainView.drain_eos B hB calls (hash_set_view agg) hS (by omega)
      rw [← hview] at heos1
      exact heos1
    · intro hK
      have := ceil_div_pos _ B hB hK
      omega

/-- Witness for C5 (amended): three groups and a null-key group (`K = 4`) drained with cap 2
and runtime chunk size 2 take `ceil (4 / 2) = 2` calls. -/
theorem drain_calls_eq_ceil_witness :
    1 ≤ 2 ∧
      check_has_error (sample_agg 2 [(5, 50), (6, 60), (7, 70)] (some 99))._agg_fn_ctxs
        = Status.OK ∧
      (sample_agg 2 [(5, 50), (6, 60), (7, 70)] (some 99))._it_hash = 0 ∧
      (drain_hash_set 2 5 (sample_agg 2 [(5, 50), (6, 60), (7, 70)] (some 99))).1.length =
        max 1 (ceil_div (hash_set_all_rows
          (sample_agg 2 [(5, 50), (6, 60), (7, 70)] (some 99))).length 2) :=
  ⟨by decide, rfl, rfl,
    ((drain_calls_eq_ceil 2 false (sample_agg 2 [(5, 50), (6, 60), (7, 70)] (some 99))
      (by decide) rfl rfl).2 (Or.inr rfl) 5 (by decide)).2.1⟩

/-! ## Lemmas on the layout -/

theorem align_to_eq_round_up (x a : Nat) (ha : 0 < a) : (x + a - 1) / a * a = round_up x a := by
  unfold round_up
  have hx : x / a * a + x % a = x := Nat.div_add_mod' x a
  have hr : x % a < a := Nat.mod_lt x ha
  by_cases h0 : x % a = 0
  · have hq : (x + a - 1) / a = x / a := by
      apply Nat.div_eq_of_lt_le
      · omega
      · rw [Nat.succ_mul]; omega
    rw [hq, if_pos h0]; omega
  · have hq : (x + a - 1) / a = x / a + 1 := by
      apply Nat.div_eq_of_lt_le
      · rw [Nat.succ_mul]; omega
      · rw [Nat.succ_mul, Nat.succ_mul]; omega
    rw [hq, if_neg h0, Nat.succ_mul]; omega

theorem pad_eq_round_up (x a : Nat) (ha : 0 < a) : x + (a - x % a) % a = round_up x a := by
  unfold round_up
  have hr : x % a < a := Nat.mod_lt x ha
  by_cases h0 : x % a = 0
  · rw [if_pos h0, h0]; simp
  · rw [if_neg h0, Nat.mod_eq_of_lt (by omega)]

theorem round_up_dvd (x a : Nat) (ha : 0 < a) : a ∣ round_up x a := by
  rw [← align_to_eq_round_up x a ha]
  exact Dvd.intro_left _ rfl

theorem le_round_up (x a : Nat) : x ≤ round_up x a := by
  unfold round_up
  split <;> omega

theorem ALIGN_TO_ok (x a : Nat) (ha : 0 < a) : ALIGN_TO x a = Except.ok (round_up x a) := by
  unfold ALIGN_TO
  rw [if_neg (by omega), align_to_eq_round_up x a ha]

theorem PAD_ok (x a : Nat) (ha : 0 < a) : PAD x a = Except.ok ((a - x % a) % a) := by
  unfold PAD
  rw [if_neg (by omega)]

theorem ALIGN_TO_ok_pos (x a t : Nat) (h : ALIGN_TO x a = Except.ok t) : 0 < a := by
  unfold ALIGN_TO at h
  by_cases ha : a = 0
  · rw [if_pos ha] at h; cases h
  · omega

theorem PAD_ok_pos (x a t : Nat) (h : PAD x a = Except.ok t) : 0 < a := by
  unfold PAD at h
  by_cases ha : a = 0
  · rw [if_pos ha] at h; cases h
  · omega

theorem foldl_max_alignment (fns : List AggregateFunction) (seed : Nat) :
    fns.foldl (fun m fn => max m fn.alignof_size) seed = max seed (max_alignment fns) := by
  unfold max_alignment
  induction fns generalizing seed with
  | nil => simp
  | cons fn rest ih =>
    rw [List.foldl_cons, List.foldl_cons, ih, ih (max 0 fn.alignof_size)]
    simp [max_assoc]

theorem le_max_alignment (fns : List AggregateFunction) (fn : AggregateFunction)
    (h : fn ∈ fns) : fn.alignof_size ≤ max_alignment fns := by
  induction fns with
  | nil => cases h
  | cons g rest ih =>
    have hfold : max_alignment (g :: rest) = max (max 0 g.alignof_size) (max_alignment rest) := by
      unfold max_alignment
      rw [List.foldl_cons]
      exact foldl_max_alignment rest _
    rw [hfold]
    rcases List.mem_cons.mp h with h1 | h1
    · rw [h1]
      exact le_trans (le_max_right _ _) (le_max_left _ _)
    · exact le_trans (ih h1) (le_max_right _ _)

/-- The loop of `open`, started at an offset already rounded up for the first function,
records the offsets of the reference algorithm and ends at the offset it reaches. -/
theorem layout_loop_eq_reference (rest : List AggregateFunction) (fn : AggregateFunction)
    (offset : Nat) (offsets : List Nat) (m : Nat)
    (hpos : ∀ g ∈ rest, 0 < g.alignof_size) :
    layout_loop (fn :: rest)
        { _agg_states_offsets := offsets
          _agg_states_total_size := round_up offset fn.alignof_size
          _max_agg_state_align_size := m } =
      Except.ok
        { _agg_states_offsets := offsets ++ (reference_offsets (fn :: rest) offset).1
          _agg_states_total_size := (reference_offsets (fn :: rest) offset).2
          _max_agg_state_align_size := (fn :: rest).foldl (fun m g => max m g.alignof_size) m } := by
  induction rest generalizing fn offset offsets m with
  | nil => simp [layout_loop, reference_offsets]
  | cons next tail ih =>
    have hnext : 0 < next.alignof_size := hpos next (List.mem_cons_self _ _)
    have htail : ∀ g ∈ tail, 0 < g.alignof_size :=
      fun g hg => hpos g (List.mem_cons_of_mem _ hg)
    unfold layout_loop
    simp only [ALIGN_TO_ok _ _ hnext]
    rw [ih next (round_up offset fn.alignof_size + fn.size) _ _ htail]
    simp [reference_offsets]

theorem layout_loop_ok_pos (rest : List AggregateFunction) (fn : AggregateFunction)
    (layout result : AggregateStateLayout)
    (h : layout_loop (fn :: rest) layout = Except.ok result) :
    ∀ g ∈ rest, 0 < g.alignof_size := by
  induction rest generalizing fn layout with
  | nil => intro g hg; cases hg
  | cons next tail ih =>
    unfold layout_loop at h
    simp only at h
    cases ha : ALIGN_TO (layout._agg_states_total_size + fn.size) next.alignof_size with
    | error fault => rw [ha] at h; cases h
    | ok aligned =>
      rw [ha] at h
      intro g hg
      rcases List.mem_cons.mp hg with h1 | h1
      · rw [h1]; exact ALIGN_TO_ok_pos _ _ _ ha
      · exact ih next _ h g h1

/-- Closed form of the layout of `open` for a non-empty function list with positive
alignments. -/
theorem open_layout_eq (n ks ka : Nat) (fn0 : AggregateFunction)
    (rest : List AggregateFunction) (hpos : ∀ g ∈ fn0 :: rest, 0 < g.alignof_size) :
    open_layout n ks ka (fn0 :: rest) =
      Except.ok
        { _agg_states_offsets := (reference_offsets (fn0 :: rest) ks).1
          _agg_states_total_size :=
            round_up (reference_offsets (fn0 :: rest) ks).2
              (max ka (max_alignment (fn0 :: rest)))
          _max_agg_state_align_size := max ka (max_alignment (fn0 :: rest)) } := by
  have h0 : 0 < fn0.alignof_size := hpos fn0 (List.mem_cons_self _ _)
  have hrest : ∀ g ∈ rest, 0 < g.alignof_size :=
    fun g hg => hpos g (List.mem_cons_of_mem _ hg)
  have hle : fn0.alignof_size ≤ max_alignment (fn0 :: rest) :=
    le_max_alignment _ fn0 (List.mem_cons_self _ _)
  have hmax : (fn0 :: rest).foldl (fun m g => max m g.alignof_size)
      (max ka fn0.alignof_size) = max ka (max_alignment (fn0 :: rest)) := by
    rw [foldl_max_alignment, max_assoc, max_eq_right hle]
  have hM : 0 < max ka (max_alignment (fn0 :: rest)) :=
    lt_of_lt_of_le h0 (le_trans hle (le_max_right _ _))
  unfold open_layout
  simp only [List.isEmpty_cons, Bool.false_and, Bool.false_eq_true, if_false, PAD_ok _ _ h0,
    pad_eq_round_up _ _ h0]
  rw [layout_loop_eq_reference rest fn0 ks [] _ hrest]
  simp only [hmax, ALIGN_TO_ok _ _ hM, List.nil_append]

theorem open_layout_ok_pos (n ks ka : Nat) (fn0 : AggregateFunction)
    (rest : List AggregateFunction) (layout : AggregateStateLayout)
    (h : open_layout n ks ka (fn0 :: rest) = Except.ok layout) :
    ∀ g ∈ fn0 :: rest, 0 < g.alignof_size := by
  unfold open_layout at h
  simp only [List.isEmpty_cons, Bool.false_and, Bool.false_eq_true, if_false] at h
  cases hp : PAD ks fn0.alignof_size with
  | error fault => rw [hp] at h; cases h
  | ok pad =>
    rw [hp] at h
    simp only at h
    cases hl : layout_loop (fn0 :: rest)
        { _agg_states_offsets := []
          _agg_states_total_size := ks + pad
          _max_agg_state_align_size := max ka fn0.alignof_size } with
    | error fault => rw [hl] at h; cases h
    | ok result =>
      intro g hg
      rcases List.mem_cons.mp hg with h1 | h1
      · rw [h1]; exact PAD_ok_pos _ _ _ hp
      · exact layout_loop_ok_pos rest fn0 _ result hl g h1

theorem open_layout_nil (n ks ka : Nat) (layout : AggregateStateLayout)
    (h : open_layout n ks ka [] = Except.ok layout) :
    layout = { _agg_states_offsets := []
               _agg_states_total_size := 16
               _max_agg_state_align_size := 8 } := by
  unfold open_layout at h
  by_cases hn : n = 0
  · simp [hn] at h
  · simp [hn] at h
    exact h.symm

/-- The offsets of the reference loop: one per function, each a multiple of its function's
alignment and not below the start; ranges in function order do not overlap and end at or
before the offset reached. -/
theorem reference_offsets_spec (fns : List AggregateFunction) (offset : Nat)
    (hpos : ∀ g ∈ fns, 0 < g.alignof_size) :
    List.Forall₂
        (fun g off => g.alignof_size ∣ off ∧ offset ≤ off ∧
          off + g.size ≤ (reference_offsets fns offset).2)
        fns (reference_offsets fns offset).1 ∧
      offset ≤ (reference_offsets fns offset).2 ∧
      (fns.zip (reference_offsets fns offset).1).Pairwise
        (fun p q => p.2 + p.1.size ≤ q.2) := by
  induction fns generalizing offset with
  | nil => simp [reference_offsets]
  | cons fn rest ih =>
    have h0 : 0 < fn.alignof_size := hpos fn (List.mem_cons_self _ _)
    have hrest : ∀ g ∈ rest, 0 < g.alignof_size :=
      fun g hg => hpos g (List.mem_cons_of_mem _ hg)
    obtain ⟨hall, hle, hpair⟩ := ih (round_up offset fn.alignof_size + fn.size) hrest
    have hup := le_round_up offset fn.alignof_size
    simp only [reference_offsets, List.zip_cons_cons, List.pairwise_cons]
    refine ⟨List.Forall₂.cons ⟨round_up_dvd _ _ h0, hup, hle⟩ ?_, by omega, ?_, hpair⟩
    · exact hall.imp (fun g off h => ⟨h.1, by omega, h.2.2⟩)
    · intro q hq
      have := List.forall₂_zip hall (a := q.1) (b := q.2) hq
      exact this.2.1

theorem mem_zip_of_getElem? {α β : Type} (l₁ : List α) (l₂ : List β) (i : Nat) (a : α) (b : β)
    (h1 : l₁[i]? = some a) (h2 : l₂[i]? = some b) : (a, b) ∈ l₁.zip l₂ :=
  List.getElem?_mem (List.getElem?_zip_eq_some.mpr ⟨h1, h2⟩)

theorem pairwise_zip_getElem? {α β : Type} (R : α × β → α × β → Prop) (l₁ : List α)
    (l₂ : List β) (hp : (l₁.zip l₂).Pairwise R) (i j : Nat) (hij : i < j) (a a2 : α) (b b2 : β)
    (h1 : l₁[i]? = some a) (h2 : l₂[i]? = some b) (h3 : l₁[j]? = some a2)
    (h4 : l₂[j]? = some b2) : R (a, b) (a2, b2) := by
  obtain ⟨hi, hzi⟩ := List.getElem?_eq_some.mp
    (List.getElem?_zip_eq_some (z := (a, b)) |>.mpr ⟨h1, h2⟩)
  obtain ⟨hj, hzj⟩ := List.getElem?_eq_some.mp
    (List.getElem?_zip_eq_some (z := (a2, b2)) |>.mpr ⟨h3, h4⟩)
  have := List.pairwise_iff_getElem.mp hp i j hi hj hij
  rw [hzi, hzj] at this
  exact this

theorem max_alignment_cons (g : AggregateFunction) (rest : List AggregateFunction) :
    max_alignment (g :: rest) = max g.alignof_size (max_alignment rest) := by
  have h : max_alignment (g :: rest) = max (max 0 g.alignof_size) (max_alignment rest) := by
    unfold max_alignment
    rw [List.foldl_cons]
    exact foldl_max_alignment rest _
  rw [h, Nat.zero_max]

theorem max_alignment_mem (fns : List AggregateFunction) (hne : fns ≠ []) :
    ∃ fn ∈ fns, max_alignment fns = fn.alignof_size := by
  induction fns with
  | nil => exact absurd rfl hne
  | cons g rest ih =>
    rw [max_alignment_cons]
    by_cases hr : rest = []
    · refine ⟨g, List.mem_cons_self _ _, ?_⟩
      rw [hr]
      simp [max_alignment]
    · obtain ⟨fn, hfn, hmax⟩ := ih hr
      by_cases hle : max_alignment rest ≤ g.alignof_size
      · exact ⟨g, List.mem_cons_self _ _, max_eq_left hle⟩
      · exact ⟨fn, List.mem_cons_of_mem _ hfn, by rw [max_eq_right (by omega), hmax]⟩

theorem pow_two_dvd_max (a b c d : Nat) (ha : a = 2 ^ c) (hb : b = 2 ^ d) : b ∣ max a b := by
  by_cases hle : a ≤ b
  · rw [max_eq_right hle]
  · rw [max_eq_left (by omega), ha, hb]
    apply Nat.pow_dvd_pow
    by_contra hcd
    have : 2 ^ c < 2 ^ d := Nat.pow_lt_pow_right (by decide) (by omega)
    omega

/-! ## Properties of the layout -/

/-- C6.  For every non-empty list of aggregate functions with positive alignments and every
key type (and any number of group-by expressions) the layout of `Aggregator::open` is
computed, records one offset per function, and each function's offset
`_agg_states_offsets[i]` is a multiple of that function's `alignof_size()`. -/
theorem agg_states_offsets_aligned (num_group_by_exprs sizeof_KeyType alignof_KeyType : Nat)
    (fns : List AggregateFunction) (hne : fns ≠ [])
    (hpos : ∀ g ∈ fns, 0 < g.alignof_size) :
    ∃ layout : AggregateStateLayout,
      open_layout num_group_by_exprs sizeof_KeyType alignof_KeyType fns = Except.ok layout ∧
      layout._agg_states_offsets.length = fns.length ∧
      ∀ (i : Nat) (fn : AggregateFunction) (off : Nat),
        fns[i]? = some fn → layout._agg_states_offsets[i]? = some off →
        fn.alignof_size ∣ off := by
  cases fns with
  | nil => exact absurd rfl hne
  | cons fn0 rest =>
    obtain ⟨hall, -, -⟩ := reference_offsets_spec (fn0 :: rest) sizeof_KeyType hpos
    refine ⟨_, open_layout_eq _ _ _ fn0 rest hpos, hall.length_eq.symm, ?_⟩
    intro i fn off h1 h2
    exact (List.forall₂_zip hall (mem_zip_of_getElem? _ _ i fn off h1 h2)).1

/-- Witness for C6: key type of 4 bytes, states of sizes 1, 8, 3, 16 with alignments
1, 8, 2, 16. -/
theorem agg_states_offsets_aligned_witness :
    ([⟨1, 1⟩, ⟨8, 8⟩, ⟨3, 2⟩, ⟨16, 16⟩] : List AggregateFunction) ≠ [] ∧
      (∀ g ∈ ([⟨1, 1⟩, ⟨8, 8⟩, ⟨3, 2⟩, ⟨16, 16⟩] : List AggregateFunction),
        0 < g.alignof_size) ∧
      ∃ layout : AggregateStateLayout,
        open_layout 1 4 4 [⟨1, 1⟩, ⟨8, 8⟩, ⟨3, 2⟩, ⟨16, 16⟩] = Except.ok layout ∧
        layout._agg_states_offsets.length = 4 ∧
        ∀ (i : Nat) (fn : AggregateFunction) (off : Nat),
          ([⟨1, 1⟩, ⟨8, 8⟩, ⟨3, 2⟩, ⟨16, 16⟩] : List AggregateFunction)[i]? = some fn →
          layout._agg_states_offsets[i]? = some off → fn.alignof_size ∣ off :=
  ⟨by decide, by decide,
    agg_states_offsets_aligned 1 4 4 [⟨1, 1⟩, ⟨8, 8⟩, ⟨3, 2⟩, ⟨16, 16⟩] (by decide)
      (by decide)⟩

/-- In the layout computed by `Aggregator::open` each later offset is at least an earlier
offset plus the earlier function's state size; the byte ranges `[offset_i, offset_i + size_i)`
of different functions are disjoint, and every range ends at or before
`_agg_states_total_size`. -/
theorem agg_states_ranges_ordered (num_group_by_exprs sizeof_KeyType alignof_KeyType : Nat)
    (fns : List AggregateFunction) (layout : AggregateStateLayout)
    (h : open_layout num_group_by_exprs sizeof_KeyType alignof_KeyType fns =
      Except.ok layout) :
    layout._agg_states_offsets.length = fns.length ∧
      (∀ (i j : Nat) (fi fj : AggregateFunction) (oi oj : Nat), i < j →
        fns[i]? = some fi → fns[j]? = some fj →
        layout._agg_states_offsets[i]? = some oi →
        layout._agg_states_offsets[j]? = some oj →
        oi + fi.size ≤ oj ∧ (0 < fi.size → oi < oj) ∧
          ∀ x : Nat, ¬ (oi ≤ x ∧ x < oi + fi.size ∧ oj ≤ x ∧ x < oj + fj.size)) ∧
      (∀ (i : Nat) (fi : AggregateFunction) (oi : Nat),
        fns[i]? = some fi → layout._agg_states_offsets[i]? = some oi →
        oi + fi.size ≤ layout._agg_states_total_size) := by
  cases fns with
  | nil =>
    rw [open_layout_nil _ _ _ layout h]
    refine ⟨rfl, ?_, ?_⟩
    · intro i j fi fj oi oj _ h1
      simp at h1
    · intro i fi oi h1
      simp at h1
  | cons fn0 rest =>
    have hpos := open_layout_ok_pos _ _ _ fn0 rest layout h
    rw [open_layout_eq _ _ _ fn0 rest hpos] at h
    injection h with h
    subst h
    obtain ⟨hall, -, hpair⟩ := reference_offsets_spec (fn0 :: rest) sizeof_KeyType hpos
    refine ⟨hall.length_eq.symm, ?_, ?_⟩
    · intro i j fi fj oi oj hij h1 h2 h3 h4
      have hle : oi + fi.size ≤ oj :=
        pairwise_zip_getElem? _ _ _ hpair i j hij fi fj oi oj h1 h3 h2 h4
      refine ⟨hle, fun _ => by omega, fun x => by omega⟩
    · intro i fi oi h1 h2
      have := (List.forall₂_zip hall (mem_zip_of_getElem? _ _ i fi oi h1 h2)).2.2
      exact le_trans this (le_round_up _ _)

/-- C7.  For aggregate functions with states of positive size (`size()` is the `sizeof` of the
state type, at least 1): in the layout computed by `Aggregator::open` one offset is recorded
per function, the offsets strictly increase in function order, each later offset is at least
an earlier offset plus the earlier function's state size, so the byte ranges
`[offset_i, offset_i + size_i)` of different functions are pairwise disjoint, and every range
ends at or before `_agg_states_total_size`.  The layout is computed for every non-empty list
of functions with positive alignments. -/
theorem agg_states_offsets_strictly_increasing
    (num_group_by_exprs sizeof_KeyType alignof_KeyType : Nat)
    (fns : List AggregateFunction) (hsize : ∀ g ∈ fns, 0 < g.size) :
    (∀ layout : AggregateStateLayout,
      open_layout num_group_by_exprs sizeof_KeyType alignof_KeyType fns = Except.ok layout →
        layout._agg_states_offsets.length = fns.length ∧
        layout._agg_states_offsets.Pairwise (fun a b => a < b) ∧
        (∀ (i j : Nat) (fi fj : AggregateFunction) (oi oj : Nat), i < j →
          fns[i]? = some fi → fns[j]? = some fj →
          layout._agg_states_offsets[i]? = some oi →
          layout._agg_states_offsets[j]? = some oj →
          oi < oj ∧ oi + fi.size ≤ oj ∧
            ∀ x : Nat, ¬ (oi ≤ x ∧ x < oi + fi.size ∧ oj ≤ x ∧ x < oj + fj.size)) ∧
        (∀ (i : Nat) (fi : AggregateFunction) (oi : Nat),
          fns[i]? = some fi → layout._agg_states_offsets[i]? = some oi →
          oi + fi.size ≤ layout._agg_states_total_size)) ∧
      (fns ≠ [] → (∀ g ∈ fns, 0 < g.alignof_size) →
        ∃ layout : AggregateStateLayout,
          open_layout num_group_by_exprs sizeof_KeyType alignof_KeyType fns =
            Except.ok layout) := by
  constructor
  · intro layout h
    obtain ⟨hlen, hord, htotal⟩ :=
      agg_states_ranges_ordered num_group_by_exprs sizeof_KeyType alignof_KeyType fns layout h
    have hstrict : ∀ (i j : Nat) (fi fj : AggregateFunction) (oi oj : Nat), i < j →
        fns[i]? = some fi → fns[j]? = some fj →
        layout._agg_states_offsets[i]? = some oi →
        layout._agg_states_offsets[j]? = some oj →
        oi < oj ∧ oi + fi.size ≤ oj ∧
          ∀ x : Nat, ¬ (oi ≤ x ∧ x < oi + fi.size ∧ oj ≤ x ∧ x < oj + fj.size) := by
      intro i j fi fj oi oj hij h1 h2 h3 h4
      obtain ⟨hle, hlt, hdis⟩ := hord i j fi fj oi oj hij h1 h2 h3 h4
      exact ⟨hlt (hsize fi (List.getElem?_mem h1)), hle, hdis⟩
    refine ⟨hlen, ?_, hstrict, htotal⟩
    rw [List.pairwise_iff_getElem]
    intro i j hi hj hij
    have hi2 : i < fns.length := by omega
    have hj2 : j < fns.length := by omega
    exact (hstrict i j fns[i] fns[j] _ _ hij (List.getElem?_eq_getElem hi2)
      (List.getElem?_eq_getElem hj2) (List.getElem?_eq_getElem hi)
      (List.getElem?_eq_getElem hj)).1
  · intro hne hpos
    cases fns with
    | nil => exact absurd rfl hne
    | cons fn0 rest => exact ⟨_, open_layout_eq _ _ _ fn0 rest hpos⟩

/-- Witness for C7: key type of 4 bytes, four functions with state sizes 1, 8, 3, 16. -/
theorem agg_states_offsets_strictly_increasing_witness :
    (∀ g ∈ ([⟨1, 1⟩, ⟨8, 8⟩, ⟨3, 2⟩, ⟨16, 16⟩] : List AggregateFunction), 0 < g.size) ∧
      open_layout 1 4 4 [⟨1, 1⟩, ⟨8, 8⟩, ⟨3, 2⟩, ⟨16, 16⟩] =
        Except.ok
          { _agg_states_offsets := [4, 8, 16, 32]
            _agg_states_total_size := 48
            _max_agg_state_align_size := 16 } ∧
      ([4, 8, 16, 32] : List Nat).Pairwise (fun a b => a < b) :=
  ⟨by decide, rfl,
    ((agg_states_offsets_strictly_increasing 1 4 4 [⟨1, 1⟩, ⟨8, 8⟩, ⟨3, 2⟩, ⟨16, 16⟩]
      (by decide)).1
      { _agg_states_offsets := [4, 8, 16, 32]
        _agg_states_total_size := 48
        _max_agg_state_align_size := 16 } rfl).2.1⟩

/-- C8.  Whenever `Aggregator::open` computes the layout, `_agg_states_total_size` is a
multiple of `_max_agg_state_align_size`, the maximum alignment of the layout, which is at
least the alignment of every aggregate function: for a non-empty function list it is the
maximum of `alignof(KeyType)` and all function alignments.  Hence the total is a multiple of
the maximum function alignment whenever that divides the layout's maximum, in particular
whenever the alignments are powers of two. -/
theorem agg_states_total_size_aligned (num_group_by_exprs sizeof_KeyType alignof_KeyType : Nat)
    (fns : List AggregateFunction) (layout : AggregateStateLayout)
    (h : open_layout num_group_by_exprs sizeof_KeyType alignof_KeyType fns =
      Except.ok layout) :
    layout._max_agg_state_align_size ∣ layout._agg_states_total_size ∧
      (∀ fn ∈ fns, fn.alignof_size ≤ layout._max_agg_state_align_size) ∧
      (fns ≠ [] →
        layout._max_agg_state_align_size = max alignof_KeyType (max_alignment fns)) ∧
      (fns ≠ [] → max_alignment fns ∣ layout._max_agg_state_align_size →
        max_alignment fns ∣ layout._agg_states_total_size) ∧
      (fns ≠ [] → (∃ k, alignof_KeyType = 2 ^ k) →
        (∀ fn ∈ fns, ∃ k, fn.alignof_size = 2 ^ k) →
        max_alignment fns ∣ layout._agg_states_total_size) := by
  cases fns with
  | nil =>
    rw [open_layout_nil _ _ _ layout h]
    refine ⟨by decide, ?_, ?_, ?_, ?_⟩
    · intro fn hfn; cases hfn
    · intro hne; exact absurd rfl hne
    · intro hne; exact absurd rfl hne
    · intro hne; exact absurd rfl hne
  | cons fn0 rest =>
    have hpos := open_layout_ok_pos _ _ _ fn0 rest layout h
    rw [open_layout_eq _ _ _ fn0 rest hpos] at h
    injection h with h
    subst h
    have hle : fn0.alignof_size ≤ max_alignment (fn0 :: rest) :=
      le_max_alignment _ fn0 (List.mem_cons_self _ _)
    have hM : 0 < max alignof_KeyType (max_alignment (fn0 :: rest)) :=
      lt_of_lt_of_le (hpos fn0 (List.mem_cons_self _ _)) (le_trans hle (le_max_right _ _))
    have hdvd := round_up_dvd (reference_offsets (fn0 :: rest) sizeof_KeyType).2 _ hM
    refine ⟨hdvd, ?_, fun _ => rfl, fun _ hd => Nat.dvd_trans hd hdvd, ?_⟩
    · intro fn hfn
      exact le_trans (le_max_alignment _ fn hfn) (le_max_right _ _)
    · intro hne ⟨c, hc⟩ hpow
      obtain ⟨fn, hfn, hmax⟩ := max_alignment_mem (fn0 :: rest) hne
      obtain ⟨d, hd⟩ := hpow fn hfn
      exact Nat.dvd_trans (pow_two_dvd_max _ _ c d hc (by rw [hmax, hd])) hdvd

/-- Witness for C8: key type of 16 bytes aligned to 16, one function of size 8 aligned
to 8. -/
theorem agg_states_total_size_aligned_witness :
    open_layout 1 16 16 [⟨8, 8⟩] =
        Except.ok
          { _agg_states_offsets := [16]
            _agg_states_total_size := 32
            _max_agg_state_align_size := 16 } ∧
      16 ∣ 32 :=
  ⟨rfl,
    (agg_states_total_size_aligned 1 16 16 [⟨8, 8⟩]
      { _agg_states_offsets := [16]
        _agg_states_total_size := 32
        _max_agg_state_align_size := 16 } rfl).1⟩

/-- Counterexample for C9: a 16-byte key aligned to 16 (a 128-bit integer key) and one
function of size 8 aligned to 8.  `open` rounds the total up to 16, the larger key alignment,
and gets 32; the reference algorithm sees only the function's alignment 8 and gets 24. -/
theorem open_layout_total_differs_from_reference :
    open_layout 1 16 16 [⟨8, 8⟩] =
        Except.ok
          { _agg_states_offsets := [16]
            _agg_states_total_size := 32
            _max_agg_state_align_size := 16 } ∧
      reference_layout 16 [⟨8, 8⟩] =
        { _agg_states_offsets := [16]
          _agg_states_total_size := 24
          _max_agg_state_align_size := 8 } ∧
      open_layout 1 16 16 [⟨8, 8⟩] ≠ Except.ok (reference_layout 16 [⟨8, 8⟩]) :=
  ⟨rfl, rfl, by
    intro h
    injection h with h
    exact absurd (congrArg AggregateStateLayout._agg_states_total_size h) (by decide)⟩

/-- C9 (amended).  For a non-empty function list with positive alignments the offsets computed
by `Aggregator::open` are those of the reference algorithm started at `sizeof(KeyType)`; the
maximum alignment of `open` is the maximum of `alignof(KeyType)` and the reference's maximum,
and the total size of `open` is the offset reached by the reference loop rounded up to that
maximum.  The whole layout equals the reference's whenever `alignof(KeyType)` does not exceed
the maximum function alignment. -/
theorem open_layout_refines_reference (num_group_by_exprs sizeof_KeyType alignof_KeyType : Nat)
    (fns : List AggregateFunction) (hne : fns ≠ [])
    (hpos : ∀ g ∈ fns, 0 < g.alignof_size) :
    ∃ layout : AggregateStateLayout,
      open_layout num_group_by_exprs sizeof_KeyType alignof_KeyType fns = Except.ok layout ∧
      layout._agg_states_offsets = (reference_layout sizeof_KeyType fns)._agg_states_offsets ∧
      layout._max_agg_state_align_size =
        max alignof_KeyType (reference_layout sizeof_KeyType fns)._max_agg_state_align_size ∧
      layout._agg_states_total_size =
        round_up (reference_offsets fns sizeof_KeyType).2
          (max alignof_KeyType (max_alignment fns)) ∧
      (alignof_KeyType ≤ max_alignment fns → layout = reference_layout sizeof_KeyType fns) := by
  cases fns with
  | nil => exact absurd rfl hne
  | cons fn0 rest =>
    refine ⟨_, open_layout_eq _ _ _ fn0 rest hpos, rfl, rfl, rfl, ?_⟩
    intro hle
    simp only [reference_layout, max_eq_right hle]

/-- Witness for C9 (amended): key type of 4 bytes aligned to 4, four functions. -/
theorem open_layout_refines_reference_witness :
    ([⟨1, 1⟩, ⟨8, 8⟩, ⟨3, 2⟩, ⟨16, 16⟩] : List AggregateFunction) ≠ [] ∧
      (∀ g ∈ ([⟨1, 1⟩, ⟨8, 8⟩, ⟨3, 2⟩, ⟨16, 16⟩] : List AggregateFunction),
        0 < g.alignof_size) ∧
      ∃ layout : AggregateStateLayout,
        open_layout 1 4 4 [⟨1, 1⟩, ⟨8, 8⟩, ⟨3, 2⟩, ⟨16, 16⟩] = Except.ok layout ∧
        layout._agg_states_offsets =
          (reference_layout 4 [⟨1, 1⟩, ⟨8, 8⟩, ⟨3, 2⟩, ⟨16, 16⟩])._agg_states_offsets :=
  ⟨by decide, by decide, by
    obtain ⟨layout, h1, h2, -⟩ :=
      open_layout_refines_reference 1 4 4 [⟨1, 1⟩, ⟨8, 8⟩, ⟨3, 2⟩, ⟨16, 16⟩] (by decide)
        (by decide)
    exact ⟨layout, h1, h2⟩⟩

/-! ## Scalar aggregation over zero rows -/

theorem zipWith_map_right_self {α β γ : Type} (f : α → β → γ) (g : α → β) (l : List α) :
    List.zipWith f l (l.map g) = l.map (fun x => f x (g x)) := by
  induction l with
  | nil => rfl
  | cons x rest ih => simp [ih]

/-- The chunk of `convert_to_chunk_no_groupby` for zero input rows, no group-by expression
and final output, in closed form: one column per function. -/
theorem convert_to_chunk_no_groupby_zero_rows {τ σ ν : Type} (agg : ScalarAggregator τ σ ν)
    (hrows : agg._num_input_rows = 0) (hgroup : agg.num_group_by_exprs = 0)
    (hfinal : agg.use_intermediate_as_output = false)
    (hok : check_has_error (agg.functions.map (fun fn => fn.ctx)) = Status.OK) :
    convert_to_chunk_no_groupby agg =
      Except.ok
        (agg.functions.map (fun fn =>
            if fn.types.is_nullable then
              ({ type_desc := fn.types.result_type, nullable := true, cells := [none] } :
                Column τ ν)
            else
              { type_desc := fn.types.result_type
                nullable := fn.types.is_result_nullable false
                cells := [fn.finalize_to_column agg._single_agg_state] }),
         { agg with
            _num_rows_returned := agg._num_rows_returned + 1
            _num_rows_processed := agg._num_rows_processed + 1
            _is_ht_eos := true }) := by
  unfold convert_to_chunk_no_groupby
  simp only [hok, hrows, hgroup, hfinal, _create_agg_result_columns, _finalize_to_chunk,
    zipWith_map_right_self, create_column, Column.append_default, Bool.not_false, if_true,
    beq_self_eq_true, Bool.and_self, List.nil_append]

/-- C10.  Zero-row scalar aggregation: when `convert_to_chunk_no_groupby` runs with
`_num_input_rows = 0`, no group-by expression and final output (and no function context in
error), it returns a chunk with one column per aggregate function, each holding exactly one
row, and sets `_is_ht_eos`; for every function whose result may be NULL
(`_agg_fn_types[i].is_nullable`, e.g. `sum`) the column is nullable and the row is NULL, not
the function's own value, while a function with `is_nullable = false` (e.g. `count`) keeps the
value it finalized. -/
theorem zero_row_scalar_aggregation_is_null {τ σ ν : Type} (agg : ScalarAggregator τ σ ν)
    (hrows : agg._num_input_rows = 0) (hgroup : agg.num_group_by_exprs = 0)
    (hfinal : agg.use_intermediate_as_output = false)
    (hok : check_has_error (agg.functions.map (fun fn => fn.ctx)) = Status.OK) :
    ∃ (chunk : List (Column τ ν)) (agg1 : ScalarAggregator τ σ ν),
      convert_to_chunk_no_groupby agg = Except.ok (chunk, agg1) ∧
      chunk.length = agg.functions.length ∧
      (∀ col ∈ chunk, col.cells.length = 1) ∧
      (agg.functions ≠ [] → chunk_num_rows chunk = 1) ∧
      (∀ (i : Nat) (fn : AggFunctionSlot τ σ ν) (col : Column τ ν),
        agg.functions[i]? = some fn → chunk[i]? = some col →
        (fn.types.is_nullable = true → col.nullable = true ∧ col.cells = [none]) ∧
        (fn.types.is_nullable = false →
          col.cells = [fn.finalize_to_column agg._single_agg_state])) ∧
      agg1._is_ht_eos = true ∧
      agg1._num_rows_returned = agg._num_rows_returned + 1 := by
  refine ⟨_, _, convert_to_chunk_no_groupby_zero_rows agg hrows hgroup hfinal hok, ?_, ?_, ?_,
    ?_, rfl, rfl⟩
  · simp
  · intro col hcol
    obtain ⟨fn, -, hfn⟩ := List.mem_map.mp hcol
    rw [← hfn]
    split <;> rfl
  · intro hne
    cases hf : agg.functions with
    | nil => exact absurd hf hne
    | cons fn rest =>
      simp only [List.map_cons, chunk_num_rows]
      split <;> rfl
  · intro i fn col h1 h2
    rw [List.getElem?_map, h1] at h2
    simp only [Option.map_some'] at h2
    have h3 := Option.some.inj h2
    constructor
    · intro hn
      rw [← h3, if_pos hn]
      exact ⟨rfl, rfl⟩
    · intro hn
      rw [← h3, if_neg (by simp [hn])]

/-- Witness for C10: `sum` and `count` over zero rows give one row `(NULL, 0)`. -/
theorem zero_row_scalar_aggregation_is_null_witness :
    (sample_scalar_agg 0 (0, 0))._num_input_rows = 0 ∧
      (sample_scalar_agg 0 (0, 0)).num_group_by_exprs = 0 ∧
      (sample_scalar_agg 0 (0, 0)).use_intermediate_as_output = false ∧
      check_has_error ((sample_scalar_agg 0 (0, 0)).functions.map (fun fn => fn.ctx))
        = Status.OK ∧
      ∃ (chunk : List (Column String Nat))
        (agg1 : ScalarAggregator String (Nat × Nat) Nat),
        convert_to_chunk_no_groupby (sample_scalar_agg 0 (0, 0)) = Except.ok (chunk, agg1) ∧
        chunk.length = (sample_scalar_agg 0 (0, 0)).functions.length := by
  refine ⟨rfl, rfl, rfl, rfl, ?_⟩
  obtain ⟨chunk, agg1, h1, h2, -⟩ :=
    zero_row_scalar_aggregation_is_null (sample_scalar_agg 0 (0, 0)) rfl rfl rfl rfl
  exact ⟨chunk, agg1, h1, h2⟩

/-! ## Streaming pre-aggregation -/

/-- The level loop advances over exactly the leading elements whose threshold is at most
`ht_mem`, and stops at the first element whose threshold exceeds it or at the end. -/
theorem advance_cache_level_spec {D : Type} (ht_mem : Int)
    (l : List (StreamingHtMinReductionEntry D)) (c : Nat) :
    c ≤ advance_cache_level ht_mem l c ∧
      advance_cache_level ht_mem l c ≤ c + l.length ∧
      (∀ (j : Nat) (e : StreamingHtMinReductionEntry D),
        j < advance_cache_level ht_mem l c - c → l.get? j = some e → e.min_ht_mem ≤ ht_mem) ∧
      (∀ e : StreamingHtMinReductionEntry D,
        l.get? (advance_cache_level ht_mem l c - c) = some e → ht_mem < e.min_ht_mem) := by
  induction l generalizing c with
  | nil => simp [advance_cache_level]
  | cons next rest ih =>
    unfold advance_cache_level
    by_cases h : ht_mem ≥ next.min_ht_mem
    · obtain ⟨h1, h2, h3, h4⟩ := ih (c + 1)
      simp only [h, if_true, List.length_cons]
      refine ⟨by omega, by omega, ?_, ?_⟩
      · intro j e hj hget
        cases j with
        | zero =>
          simp only [List.get?_cons_zero, Option.some.injEq] at hget
          rw [← hget]; exact h
        | succ k =>
          simp only [List.get?_cons_succ] at hget
          exact h3 k e (by omega) hget
      · intro e hget
        have hidx : advance_cache_level ht_mem rest (c + 1) - c =
            (advance_cache_level ht_mem rest (c + 1) - (c + 1)) + 1 := by omega
        rw [hidx, List.get?_cons_succ] at hget
        exact h4 e hget
    · simp only [h, if_false, Nat.sub_self, List.length_cons]
      refine ⟨le_refl _, by omega, ?_, ?_⟩
      · intro j e hj; omega
      · intro e hget
        simp only [List.get?_cons_zero, Option.some.injEq] at hget
        rw [← hget]; omega

/-- C11.  `should_expand_preagg_hash_tables` returns true whenever `ht_rows = 0`, whatever the
other arguments (and whatever the table), and whenever
`aggregated_input_rows = (prev_row_returned - input_chunk_size) - _num_rows_returned`, as a
signed 64-bit value, is at most 0. -/
theorem should_expand_when_no_statistics {D : Type} (ops : DoubleOps D)
    (table : StreamingHtMinReductionTable D) (_num_rows_returned : Int)
    (prev_row_returned input_chunk_size : Nat) (ht_mem ht_rows : Int) :
    (ht_rows = 0 →
        should_expand_preagg_hash_tables ops table _num_rows_returned prev_row_returned
          input_chunk_size ht_mem ht_rows = some true) ∧
      (wrap_int64 (wrap_int64 ((prev_row_returned : Int) - (input_chunk_size : Int)) -
            _num_rows_returned) ≤ 0 →
        should_expand_preagg_hash_tables ops table _num_rows_returned prev_row_returned
          input_chunk_size ht_mem ht_rows = some true) := by
  constructor
  · intro h
    simp [should_expand_preagg_hash_tables, h]
  · intro h
    unfold should_expand_preagg_hash_tables
    by_cases h0 : ht_rows = 0
    · simp [h0]
    · simp only [h0, if_false, h, if_true]

/-- Witness for C11: an empty hash table, and a chunk larger than the rows returned so far. -/
theorem should_expand_when_no_statistics_witness :
    should_expand_preagg_hash_tables rational_ops sample_reduction_table 0 5000 1000 300000 0
        = some true ∧
      wrap_int64 (wrap_int64 (((1000 : Nat) : Int) - ((2000 : Nat) : Int)) - 0) ≤ 0 ∧
      should_expand_preagg_hash_tables rational_ops sample_reduction_table 0 1000 2000 300000
        1000 = some true :=
  ⟨(should_expand_when_no_statistics rational_ops sample_reduction_table 0 5000 1000 300000
      0).1 rfl,
    by decide,
    (should_expand_when_no_statistics rational_ops sample_reduction_table 0 1000 2000 300000
      1000).2 (by decide)⟩

/-- C12.  For `ht_rows > 0` and `aggregated_input_rows > 0` the function returns the result of
the `double` comparison `aggregated_input_rows / ht_rows > TABLE[level].streaming_ht_min_reduction`,
so it returns true exactly when the observed reduction is strictly greater than the level's
minimum.  The level is reached from 0 by advancing while the next level's `min_ht_mem` is at
most `ht_mem`: every level passed has its threshold at most `ht_mem`, the next level (if any)
has a larger one, the loop ends, and the level is a valid index (`< STREAMING_HT_MIN_REDUCTION_SIZE`). -/
theorem should_expand_iff_reduction_exceeds {D : Type} (ops : DoubleOps D)
    (table : StreamingHtMinReductionTable D) (_num_rows_returned : Int)
    (prev_row_returned input_chunk_size : Nat) (ht_mem ht_rows : Int)
    (hrows : 0 < ht_rows)
    (hagg : 0 < wrap_int64 (wrap_int64 ((prev_row_returned : Int) - (input_chunk_size : Int)) -
      _num_rows_returned)) :
    ∃ (level : Nat) (entry : StreamingHtMinReductionEntry D),
      level = advance_cache_level ht_mem table.rest 0 ∧
      level < STREAMING_HT_MIN_REDUCTION_SIZE table ∧
      table.entries.get? level = some entry ∧
      (∀ (i : Nat) (e : StreamingHtMinReductionEntry D), 1 ≤ i → i ≤ level →
        table.entries.get? i = some e → e.min_ht_mem ≤ ht_mem) ∧
      (∀ e : StreamingHtMinReductionEntry D,
        table.entries.get? (level + 1) = some e → ht_mem < e.min_ht_mem) ∧
      should_expand_preagg_hash_tables ops table _num_rows_returned prev_row_returned
          input_chunk_size ht_mem ht_rows =
        some (ops.gt
          (ops.div
            (ops.of_int64 (wrap_int64
              (wrap_int64 ((prev_row_returned : Int) - (input_chunk_size : Int)) -
                _num_rows_returned)))
            (ops.of_int64 ht_rows))
          entry.streaming_ht_min_reduction) ∧
      (should_expand_preagg_hash_tables ops table _num_rows_returned prev_row_returned
          input_chunk_size ht_mem ht_rows = some true ↔
        ops.gt
          (ops.div
            (ops.of_int64 (wrap_int64
              (wrap_int64 ((prev_row_returned : Int) - (input_chunk_size : Int)) -
                _num_rows_returned)))
            (ops.of_int64 ht_rows))
          entry.streaming_ht_min_reduction = true) := by
  obtain ⟨-, h2, h3, h4⟩ := advance_cache_level_spec ht_mem table.rest 0
  have hlt : advance_cache_level ht_mem table.rest 0 < table.entries.length := by
    simp only [StreamingHtMinReductionTable.entries, List.length_cons]
    omega
  obtain ⟨entry, hentry⟩ : ∃ entry, table.entries.get? (advance_cache_level ht_mem table.rest 0)
      = some entry := ⟨_, List.get?_eq_get hlt⟩
  have hres : should_expand_preagg_hash_tables ops table _num_rows_returned prev_row_returned
      input_chunk_size ht_mem ht_rows =
      some (ops.gt
        (ops.div
          (ops.of_int64 (wrap_int64
            (wrap_int64 ((prev_row_returned : Int) - (input_chunk_size : Int)) -
              _num_rows_returned)))
          (ops.of_int64 ht_rows))
        entry.streaming_ht_min_reduction) := by
    unfold should_expand_preagg_hash_tables
    have h0 : ¬ ht_rows = 0 := by omega
    have h1 : ¬ wrap_int64 (wrap_int64 ((prev_row_returned : Int) - (input_chunk_size : Int)) -
        _num_rows_returned) ≤ 0 := by omega
    simp only [h0, if_false, h1, hentry]
  refine ⟨_, entry, rfl, hlt, hentry, ?_, ?_, hres, ?_⟩
  · intro i e hi1 hi2 hget
    obtain ⟨k, rfl⟩ : ∃ k, i = k + 1 := ⟨i - 1, by omega⟩
    simp only [StreamingHtMinReductionTable.entries, List.get?_cons_succ] at hget
    exact h3 k e (by omega) hget
  · intro e hget
    simp only [StreamingHtMinReductionTable.entries, List.get?_cons_succ] at hget
    exact h4 e (by simpa using hget)
  · rw [hres]
    simp

/-- Witness for C12: 4000 aggregated input rows over 1000 table rows at 300000 bytes reach
level 1 (minimum reduction 1.1). -/
theorem should_expand_iff_reduction_exceeds_witness :
    (0 : Int) < 1000 ∧
      0 < wrap_int64 (wrap_int64 (((5000 : Nat) : Int) - ((1000 : Nat) : Int)) - 0) ∧
      ∃ (level : Nat) (entry : StreamingHtMinReductionEntry Rat),
        level = advance_cache_level 300000 sample_reduction_table.rest 0 ∧
        level < STREAMING_HT_MIN_REDUCTION_SIZE sample_reduction_table ∧
        sample_reduction_table.entries.get? level = some entry := by
  refine ⟨by decide, by decide, ?_⟩
  obtain ⟨level, entry, h1, h2, h3, -⟩ :=
    should_expand_iff_reduction_exceeds rational_ops sample_reduction_table 0 5000 1000 300000
      1000 (by decide) (by decide)
  exact ⟨level, entry, h1, h2, h3⟩

/-! ## Building under a shared limit -/

theorem build_hash_map_with_limit_length (limit : Nat) (chunk keys : List Nat) :
    keys.length ≤ (build_hash_map_with_limit limit chunk keys).length ∧
      (build_hash_map_with_limit limit chunk keys).length ≤ max keys.length limit := by
  induction chunk generalizing keys with
  | nil => simp [build_hash_map_with_limit]
  | cons key rows ih =>
    unfold build_hash_map_with_limit
    by_cases hmem : key ∈ keys
    · simp only [hmem, if_true]; exact ih keys
    · by_cases hlt : keys.length < limit
      · simp only [hmem, if_false, hlt, if_true]
        obtain ⟨h1, h2⟩ := ih (keys ++ [key])
        simp only [List.length_append, List.length_singleton] at h1 h2
        constructor
        · omega
        · have : max (keys.length + 1) limit = max keys.length limit := by
            rw [max_eq_right (by omega), max_eq_right (by omega)]
          omega
      · simp only [hmem, hlt, if_false]; exact ih keys

/-- One call with a shared limit: the limit is kept, the map only grows, the countdown drops
by the number of groups inserted, and groups are inserted only if the countdown was positive,
in which case the map ends with at most `_limit` groups. -/
theorem build_hash_map_shared_step (chunk : List Nat) (countdown : Int)
    (agg : LimitedAggregator) :
    (build_hash_map chunk countdown true true agg).1._limit = agg._limit ∧
      agg.hash_map_keys.length ≤
        (build_hash_map chunk countdown true true agg).1.hash_map_keys.length ∧
      (build_hash_map chunk countdown true true agg).2 =
        countdown - (((build_hash_map chunk countdown true true agg).1.hash_map_keys.length
          - agg.hash_map_keys.length : Nat) : Int) ∧
      ((build_hash_map chunk countdown true true agg).1.hash_map_keys.length =
          agg.hash_map_keys.length ∨
        (0 < countdown ∧
          (build_hash_map chunk countdown true true agg).1.hash_map_keys.length
            ≤ agg._limit)) := by
  unfold build_hash_map _build_hash_map_with_shared_limit build_hash_map_with_selection
  simp only [Bool.and_self, if_true]
  by_cases hc : agg.hash_map_keys.length ≥ agg._limit ∨ countdown ≤ 0
  · simp [hc]
  · simp only [hc, if_false]
    obtain ⟨h1, h2⟩ := build_hash_map_with_limit_length agg._limit chunk agg.hash_map_keys
    have hmax : max agg.hash_map_keys.length agg._limit = agg._limit :=
      max_eq_right (by omega)
    refine ⟨trivial, h1, trivial, Or.inr ⟨by omega, by omega⟩⟩

theorem sibling_call_step (chunk : List Nat) (siblings : List LimitedAggregator) (index : Nat)
    (countdown : Int) (M : Nat) (hM : ∀ agg ∈ siblings, agg._limit ≤ M) :
    (∀ agg ∈ (sibling_call chunk siblings index countdown).1, agg._limit ≤ M) ∧
      total_groups siblings ≤ total_groups (sibling_call chunk siblings index countdown).1 ∧
      (sibling_call chunk siblings index countdown).2 =
        countdown - ((total_groups (sibling_call chunk siblings index countdown).1
          - total_groups siblings : Nat) : Int) ∧
      (total_groups (sibling_call chunk siblings index countdown).1 = total_groups siblings ∨
        (0 < countdown ∧
          total_groups (sibling_call chunk siblings index countdown).1
            ≤ total_groups siblings + M)) := by
  induction siblings generalizing index with
  | nil => simp [sibling_call, total_groups]
  | cons agg rest ih =>
    have hagg : agg._limit ≤ M := hM agg (List.mem_cons_self _ _)
    have hrest : ∀ a ∈ rest, a._limit ≤ M := fun a ha => hM a (List.mem_cons_of_mem _ ha)
    cases index with
    | zero =>
      obtain ⟨h1, h2, h3, h4⟩ := build_hash_map_shared_step chunk countdown agg
      simp only [sibling_call, total_groups, List.map_cons, List.sum_cons]
      refine ⟨?_, by omega, ?_, ?_⟩
      · intro a ha
        rcases List.mem_cons.mp ha with h | h
        · rw [h, h1]; exact hagg
        · exact hrest a h
      · rw [h3]; congr 1; omega
      · rcases h4 with h | ⟨hpos, hle⟩
        · left; omega
        · right; exact ⟨hpos, by omega⟩
    | succ i =>
      obtain ⟨h1, h2, h3, h4⟩ := ih i hrest
      simp only [total_groups] at h2 h3 h4
      simp only [sibling_call, total_groups, List.map_cons, List.sum_cons]
      refine ⟨?_, by omega, ?_, ?_⟩
      · intro a ha
        rcases List.mem_cons.mp ha with h | h
        · rw [h]; exact hagg
        · exact h1 a h
      · rw [h3]; congr 1; omega
      · rcases h4 with h | ⟨hpos, hle⟩
        · left; omega
        · right; exact ⟨hpos, by omega⟩

/-- Counterexample for C13: two siblings with `_limit = 10` share a countdown of 10.  The
first inserts 8 groups (countdown 2); the second still sees a positive countdown and inserts
8 groups: 16 groups in all, countdown -6. -/
theorem shared_limit_exceeded :
    total_groups
        (sibling_calls [(0, [1, 2, 3, 4, 5, 6, 7, 8]), (1, [11, 12, 13, 14, 15, 16, 17, 18])]
          [⟨[], 10⟩, ⟨[], 10⟩] 10).1 = 16 ∧
      (sibling_calls [(0, [1, 2, 3, 4, 5, 6, 7, 8]), (1, [11, 12, 13, 14, 15, 16, 17, 18])]
          [⟨[], 10⟩, ⟨[], 10⟩] 10).2 = -6 ∧
      ¬ total_groups
          (sibling_calls [(0, [1, 2, 3, 4, 5, 6, 7, 8]), (1, [11, 12, 13, 14, 15, 16, 17, 18])]
            [⟨[], 10⟩, ⟨[], 10⟩] 10).1 ≤ 10 := by
  decide

/-- C13 (amended).  When sibling aggregators call `build_hash_map` (both flags set) with one
shared countdown initialised to `L`, then after every sequence of calls interleaved at call
granularity the countdown equals `L` minus the number of groups inserted so far; a call
inserts groups only if the countdown is positive when it starts, so nothing is inserted for
`L ≤ 0`, and the number of groups inserted by all siblings is below `L + M`, where `M` bounds
the siblings' `_limit` (the last inserting call may overshoot `L` by up to its own limit). -/
theorem shared_limit_total_bound (calls : List (Nat × List Nat))
    (siblings : List LimitedAggregator) (L : Int) (M : Nat)
    (hM : ∀ agg ∈ siblings, agg._limit ≤ M) :
    total_groups siblings ≤ total_groups (sibling_calls calls siblings L).1 ∧
      (sibling_calls calls siblings L).2 =
        L - ((total_groups (sibling_calls calls siblings L).1
          - total_groups siblings : Nat) : Int) ∧
      (total_groups (sibling_calls calls siblings L).1 = total_groups siblings ∨
        ((total_groups (sibling_calls calls siblings L).1 - total_groups siblings : Nat) : Int)
          < L + M) ∧
      (L ≤ 0 → total_groups (sibling_calls calls siblings L).1 = total_groups siblings) := by
  induction calls generalizing siblings L with
  | nil => simp [sibling_calls]
  | cons call calls ih =>
    obtain ⟨h1, h2, h3, h4⟩ := sibling_call_step call.2 siblings call.1 L M hM
    obtain ⟨g1, g2, g3, g4⟩ := ih (sibling_call call.2 siblings call.1 L).1
      (sibling_call call.2 siblings call.1 L).2 h1
    simp only [sibling_calls]
    refine ⟨by omega, by omega, ?_, ?_⟩
    · rcases g3 with g | g
      · rcases h4 with h | ⟨hpos, hle⟩
        · left; omega
        · right; omega
      · right; omega
    · intro hL
      rcases h4 with h | ⟨hpos, -⟩
      · have := g4 (by omega)
        omega
      · omega

/-- Witness for C13 (amended): the two siblings above; 16 groups are below `10 + 10`. -/
theorem shared_limit_total_bound_witness :
    (∀ agg ∈ ([⟨[], 10⟩, ⟨[], 10⟩] : List LimitedAggregator), agg._limit ≤ 10) ∧
      (sibling_calls [(0, [1, 2, 3, 4, 5, 6, 7, 8]), (1, [11, 12, 13, 14, 15, 16, 17, 18])]
          [⟨[], 10⟩, ⟨[], 10⟩] 10).2 =
        10 - ((total_groups
          (sibling_calls [(0, [1, 2, 3, 4, 5, 6, 7, 8]), (1, [11, 12, 13, 14, 15, 16, 17, 18])]
            [⟨[], 10⟩, ⟨[], 10⟩] 10).1
          - total_groups ([⟨[], 10⟩, ⟨[], 10⟩] : List LimitedAggregator) : Nat) : Int) :=
  ⟨by decide,
    (shared_limit_total_bound
      [(0, [1, 2, 3, 4, 5, 6, 7, 8]), (1, [11, 12, 13, 14, 15, 16, 17, 18])]
      [⟨[], 10⟩, ⟨[], 10⟩] 10 10 (by decide)).2.1⟩

/-! ## Spilling -/

/-- The ways one iteration of the loop of `spill_aggregate_data` ends or continues. -/
theorem spill_aggregate_data_step {χ S P : Type} (env : SpillEnv χ S P) (fuel : Nat)
    (s : S) (p : P) (r : SpillOutcome χ S P)
    (h : spill_aggregate_data env (fuel + 1) s p = some r) :
    (env.is_full s = true ∧
        r = { status := Status.OK, pulled := [], spilled := [], spill_tasks := [p],
              spiller := s }) ∨
      (env.is_full s = false ∧ ∃ st,
        (env.chunk_provider p).1 = Except.error st ∧ st.is_end_of_file = true ∧
        r = { status := Status.OK, pulled := [Except.error st], spilled := [],
              spill_tasks := [], spiller := s }) ∨
      (env.is_full s = false ∧ ∃ st,
        (env.chunk_provider p).1 = Except.error st ∧ st.is_end_of_file = false ∧
        r = { status := st, pulled := [Except.error st], spilled := [],
              spill_tasks := [], spiller := s }) ∨
      (env.is_full s = false ∧ ∃ chunk,
        (env.chunk_provider p).1 = Except.ok chunk ∧ env.is_empty chunk = false ∧
        (env.spill s chunk).1 ≠ Status.OK ∧
        r = { status := (env.spill s chunk).1, pulled := [Except.ok chunk],
              spilled := [(chunk, (env.spill s chunk).1)], spill_tasks := [],
              spiller := (env.spill s chunk).2 }) ∨
      (env.is_full s = false ∧ ∃ chunk r1,
        (env.chunk_provider p).1 = Except.ok chunk ∧ env.is_empty chunk = false ∧
        (env.spill s chunk).1 = Status.OK ∧
        spill_aggregate_data env fuel (env.spill s chunk).2 (env.chunk_provider p).2
          = some r1 ∧
        r = { status := r1.status, pulled := Except.ok chunk :: r1.pulled,
              spilled := (chunk, Status.OK) :: r1.spilled, spill_tasks := r1.spill_tasks,
              spiller := r1.spiller }) ∨
      (env.is_full s = false ∧ ∃ chunk r1,
        (env.chunk_provider p).1 = Except.ok chunk ∧ env.is_empty chunk = true ∧
        spill_aggregate_data env fuel s (env.chunk_provider p).2 = some r1 ∧
        r = { status := r1.status, pulled := Except.ok chunk :: r1.pulled,
              spilled := r1.spilled, spill_tasks := r1.spill_tasks,
              spiller := r1.spiller }) := by
  unfold spill_aggregate_data at h
  by_cases hfull : env.is_full s = true
  · simp only [hfull, if_true, Option.some.injEq] at h
    exact Or.inl ⟨hfull, h.symm⟩
  · have hfull0 : env.is_full s = false := by simpa using hfull
    simp only [hfull0, Bool.false_eq_true, if_false] at h
    right
    cases hp : env.chunk_provider p with
    | mk res p1 =>
      rw [hp] at h
      cases res with
      | error st =>
        simp only at h
        by_cases heof : st.is_end_of_file = true
        · simp only [heof, if_true, Option.some.injEq] at h
          exact Or.inl ⟨hfull0, st, rfl, heof, h.symm⟩
        · have heof0 : st.is_end_of_file = false := by simpa using heof
          simp only [heof0, Bool.false_eq_true, if_false, Option.some.injEq] at h
          exact Or.inr (Or.inl ⟨hfull0, st, rfl, heof0, h.symm⟩)
      | ok chunk =>
        simp only at h
        right; right
        by_cases hempty : env.is_empty chunk = true
        · simp only [hempty, Bool.not_true, Bool.false_eq_true, if_false] at h
          right; right
          cases hrec : spill_aggregate_data env fuel s p1 with
          | none => rw [hrec] at h; cases h
          | some r1 =>
            rw [hrec] at h
            simp only [Option.some.injEq] at h
            exact ⟨hfull0, chunk, r1, rfl, hempty, rfl, h.symm⟩
        · have hempty0 : env.is_empty chunk = false := by simpa using hempty
          simp only [hempty0, Bool.not_false, if_true] at h
          cases hsp : env.spill s chunk with
          | mk st s1 =>
            rw [hsp] at h
            cases st with
            | OK =>
              right; left
              simp only at h
              cases hrec : spill_aggregate_data env fuel s1 p1 with
              | none => rw [hrec] at h; cases h
              | some r1 =>
                rw [hrec] at h
                simp only [Option.some.injEq] at h
                exact ⟨hfull0, chunk, r1, rfl, hempty0, by rw [hsp], by rw [hsp]; exact hrec, h.symm⟩
            | RuntimeError msg =>
              simp only [Option.some.injEq] at h
              exact Or.inl ⟨hfull0, chunk, rfl, hempty0, by rw [hsp]; simp, by rw [hsp]; exact h.symm⟩
            | MemoryLimitExceeded msg =>
              simp only [Option.some.injEq] at h
              exact Or.inl ⟨hfull0, chunk, rfl, hempty0, by rw [hsp]; simp, by rw [hsp]; exact h.symm⟩
            | InternalError msg =>
              simp only [Option.some.injEq] at h
              exact Or.inl ⟨hfull0, chunk, rfl, hempty0, by rw [hsp]; simp, by rw [hsp]; exact h.symm⟩
            | MemoryAllocFailed msg =>
              simp only [Option.some.injEq] at h
              exact Or.inl ⟨hfull0, chunk, rfl, hempty0, by rw [hsp]; simp, by rw [hsp]; exact h.symm⟩
            | EndOfFile msg =>
              simp only [Option.some.injEq] at h
              exact Or.inl ⟨hfull0, chunk, rfl, hempty0, by rw [hsp]; simp, by rw [hsp]; exact h.symm⟩
            | ServiceUnavailable msg =>
              simp only [Option.some.injEq] at h
              exact Or.inl ⟨hfull0, chunk, rfl, hempty0, by rw [hsp]; simp, by rw [hsp]; exact h.symm⟩
            | Uninitialized msg =>
              simp only [Option.some.injEq] at h
              exact Or.inl ⟨hfull0, chunk, rfl, hempty0, by rw [hsp]; simp, by rw [hsp]; exact h.symm⟩
            | NotSupported msg =>
              simp only [Option.some.injEq] at h
              exact Or.inl ⟨hfull0, chunk, rfl, hempty0, by rw [hsp]; simp, by rw [hsp]; exact h.symm⟩

theorem mem_dropLast_cons {α : Type} (a x : α) (l : List α) (h : x ∈ (a :: l).dropLast) :
    x = a ∨ x ∈ l.dropLast := by
  cases l with
  | nil => simp at h
  | cons b rest =>
    simp only [List.dropLast_cons₂, List.mem_cons] at h
    exact h

theorem getLast?_cons_of_some {α : Type} (a z : α) (l : List α) (h : l.getLast? = some z) :
    (a :: l).getLast? = some z := by
  cases l with
  | nil => simp at h
  | cons b rest => rw [List.getLast?_cons_cons]; exact h

/-- The spiller and the chunks spilled, replayed from the provider results: the spiller ends
as `spiller_after` says, every invocation of the provider happened while the spiller was not
full, and the chunks passed to `spill` are the non-empty chunks among the results, in order. -/
theorem spill_aggregate_data_trace {χ S P : Type} (env : SpillEnv χ S P) (fuel : Nat)
    (s : S) (p : P) (r : SpillOutcome χ S P)
    (h : spill_aggregate_data env fuel s p = some r) :
    r.spiller = spiller_after env r.pulled s ∧
      (∀ k : Nat, k < r.pulled.length →
        env.is_full (spiller_after env (r.pulled.take k) s) = false) ∧
      r.spilled.map Prod.fst =
        (r.pulled.filterMap pulled_chunk).filter (fun chunk => !env.is_empty chunk) := by
  induction fuel generalizing s p r with
  | zero => simp [spill_aggregate_data] at h
  | succ n ih =>
    rcases spill_aggregate_data_step env n s p r h with
      ⟨-, hr⟩ | ⟨hf, st, -, -, hr⟩ | ⟨hf, st, -, -, hr⟩ | ⟨hf, chunk, -, hne, -, hr⟩ |
      ⟨hf, chunk, r1, -, hne, hok, hrec, hr⟩ | ⟨hf, chunk, r1, -, he, hrec, hr⟩
    · subst hr
      simp [spiller_after]
    · subst hr
      refine ⟨by simp [spiller_after], ?_, by simp [pulled_chunk]⟩
      intro k hk
      have hk0 : k = 0 := by simp at hk; omega
      subst hk0
      simpa [spiller_after] using hf
    · subst hr
      refine ⟨by simp [spiller_after], ?_, by simp [pulled_chunk]⟩
      intro k hk
      have hk0 : k = 0 := by simp at hk; omega
      subst hk0
      simpa [spiller_after] using hf
    · subst hr
      refine ⟨by simp [spiller_after, hne], ?_, by simp [pulled_chunk, hne]⟩
      intro k hk
      have hk0 : k = 0 := by simp at hk; omega
      subst hk0
      simpa [spiller_after] using hf
    · obtain ⟨h1, h2, h3⟩ := ih _ _ r1 hrec
      subst hr
      refine ⟨by simp [spiller_after, hne, h1], ?_, by simp [pulled_chunk, hne, h3]⟩
      intro k hk
      cases k with
      | zero => simpa [spiller_after] using hf
      | succ j =>
        simp only [List.length_cons] at hk
        simpa [spiller_after, hne] using h2 j (by omega)
    · obtain ⟨h1, h2, h3⟩ := ih _ _ r1 hrec
      subst hr
      refine ⟨by simp [spiller_after, he, h1], ?_, by simp [pulled_chunk, he, h3]⟩
      intro k hk
      cases k with
      | zero => simpa [spiller_after] using hf
      | succ j =>
        simp only [List.length_cons] at hk
        simpa [spiller_after, he] using h2 j (by omega)

/-- Only the last result of the provider can be an error and only the last `spill` can have
failed. -/
theorem spill_aggregate_data_first_error {χ S P : Type} (env : SpillEnv χ S P) (fuel : Nat)
    (s : S) (p : P) (r : SpillOutcome χ S P)
    (h : spill_aggregate_data env fuel s p = some r) :
    (∀ x ∈ r.pulled.dropLast, ∃ chunk, x = Except.ok chunk) ∧
      (∀ y ∈ r.spilled.dropLast, y.2 = Status.OK) := by
  induction fuel generalizing s p r with
  | zero => simp [spill_aggregate_data] at h
  | succ n ih =>
    rcases spill_aggregate_data_step env n s p r h with
      ⟨-, hr⟩ | ⟨hf, st, -, -, hr⟩ | ⟨hf, st, -, -, hr⟩ | ⟨hf, chunk, -, hne, -, hr⟩ |
      ⟨hf, chunk, r1, -, hne, hok, hrec, hr⟩ | ⟨hf, chunk, r1, -, he, hrec, hr⟩
    · subst hr; simp
    · subst hr; simp
    · subst hr; simp
    · subst hr; simp
    · obtain ⟨h1, h2⟩ := ih _ _ r1 hrec
      subst hr
      constructor
      · intro x hx
        rcases mem_dropLast_cons _ _ _ hx with hx1 | hx1
        · exact ⟨chunk, hx1⟩
        · exact h1 x hx1
      · intro y hy
        rcases mem_dropLast_cons _ _ _ hy with hy1 | hy1
        · rw [hy1]
        · exact h2 y hy1
    · obtain ⟨h1, h2⟩ := ih _ _ r1 hrec
      subst hr
      constructor
      · intro x hx
        rcases mem_dropLast_cons _ _ _ hx with hx1 | hx1
        · exact ⟨chunk, hx1⟩
        · exact h1 x hx1
      · exact h2

/-- The four ways `spill_aggregate_data` returns: the sink is full, the provider signals
end-of-file, the provider returns another error, or `spill` fails. -/
theorem spill_aggregate_data_exit {χ S P : Type} (env : SpillEnv χ S P) (fuel : Nat)
    (s : S) (p : P) (r : SpillOutcome χ S P)
    (h : spill_aggregate_data env fuel s p = some r) :
    (r.spill_tasks = [provider_after env r.pulled.length p] ∧ r.status = Status.OK ∧
        env.is_full r.spiller = true ∧
        (∀ x ∈ r.pulled, ∃ chunk, x = Except.ok chunk) ∧
        (∀ y ∈ r.spilled, y.2 = Status.OK)) ∨
      (r.spill_tasks = [] ∧ ∃ st, r.pulled.getLast? = some (Except.error st) ∧
        st.is_end_of_file = true ∧ r.status = Status.OK ∧
        (∀ y ∈ r.spilled, y.2 = Status.OK)) ∨
      (r.spill_tasks = [] ∧ ∃ st, r.pulled.getLast? = some (Except.error st) ∧
        st.is_end_of_file = false ∧ r.status = st ∧
        (∀ y ∈ r.spilled, y.2 = Status.OK)) ∨
      (r.spill_tasks = [] ∧ ∃ chunk st, r.spilled.getLast? = some (chunk, st) ∧
        r.pulled.getLast? = some (Except.ok chunk) ∧ st ≠ Status.OK ∧ r.status = st) := by
  induction fuel generalizing s p r with
  | zero => simp [spill_aggregate_data] at h
  | succ n ih =>
    rcases spill_aggregate_data_step env n s p r h with
      ⟨hf, hr⟩ | ⟨hf, st, -, heof, hr⟩ | ⟨hf, st, -, heof, hr⟩ | ⟨hf, chunk, -, hne, herr, hr⟩ |
      ⟨hf, chunk, r1, -, hne, hok, hrec, hr⟩ | ⟨hf, chunk, r1, -, he, hrec, hr⟩
    · subst hr
      left
      simp [provider_after, hf]
    · subst hr
      right; left
      exact ⟨rfl, st, rfl, heof, rfl, by simp⟩
    · subst hr
      right; right; left
      exact ⟨rfl, st, rfl, heof, rfl, by simp⟩
    · subst hr
      right; right; right
      exact ⟨rfl, chunk, _, rfl, rfl, herr, rfl⟩
    · have hih := ih _ _ r1 hrec
      subst hr
      rcases hih with ⟨h1, h2, h3, h4, h5⟩ | ⟨h1, st, h2, h3, h4, h5⟩ |
        ⟨h1, st, h2, h3, h4, h5⟩ | ⟨h1, c, st, h2, h3, h4, h5⟩
      · left
        refine ⟨by simp [provider_after, h1], h2, h3, ?_, ?_⟩
        · intro x hx
          rcases List.mem_cons.mp hx with hx1 | hx1
          · exact ⟨chunk, hx1⟩
          · exact h4 x hx1
        · intro y hy
          rcases List.mem_cons.mp hy with hy1 | hy1
          · rw [hy1]
          · exact h5 y hy1
      · right; left
        refine ⟨h1, st, getLast?_cons_of_some _ _ _ h2, h3, h4, ?_⟩
        intro y hy
        rcases List.mem_cons.mp hy with hy1 | hy1
        · rw [hy1]
        · exact h5 y hy1
      · right; right; left
        refine ⟨h1, st, getLast?_cons_of_some _ _ _ h2, h3, h4, ?_⟩
        intro y hy
        rcases List.mem_cons.mp hy with hy1 | hy1
        · rw [hy1]
        · exact h5 y hy1
      · right; right; right
        exact ⟨h1, c, st, getLast?_cons_of_some _ _ _ h2, getLast?_cons_of_some _ _ _ h3,
          h4, h5⟩
    · have hih := ih _ _ r1 hrec
      subst hr
      rcases hih with ⟨h1, h2, h3, h4, h5⟩ | ⟨h1, st, h2, h3, h4, h5⟩ |
        ⟨h1, st, h2, h3, h4, h5⟩ | ⟨h1, c, st, h2, h3, h4, h5⟩
      · left
        refine ⟨by simp [provider_after, h1], h2, h3, ?_, h5⟩
        intro x hx
        rcases List.mem_cons.mp hx with hx1 | hx1
        · exact ⟨chunk, hx1⟩
        · exact h4 x hx1
      · right; left
        exact ⟨h1, st, getLast?_cons_of_some _ _ _ h2, h3, h4, h5⟩
      · right; right; left
        exact ⟨h1, st, getLast?_cons_of_some _ _ _ h2, h3, h4, h5⟩
      · right; right; right
        exact ⟨h1, c, st, h2, getLast?_cons_of_some _ _ _ h3, h4, h5⟩

/-- The loop ends: if the provider returns an error (end-of-file or another) at its
invocation number `n`, counted from 0, then `n + 1` iterations suffice, whatever the
spiller does. -/
theorem spill_aggregate_data_returns {χ S P : Type} (env : SpillEnv χ S P) (n : Nat) (p : P)
    (herr : ∃ st, (env.chunk_provider (provider_after env n p)).1 = Except.error st)
    (fuel : Nat) (hfuel : n + 1 ≤ fuel) (s : S) :
    ∃ r, spill_aggregate_data env fuel s p = some r := by
  induction n generalizing p s fuel with
  | zero =>
    obtain ⟨f, rfl⟩ : ∃ f, fuel = f + 1 := ⟨fuel - 1, by omega⟩
    obtain ⟨st, hst⟩ := herr
    simp only [provider_after] at hst
    unfold spill_aggregate_data
    by_cases hfull : env.is_full s = true
    · simp [hfull]
    · cases hp : env.chunk_provider p with
      | mk res p1 =>
        rw [hp] at hst
        simp only at hst
        subst hst
        by_cases heof : st.is_end_of_file = true <;> simp [hfull, heof]
  | succ k ih =>
    obtain ⟨f, rfl⟩ : ∃ f, fuel = f + 1 := ⟨fuel - 1, by omega⟩
    simp only [provider_after] at herr
    unfold spill_aggregate_data
    by_cases hfull : env.is_full s = true
    · simp [hfull]
    · cases hp : env.chunk_provider p with
      | mk res p1 =>
        rw [hp] at herr
        simp only at herr
        cases res with
        | error st => by_cases heof : st.is_end_of_file = true <;> simp [hfull, heof]
        | ok chunk =>
          by_cases hempty : env.is_empty chunk = true
          · obtain ⟨r1, hr1⟩ := ih p1 herr f (by omega) s
            simp [hfull, hempty, hr1]
          · cases hsp : env.spill s chunk with
            | mk st s1 =>
              obtain ⟨r1, hr1⟩ := ih p1 herr f (by omega) s1
              cases st <;> simp [hfull, hempty, hr1, hsp]

/-- C14.  Return value of `spill_aggregate_data`.  Whenever it returns, it does so in one of
four ways: with OK and one continuation task because the sink is full; with OK and no
continuation task because the last provider result is end-of-file; with the provider's error,
unchanged, and no continuation task, because the last provider result is an error other than
end-of-file; or with the error of `spiller->spill`, unchanged, and no continuation task.  The
error returned is the first one: every earlier provider result was a chunk and every earlier
`spill` returned OK.  And it does return, within `n + 1` iterations, if the provider returns an
error (end-of-file included) at its invocation number `n`. -/
theorem spill_aggregate_data_status {χ S P : Type} (env : SpillEnv χ S P) (s : S) (p : P) :
    (∀ (fuel : Nat) (r : SpillOutcome χ S P), spill_aggregate_data env fuel s p = some r →
        ((r.status = Status.OK ∧ r.spill_tasks.length = 1 ∧ env.is_full r.spiller = true) ∨
          (r.status = Status.OK ∧ r.spill_tasks = [] ∧
            ∃ st, r.pulled.getLast? = some (Except.error st) ∧ st.is_end_of_file = true) ∨
          (r.spill_tasks = [] ∧
            ∃ st, r.pulled.getLast? = some (Except.error st) ∧ st.is_end_of_file = false ∧
              r.status = st) ∨
          (r.spill_tasks = [] ∧
            ∃ chunk st, r.spilled.getLast? = some (chunk, st) ∧ st ≠ Status.OK ∧
              r.status = st)) ∧
        (∀ x ∈ r.pulled.dropLast, ∃ chunk, x = Except.ok chunk) ∧
        (∀ y ∈ r.spilled.dropLast, y.2 = Status.OK) ∧
        (r.status ≠ Status.OK → r.spill_tasks = [])) ∧
      (∀ n : Nat, (∃ st, (env.chunk_provider (provider_after env n p)).1 = Except.error st) →
        ∀ fuel : Nat, n + 1 ≤ fuel → ∃ r, spill_aggregate_data env fuel s p = some r) := by
  constructor
  · intro fuel r h
    obtain ⟨hfirst1, hfirst2⟩ := spill_aggregate_data_first_error env fuel s p r h
    have hexit := spill_aggregate_data_exit env fuel s p r h
    refine ⟨?_, hfirst1, hfirst2, ?_⟩
    · rcases hexit with ⟨h1, h2, h3, -⟩ | ⟨h1, st, h2, h3, h4, -⟩ | ⟨h1, st, h2, h3, h4, -⟩ |
        ⟨h1, c, st, h2, -, h4, h5⟩
      · exact Or.inl ⟨h2, by rw [h1]; rfl, h3⟩
      · exact Or.inr (Or.inl ⟨h4, h1, st, h2, h3⟩)
      · exact Or.inr (Or.inr (Or.inl ⟨h1, st, h2, h3, h4⟩))
      · exact Or.inr (Or.inr (Or.inr ⟨h1, c, st, h2, h4, h5⟩))
    · intro hne
      rcases hexit with ⟨-, h2, -⟩ | ⟨h1, -⟩ | ⟨h1, -⟩ | ⟨h1, -⟩
      · exact absurd h2 hne
      · exact h1
      · exact h1
      · exact h1
  · intro n herr fuel hfuel
    exact spill_aggregate_data_returns env n p herr fuel hfuel s

/-- Witness for C14: the provider returns a chunk and then a runtime error; the error is
returned unchanged and no task is added. -/
theorem spill_aggregate_data_status_witness :
    spill_aggregate_data (sample_spill_env 50) 10 0
        [Except.ok [1, 2], Except.error (Status.RuntimeError "provider failed"), Except.ok [3]]
      = some { status := Status.RuntimeError "provider failed"
               pulled := [Except.ok [1, 2], Except.error (Status.RuntimeError "provider failed")]
               spilled := [([1, 2], Status.OK)]
               spill_tasks := []
               spiller := 2 } ∧
      (Status.RuntimeError "provider failed" ≠ Status.OK →
        ([] : List (List (Except Status (List Nat)))) = []) :=
  ⟨rfl,
    ((spill_aggregate_data_status (sample_spill_env 50) 0
      [Except.ok [1, 2], Except.error (Status.RuntimeError "provider failed"), Except.ok [3]]).1
      10 _ rfl).2.2.2⟩

/-- C15.  When the sink reports full at entry, `spill_aggregate_data` never invokes the
provider, spills nothing, hands the provider to the spill channel with one `add_spill_task`
and returns OK.  In general every invocation of the provider happens while the sink is not
full; at most one task is added; a task is added only together with status OK and a full sink,
and the provider handed over is the one left after the invocations made; and a call that ends
without a provider error and without a failed `spill` ends because the sink is full, with
exactly that one task. -/
theorem spill_aggregate_data_sink_full {χ S P : Type} (env : SpillEnv χ S P) (s : S) (p : P) :
    (env.is_full s = true → ∀ fuel : Nat,
        spill_aggregate_data env (fuel + 1) s p =
          some { status := Status.OK, pulled := [], spilled := [], spill_tasks := [p],
                 spiller := s }) ∧
      (∀ (fuel : Nat) (r : SpillOutcome χ S P), spill_aggregate_data env fuel s p = some r →
        r.spill_tasks.length ≤ 1 ∧
        r.spiller = spiller_after env r.pulled s ∧
        (∀ k : Nat, k < r.pulled.length →
          env.is_full (spiller_after env (r.pulled.take k) s) = false) ∧
        (r.spill_tasks ≠ [] →
          r.spill_tasks = [provider_after env r.pulled.length p] ∧ r.status = Status.OK ∧
          env.is_full r.spiller = true) ∧
        ((∀ x ∈ r.pulled, ∃ chunk, x = Except.ok chunk) → (∀ y ∈ r.spilled, y.2 = Status.OK) →
          r.spill_tasks = [provider_after env r.pulled.length p] ∧ r.status = Status.OK ∧
          env.is_full r.spiller = true)) := by
  constructor
  · intro hfull fuel
    simp [spill_aggregate_data, hfull]
  · intro fuel r h
    obtain ⟨htrace1, htrace2, -⟩ := spill_aggregate_data_trace env fuel s p r h
    have hexit := spill_aggregate_data_exit env fuel s p r h
    refine ⟨?_, htrace1, htrace2, ?_, ?_⟩
    · rcases hexit with ⟨h1, -⟩ | ⟨h1, -⟩ | ⟨h1, -⟩ | ⟨h1, -⟩ <;> simp [h1]
    · intro hne
      rcases hexit with ⟨h1, h2, h3, -⟩ | ⟨h1, -⟩ | ⟨h1, -⟩ | ⟨h1, -⟩
      · exact ⟨h1, h2, h3⟩
      · exact absurd h1 hne
      · exact absurd h1 hne
      · exact absurd h1 hne
    · intro hpulled hspilled
      rcases hexit with ⟨h1, h2, h3, -⟩ | ⟨-, st, h2, -⟩ | ⟨-, st, h2, -⟩ |
        ⟨-, c, st, h2, -, h4, -⟩
      · exact ⟨h1, h2, h3⟩
      · obtain ⟨c, hc⟩ := hpulled _ (List.mem_of_getLast?_eq_some h2)
        cases hc
      · obtain ⟨c, hc⟩ := hpulled _ (List.mem_of_getLast?_eq_some h2)
        cases hc
      · exact absurd (hspilled _ (List.mem_of_getLast?_eq_some h2)) h4

/-- Witness for C15: a sink of capacity 5 is full after the chunks of 2 and 3 rows; the fourth
result of the provider is never pulled and the remaining provider is handed over. -/
theorem spill_aggregate_data_sink_full_witness :
    spill_aggregate_data (sample_spill_env 5) 10 0
        [Except.ok [1, 2], Except.ok [], Except.ok [3, 4, 5], Except.ok [6]]
      = some { status := Status.OK
               pulled := [Except.ok [1, 2], Except.ok [], Except.ok [3, 4, 5]]
               spilled := [([1, 2], Status.OK), ([3, 4, 5], Status.OK)]
               spill_tasks := [[Except.ok [6]]]
               spiller := 5 } ∧
      ([[Except.ok [6]]] : List (List (Except Status (List Nat)))).length ≤ 1 :=
  ⟨rfl,
    ((spill_aggregate_data_sink_full (sample_spill_env 5) 0
      [Except.ok [1, 2], Except.ok [], Except.ok [3, 4, 5], Except.ok [6]]).2 10 _ rfl).1⟩

/-- C16.  Empty chunks are skipped: the chunks passed to `spiller->spill` are exactly the
non-empty chunks among the results pulled from the provider, in the order pulled, each passed
once. -/
theorem spill_aggregate_data_skips_empty {χ S P : Type} (env : SpillEnv χ S P) (fuel : Nat)
    (s : S) (p : P) (r : SpillOutcome χ S P)
    (h : spill_aggregate_data env fuel s p = some r) :
    r.spilled.map Prod.fst =
        (r.pulled.filterMap pulled_chunk).filter (fun chunk => !env.is_empty chunk) ∧
      (∀ chunk ∈ r.spilled.map Prod.fst, env.is_empty chunk = false) := by
  obtain ⟨-, -, h3⟩ := spill_aggregate_data_trace env fuel s p r h
  refine ⟨h3, ?_⟩
  intro chunk hchunk
  rw [h3] at hchunk
  simpa using (List.mem_filter.mp hchunk).2

/-- Witness for C16: of the chunks `[1, 2]`, `[]`, `[3, 4, 5]`, `[6]` the three non-empty ones
are spilled, in order. -/
theorem spill_aggregate_data_skips_empty_witness :
    spill_aggregate_data (sample_spill_env 50) 10 0
        [Except.ok [1, 2], Except.ok [], Except.ok [3, 4, 5], Except.ok [6]]
      = some { status := Status.OK
               pulled := [Except.ok [1, 2], Except.ok [], Except.ok [3, 4, 5], Except.ok [6],
                          Except.error (Status.EndOfFile "eos")]
               spilled := [([1, 2], Status.OK), ([3, 4, 5], Status.OK), ([6], Status.OK)]
               spill_tasks := []
               spiller := 6 } ∧
      ([([1, 2], Status.OK), ([3, 4, 5], Status.OK), ([6], Status.OK)] :
          List (List Nat × Status)).map Prod.fst =
        (([Except.ok [1, 2], Except.ok [], Except.ok [3, 4, 5], Except.ok [6],
            Except.error (Status.EndOfFile "eos")] :
            List (Except Status (List Nat))).filterMap pulled_chunk).filter
          (fun chunk => !(sample_spill_env 50).is_empty chunk) :=
  ⟨rfl,
    (spill_aggregate_data_skips_empty (sample_spill_env 50) 10 0
      [Except.ok [1, 2], Except.ok [], Except.ok [3, 4, 5], Except.ok [6]] _ rfl).1⟩

/-! ## Creating and destroying aggregate states -/

/-- The `create` loop when the first `create` to throw is the one of function `i + k`: the
functions `i, ..., i + k - 1` are created and `created = i + k` at the throw. -/
theorem create_single_states_throw (create_throws : Nat → Bool) (remaining i k : Nat)
    (hk : k < remaining) (hthrow : create_throws (i + k) = true)
    (hbefore : ∀ j, j < k → create_throws (i + j) = false) :
    create_single_states create_throws remaining i =
      ((List.range k).map (fun j => AggStateCall.create (i + j) AggStateRef.single),
       some (i + k)) := by
  induction remaining generalizing i k with
  | zero => omega
  | succ n ih =>
    unfold create_single_states
    cases k with
    | zero =>
      have h0 : create_throws i = true := by simpa using hthrow
      simp [h0]
    | succ m =>
      have h0 : create_throws i = false := by simpa using hbefore 0 (by omega)
      have hrec := ih (i + 1) m (by omega)
        (by rw [← hthrow]; congr 1; omega)
        (fun j hj => by rw [← hbefore (j + 1) (by omega)]; congr 1; omega)
      simp only [h0, Bool.false_eq_true, if_false, hrec]
      rw [List.range_succ_eq_map]
      simp only [List.map_cons, List.map_map, Nat.add_zero]
      refine Prod.ext ?_ (by simp; omega)
      simp only
      congr 1
      apply List.map_congr_left
      intro j _
      simp only [Function.comp, Nat.succ_eq_add_one]
      congr 1
      omega

theorem destroy_state_mem (n : Nat) (state : AggStateRef) (call : AggStateCall) :
    call ∈ destroy_state n state ↔ ∃ i, i < n ∧ call = AggStateCall.destroy i state := by
  simp only [destroy_state, List.mem_map, List.mem_range]
  constructor
  · rintro ⟨i, hi, rfl⟩
    exact ⟨i, hi, rfl⟩
  · rintro ⟨i, hi, rfl⟩
    exact ⟨i, hi, rfl⟩

theorem destroy_state_nodup (n : Nat) (state : AggStateRef) :
    (destroy_state n state).Nodup := by
  unfold destroy_state
  apply List.Nodup.map _ (List.nodup_range n)
  intro a b hab
  injection hab

/-- C17.  Allocation-failure rollback in `Aggregator::open`, no-group-by case: if the `create`
of function `k` is the first to raise `bad_alloc`, the calls made are the `create` of the
functions `0, ..., k - 1` followed by one `destroy` of each of them and of no other state;
`_single_agg_state` is null afterwards and `open` returns the memory-limit error.  A later
`close` of an aggregator whose `_single_agg_state` is null destroys no slot of the single
state. -/
theorem create_failure_rolls_back (num_functions k : Nat) (create_throws : Nat → Bool)
    (hk : k < num_functions) (hthrow : create_throws k = true)
    (hbefore : ∀ j, j < k → create_throws j = false) :
    (open_create_states 0 num_functions false create_throws).status =
        Status.MemoryLimitExceeded "aggregate::create allocate failed" ∧
      (open_create_states 0 num_functions false create_throws).single_agg_state_is_null
        = true ∧
      (open_create_states 0 num_functions false create_throws).calls =
        (List.range k).map (fun i => AggStateCall.create i AggStateRef.single) ++
          (List.range k).map (fun i => AggStateCall.destroy i AggStateRef.single) ∧
      (open_create_states 0 num_functions false create_throws).calls.Nodup ∧
      (∀ (i : Nat) (state : AggStateRef),
        AggStateCall.destroy i state ∈
            (open_create_states 0 num_functions false create_throws).calls ↔
          i < k ∧ state = AggStateRef.single) ∧
      (∀ i : Nat, i < k →
        (open_create_states 0 num_functions false create_throws).calls.count
          (AggStateCall.destroy i AggStateRef.single) = 1) ∧
      (∀ m : AggregatorMemory,
        m.single_agg_state_is_null =
          (open_create_states 0 num_functions false create_throws).single_agg_state_is_null →
        ∀ (i : Nat), AggStateCall.destroy i AggStateRef.single ∉ (close m).1) := by
  have hloop := create_single_states_throw create_throws num_functions 0 k hk
    (by simpa using hthrow) (fun j hj => by simpa using hbefore j hj)
  simp only [Nat.zero_add] at hloop
  have hres : open_create_states 0 num_functions false create_throws =
      { status := Status.MemoryLimitExceeded "aggregate::create allocate failed"
        single_agg_state_is_null := true
        calls := (List.range k).map (fun i => AggStateCall.create i AggStateRef.single) ++
          (List.range k).map (fun i => AggStateCall.destroy i AggStateRef.single) } := by
    simp [open_create_states, call_agg_create, hloop, Status.ok]
  have hnodup : ((List.range k).map (fun i => AggStateCall.create i AggStateRef.single) ++
      (List.range k).map (fun i => AggStateCall.destroy i AggStateRef.single)).Nodup := by
    rw [List.nodup_append]
    refine ⟨?_, ?_, ?_⟩
    · apply List.Nodup.map _ (List.nodup_range k)
      intro a b hab
      injection hab
    · apply List.Nodup.map _ (List.nodup_range k)
      intro a b hab
      injection hab
    · intro call h1 h2
      simp only [List.mem_map] at h1 h2
      obtain ⟨a, -, ha⟩ := h1
      obtain ⟨b, -, hb⟩ := h2
      rw [← ha] at hb
      cases hb
  have hmem : ∀ (i : Nat) (state : AggStateRef),
      AggStateCall.destroy i state ∈
          ((List.range k).map (fun i => AggStateCall.create i AggStateRef.single) ++
            (List.range k).map (fun i => AggStateCall.destroy i AggStateRef.single)) ↔
        i < k ∧ state = AggStateRef.single := by
    intro i state
    simp only [List.mem_append, List.mem_map, List.mem_range]
    constructor
    · rintro (⟨a, -, ha⟩ | ⟨a, ha1, ha2⟩)
      · cases ha
      · injection ha2 with h1 h2
        exact ⟨by omega, h2.symm⟩
    · rintro ⟨hi, rfl⟩
      exact Or.inr ⟨i, hi, rfl⟩
  rw [hres]
  refine ⟨rfl, rfl, rfl, hnodup, hmem, ?_, ?_⟩
  · intro i hi
    exact List.count_eq_one_of_mem hnodup ((hmem i AggStateRef.single).mpr ⟨hi, rfl⟩)
  · intro m hm i hcall
    simp only at hm
    unfold close at hcall
    by_cases hc : m._is_closed = true
    · simp [hc] at hcall
    · have hc0 : m._is_closed = false := by simpa using hc
      simp only [hc0, Bool.false_eq_true, if_false, hm, Bool.not_true] at hcall
      by_cases hp : m.mem_pool_is_null = true
      · simp [hp] at hcall
      · have hp0 : m.mem_pool_is_null = false := by simpa using hp
        simp only [hp0, Bool.not_false, if_true] at hcall
        by_cases ho : m._is_only_group_by_columns = true
        · simp [ho] at hcall
        · have ho0 : m._is_only_group_by_columns = false := by simpa using ho
          simp only [ho0, Bool.not_false, if_true, _release_agg_memory] at hcall
          split at hcall
          · rcases List.mem_append.mp hcall with h1 | h1
            · split at h1
              · obtain ⟨j, -, hj⟩ := (destroy_state_mem _ _ _).mp h1
                cases hj
              · cases h1
            · obtain ⟨l, hl, hin⟩ := List.mem_flatten.mp h1
              obtain ⟨index, -, hindex⟩ := List.mem_map.mp hl
              rw [← hindex] at hin
              obtain ⟨j, -, hj⟩ := (destroy_state_mem _ _ _).mp hin
              cases hj
          · cases hcall

/-- Witness for C17: four functions, the `create` of function 2 raises `bad_alloc`. -/
theorem create_failure_rolls_back_witness :
    2 < 4 ∧ (fun i => i == 2) 2 = true ∧ (∀ j, j < 2 → (fun i => i == 2) j = false) ∧
      (open_create_states 0 4 false (fun i => i == 2)).calls =
        (List.range 2).map (fun i => AggStateCall.create i AggStateRef.single) ++
          (List.range 2).map (fun i => AggStateCall.destroy i AggStateRef.single) :=
  ⟨by decide, rfl, by decide,
    (create_failure_rolls_back 4 2 (fun i => i == 2) (by decide) rfl (by decide)).2.2.1⟩

/-- C18.  `check_has_error` returns OK if and only if no aggregate function context has its
error flag set; otherwise it returns a `RuntimeError` carrying the error message of the first
context, in function order, whose flag is set. -/
theorem check_has_error_first_flagged (ctxs : List FunctionContext) :
    (check_has_error ctxs = Status.OK ↔ ∀ ctx ∈ ctxs, ctx.has_error = false) ∧
      (∀ (before : List FunctionContext) (ctx : FunctionContext)
          (after : List FunctionContext),
        ctxs = before ++ ctx :: after → (∀ c ∈ before, c.has_error = false) →
        ctx.has_error = true → check_has_error ctxs = Status.RuntimeError ctx.error_msg) ∧
      check_has_error ctxs =
        (match ctxs.find? (fun ctx => ctx.has_error) with
         | none => Status.OK
         | some ctx => Status.RuntimeError ctx.error_msg) := by
  induction ctxs with
  | nil =>
    refine ⟨by simp [check_has_error], ?_, by simp [check_has_error]⟩
    intro before ctx after h
    cases before <;> cases h
  | cons c rest ih =>
    obtain ⟨ih1, ih2, ih3⟩ := ih
    by_cases hc : c.has_error = true
    · refine ⟨?_, ?_, ?_⟩
      · simp [check_has_error, hc]
      · intro before ctx after h hbefore hctx
        cases before with
        | nil =>
          simp only [List.nil_append, List.cons.injEq] at h
          rw [← h.1]
          simp [check_has_error, hc]
        | cons b bs =>
          simp only [List.cons_append, List.cons.injEq] at h
          have := hbefore b (List.mem_cons_self _ _)
          rw [← h.1, hc] at this
          cases this
      · simp [check_has_error, hc, List.find?_cons]
    · have hc0 : c.has_error = false := by simpa using hc
      refine ⟨?_, ?_, ?_⟩
      · simp [check_has_error, hc0, ih1]
      · intro before ctx after h hbefore hctx
        cases before with
        | nil =>
          simp only [List.nil_append, List.cons.injEq] at h
          rw [h.1, hctx] at hc0
          cases hc0
        | cons b bs =>
          simp only [List.cons_append, List.cons.injEq] at h
          simp only [check_has_error, hc0, Bool.false_eq_true, if_false]
          exact ih2 bs ctx after h.2 (fun x hx => hbefore x (List.mem_cons_of_mem _ hx)) hctx
      · simp only [check_has_error, hc0, Bool.false_eq_true, if_false, List.find?_cons]
        exact ih3

/-- Witness for C18: the second and third of three contexts are in error; the message of the
second is returned. -/
theorem check_has_error_first_flagged_witness :
    ([⟨false, "a"⟩, ⟨true, "overflow"⟩, ⟨true, "c"⟩] : List FunctionContext) =
        [⟨false, "a"⟩] ++ ⟨true, "overflow"⟩ :: [⟨true, "c"⟩] ∧
      (∀ c ∈ ([⟨false, "a"⟩] : List FunctionContext), c.has_error = false) ∧
      check_has_error [⟨false, "a"⟩, ⟨true, "overflow"⟩, ⟨true, "c"⟩] =
        Status.RuntimeError "overflow" :=
  ⟨rfl, by decide,
    (check_has_error_first_flagged [⟨false, "a"⟩, ⟨true, "overflow"⟩, ⟨true, "c"⟩]).2.1
      [⟨false, "a"⟩] ⟨true, "overflow"⟩ [⟨true, "c"⟩] rfl (by decide) rfl⟩

/-- The calls of `_release_agg_memory` by its guard
`hash_map_with_key != nullptr && !skip_destroy`: none when every aggregate function reports
`is_pod_state` and none when the pointer of the hash-map variant is null; otherwise one
`destroy` for every pair of a function and a state, over every state yielded by the state
allocator and the null-key state when it is present, and no other call. -/
theorem release_agg_memory_calls (m : AggregatorMemory) :
    (m.is_pod_state.all (fun is_pod => is_pod) = true → _release_agg_memory m = []) ∧
      (m.hash_map_is_null = true → _release_agg_memory m = []) ∧
      (m.is_pod_state.all (fun is_pod => is_pod) = false → m.hash_map_is_null = false →
        (_release_agg_memory m).Nodup ∧
        ∀ call : AggStateCall, call ∈ _release_agg_memory m ↔
          ∃ i, i < m.is_pod_state.length ∧
            ((m.null_key_data_is_null = false ∧
                call = AggStateCall.destroy i AggStateRef.null_key) ∨
              ∃ index, index < m.num_group_states ∧
                call = AggStateCall.destroy i (AggStateRef.group index))) := by
  refine ⟨?_, ?_, ?_⟩
  · intro h
    simp [_release_agg_memory, h]
  · intro h
    simp [_release_agg_memory, h]
  · intro hpod hmap
    have hgroups_mem : ∀ call : AggStateCall,
        call ∈ ((List.range m.num_group_states).map
          (fun index => destroy_state m.is_pod_state.length (AggStateRef.group index))).flatten ↔
        ∃ i, i < m.is_pod_state.length ∧ ∃ index, index < m.num_group_states ∧
          call = AggStateCall.destroy i (AggStateRef.group index) := by
      intro call
      simp only [List.mem_flatten, List.mem_map, List.mem_range]
      constructor
      · rintro ⟨l, ⟨index, hindex, rfl⟩, hin⟩
        obtain ⟨i, hi, hcall⟩ := (destroy_state_mem _ _ _).mp hin
        exact ⟨i, hi, index, hindex, hcall⟩
      · rintro ⟨i, hi, index, hindex, hcall⟩
        exact ⟨_, ⟨index, hindex, rfl⟩, (destroy_state_mem _ _ _).mpr ⟨i, hi, hcall⟩⟩
    have hgroups_nodup : ((List.range m.num_group_states).map
        (fun index => destroy_state m.is_pod_state.length (AggStateRef.group index))).flatten.Nodup := by
      rw [List.nodup_flatten]
      constructor
      · intro l hl
        obtain ⟨index, -, rfl⟩ := List.mem_map.mp hl
        exact destroy_state_nodup _ _
      · rw [List.pairwise_map]
        apply List.Pairwise.imp _ (List.pairwise_lt_range m.num_group_states)
        intro a b hab call h1 h2
        obtain ⟨i, -, hi⟩ := (destroy_state_mem _ _ _).mp h1
        obtain ⟨j, -, hj⟩ := (destroy_state_mem _ _ _).mp h2
        rw [hi] at hj
        injection hj with _ hstate
        injection hstate with hidx
        omega
    unfold _release_agg_memory
    simp only [hpod, hmap, Bool.not_false, Bool.and_self, if_true]
    by_cases hnull : m.null_key_data_is_null = true
    · simp only [hnull, Bool.not_true, Bool.false_eq_true, if_false, List.nil_append]
      refine ⟨hgroups_nodup, ?_⟩
      intro call
      rw [hgroups_mem]
      constructor
      · rintro ⟨i, hi, h⟩
        exact ⟨i, hi, Or.inr h⟩
      · rintro ⟨i, hi, h | h⟩
        · exact absurd h.1 (by simp)
        · exact ⟨i, hi, h⟩
    · have hnull0 : m.null_key_data_is_null = false := by simpa using hnull
      simp only [hnull0, Bool.not_false, if_true]
      constructor
      · rw [List.nodup_append]
        refine ⟨destroy_state_nodup _ _, hgroups_nodup, ?_⟩
        intro call h1 h2
        obtain ⟨i, -, hi⟩ := (destroy_state_mem _ _ _).mp h1
        obtain ⟨j, -, index, -, hj⟩ := (hgroups_mem call).mp h2
        rw [hi] at hj
        injection hj with _ hstate
        cases hstate
      · intro call
        rw [List.mem_append, hgroups_mem, destroy_state_mem]
        constructor
        · rintro (⟨i, hi, h⟩ | ⟨i, hi, h⟩)
          · exact ⟨i, hi, Or.inl ⟨trivial, h⟩⟩
          · exact ⟨i, hi, Or.inr h⟩
        · rintro ⟨i, hi, ⟨-, h⟩ | h⟩
          · exact Or.inl ⟨i, hi, h⟩
          · exact Or.inr ⟨i, hi, h⟩

/-- `close` runs `_release_agg_memory` at most once: it sets `_is_closed`, and a second `close`
returns at the test of `_is_closed` without any `destroy`. -/
theorem close_twice_destroys_nothing (m : AggregatorMemory) :
    (close m).2._is_closed = true ∧ (close (close m).2).1 = [] := by
  have h1 : (close m).2._is_closed = true := by
    unfold close
    by_cases hc : m._is_closed = true
    · simp only [hc, if_true]
    · rw [if_neg hc]
  refine ⟨h1, ?_⟩
  generalize close m = r at h1
  unfold close
  simp only [h1, if_true]

/-- C19.  On an aggregator whose states belong to its hash map (while the pointer held by the
hash-map variant is null there is no null-key state and the state allocator yields no state:
states are allocated through the hash map, the null-key state is a member of it, and `close`
resets the variant only after `_release_agg_memory` has run and does not run it again, and
`reset_state` runs it before it creates the next, empty hash map and resets the allocator),
`_release_agg_memory` invokes `destroy` on no state when every aggregate function reports
`is_pod_state` (the empty function list included); otherwise it invokes `destroy` exactly once
for every pair of a function and a state, over every state yielded by the state allocator and
the null-key state when it is present, and makes no other call. -/
theorem release_agg_memory_destroys_every_state_once (m : AggregatorMemory)
    (hown : m.hash_map_is_null = true →
      m.null_key_data_is_null = true ∧ m.num_group_states = 0) :
    (m.is_pod_state.all (fun is_pod => is_pod) = true → _release_agg_memory m = []) ∧
      (m.is_pod_state.all (fun is_pod => is_pod) = false →
        (_release_agg_memory m).Nodup ∧
        (∀ call : AggStateCall, call ∈ _release_agg_memory m ↔
          ∃ i, i < m.is_pod_state.length ∧
            ((m.null_key_data_is_null = false ∧
                call = AggStateCall.destroy i AggStateRef.null_key) ∨
              ∃ index, index < m.num_group_states ∧
                call = AggStateCall.destroy i (AggStateRef.group index))) ∧
        (∀ i : Nat, i < m.is_pod_state.length →
          (m.null_key_data_is_null = false →
            (_release_agg_memory m).count (AggStateCall.destroy i AggStateRef.null_key) = 1) ∧
          ∀ index : Nat, index < m.num_group_states →
            (_release_agg_memory m).count
              (AggStateCall.destroy i (AggStateRef.group index)) = 1)) := by
  obtain ⟨hpod_skip, hnull_skip, hcalls⟩ := release_agg_memory_calls m
  refine ⟨hpod_skip, ?_⟩
  intro hpod
  have hmain : (_release_agg_memory m).Nodup ∧
      ∀ call : AggStateCall, call ∈ _release_agg_memory m ↔
        ∃ i, i < m.is_pod_state.length ∧
          ((m.null_key_data_is_null = false ∧
              call = AggStateCall.destroy i AggStateRef.null_key) ∨
            ∃ index, index < m.num_group_states ∧
              call = AggStateCall.destroy i (AggStateRef.group index)) := by
    by_cases hmap : m.hash_map_is_null = true
    · obtain ⟨hnk, hns⟩ := hown hmap
      rw [hnull_skip hmap]
      refine ⟨List.nodup_nil, ?_⟩
      intro call
      constructor
      · intro h
        cases h
      · rintro ⟨i, -, ⟨h, -⟩ | ⟨index, hindex, -⟩⟩
        · rw [hnk] at h
          cases h
        · omega
    · exact hcalls hpod (by simpa using hmap)
  obtain ⟨hnodup, hmem⟩ := hmain
  refine ⟨hnodup, hmem, ?_⟩
  intro i hi
  constructor
  · intro hnk
    exact List.count_eq_one_of_mem hnodup ((hmem _).mpr ⟨i, hi, Or.inl ⟨hnk, rfl⟩⟩)
  · intro index hindex
    exact List.count_eq_one_of_mem hnodup ((hmem _).mpr ⟨i, hi, Or.inr ⟨index, hindex, rfl⟩⟩)

/-- Witness for C19: two functions, the first not plain data, a null-key state and two
allocated states: six `destroy` calls, all different. -/
theorem release_agg_memory_destroys_every_state_once_witness :
    (false = true → false = true ∧ 2 = 0) ∧
      ([false, true] : List Bool).all (fun is_pod => is_pod) = false ∧
      (_release_agg_memory
        { _is_closed := false, mem_pool_is_null := false, single_agg_state_is_null := true,
          _is_only_group_by_columns := false, is_pod_state := [false, true],
          hash_map_is_null := false, null_key_data_is_null := false,
          num_group_states := 2 }).Nodup :=
  ⟨by decide, rfl,
    ((release_agg_memory_destroys_every_state_once
      { _is_closed := false, mem_pool_is_null := false, single_agg_state_is_null := true,
        _is_only_group_by_columns := false, is_pod_state := [false, true],
        hash_map_is_null := false, null_key_data_is_null := false,
        num_group_states := 2 } (by decide)).2 rfl).1⟩

/-! ## Selecting the hash-table variant -/

theorem group_columns_fixed_size_loop_fixed (columns : List GroupByColumn) (size : Nat)
    (has_null : Bool)
    (hfixed : ∀ c ∈ columns, c.is_complex_type = false ∧ 0 < c.byte_size) :
    group_columns_fixed_size_loop columns size has_null =
      (true, size + serialized_width columns,
        has_null || columns.any (fun c => c.is_nullable)) := by
  induction columns generalizing size has_null with
  | nil => simp [group_columns_fixed_size_loop, serialized_width]
  | cons c rest ih =>
    obtain ⟨hc1, hc2⟩ := hfixed c (List.mem_cons_self _ _)
    have hrest : ∀ x ∈ rest, x.is_complex_type = false ∧ 0 < x.byte_size :=
      fun x hx => hfixed x (List.mem_cons_of_mem _ hx)
    have hc3 : ¬ c.byte_size = 0 := by omega
    unfold group_columns_fixed_size_loop
    simp only [hc1, Bool.false_eq_true, if_false, hc3, ih _ _ hrest]
    cases hn : c.is_nullable
    · simp only [Bool.false_eq_true, if_false, serialized_width, List.map_cons, List.sum_cons,
        List.any_cons, hn, Bool.false_or, Nat.add_zero]
      refine Prod.ext ?_ (Prod.ext ?_ ?_) <;> simp only [serialized_width]
      omega
    · simp only [if_true, serialized_width, List.map_cons, List.sum_cons, List.any_cons, hn,
        Bool.true_or, Bool.or_true]
      refine Prod.ext ?_ (Prod.ext ?_ ?_) <;> simp only [serialized_width]
      omega

/-- Counterexample for C20: a nullable 2-byte column and a non-nullable 1-byte column have
width `2 + 1 + 1 = 4`, yet the 8-byte variant is chosen, not the 4-byte one; and a nullable
8-byte column with a non-nullable 7-byte column has width 16, yet the generic slice type is
kept. -/
theorem fixed_width_variant_not_by_width_alone :
    serialized_width [⟨true, false, 2⟩, ⟨false, false, 1⟩] = 4 ∧
      _init_agg_hash_variant AggrPhase.AggrPhase1 (HashVariantType.unary 0)
          [⟨true, false, 2⟩, ⟨false, false, 1⟩] =
        (HashVariantType.phase1_slice_fx8, true, 0) ∧
      serialized_width [⟨true, false, 8⟩, ⟨false, false, 7⟩] = 16 ∧
      _init_agg_hash_variant AggrPhase.AggrPhase2 (HashVariantType.unary 0)
          [⟨true, false, 8⟩, ⟨false, false, 7⟩] =
        (HashVariantType.phase2_slice, true, 0) := by
  decide

/-- C20 (amended).  When the hash type is still a generic slice type and every group-by column
is of a fixed-length, non-complex type, let `w` be the sum of the columns' byte sizes plus one
byte per nullable column, and let `w'` be `w` plus one more byte if any column is nullable
(the byte reserved for the serialization length).  The variant chosen is the one `w'` fits in:
fx4 if `w' ≤ 4`, fx8 if `4 < w' ≤ 8`, fx16 if `8 < w' ≤ 16`, and the slice type is kept
otherwise.  Without a nullable column `w' = w`; `has_null_column` says whether a column is
nullable and `fixed_byte_size` is `w` without a nullable column and 0 with one. -/
theorem fixed_width_variant_selection (_aggr_phase : AggrPhase) (unary_type : HashVariantType)
    (columns : List GroupByColumn)
    (hslice :
      (if columns.length = 1 then unary_type
        else if _aggr_phase = AggrPhase.AggrPhase1 then HashVariantType.phase1_slice
        else HashVariantType.phase2_slice) = HashVariantType.phase1_slice ∨
      (if columns.length = 1 then unary_type
        else if _aggr_phase = AggrPhase.AggrPhase1 then HashVariantType.phase1_slice
        else HashVariantType.phase2_slice) = HashVariantType.phase2_slice)
    (hfixed : ∀ c ∈ columns, c.is_complex_type = false ∧ 0 < c.byte_size) :
    (_init_agg_hash_variant _aggr_phase unary_type columns).1 =
        (if serialized_width columns +
              (if columns.any (fun c => c.is_nullable) then 1 else 0) ≤ 4 then
            slice_fx _aggr_phase 4
          else if serialized_width columns +
              (if columns.any (fun c => c.is_nullable) then 1 else 0) ≤ 8 then
            slice_fx _aggr_phase 8
          else if serialized_width columns +
              (if columns.any (fun c => c.is_nullable) then 1 else 0) ≤ 16 then
            slice_fx _aggr_phase 16
          else
            (if columns.length = 1 then unary_type
              else if _aggr_phase = AggrPhase.AggrPhase1 then HashVariantType.phase1_slice
              else HashVariantType.phase2_slice)) ∧
      (_init_agg_hash_variant _aggr_phase unary_type columns).2.1 =
        columns.any (fun c => c.is_nullable) ∧
      (_init_agg_hash_variant _aggr_phase unary_type columns).2.2 =
        (if columns.any (fun c => c.is_nullable) then 0 else serialized_width columns) := by
  have hloop := group_columns_fixed_size_loop_fixed columns 0 false hfixed
  simp only [Nat.zero_add, Bool.false_or] at hloop
  unfold _init_agg_hash_variant is_group_columns_fixed_size
  simp only [hloop, if_true]
  have hs : ((if columns.length = 1 then unary_type
        else if _aggr_phase = AggrPhase.AggrPhase1 then HashVariantType.phase1_slice
        else HashVariantType.phase2_slice) = HashVariantType.phase1_slice ∨
      (if columns.length = 1 then unary_type
        else if _aggr_phase = AggrPhase.AggrPhase1 then HashVariantType.phase1_slice
        else HashVariantType.phase2_slice) = HashVariantType.phase2_slice) := hslice
  rw [if_pos hs]
  clear hloop hslice
  generalize serialized_width columns = w at hs ⊢
  have e4 : (w < 4 ∨ w = 4) ↔ w ≤ 4 := by omega
  have e8 : (w < 8 ∨ w = 8) ↔ w ≤ 8 := by omega
  have e16 : (w < 16 ∨ w = 16) ↔ w ≤ 16 := by omega
  have f4 : w + 1 ≤ 4 ↔ w < 4 := by omega
  have f8 : w + 1 ≤ 8 ↔ w < 8 := by omega
  have f16 : w + 1 ≤ 16 ↔ w < 16 := by omega
  have hne : ¬ (AggrPhase.AggrPhase2 = AggrPhase.AggrPhase1) := by intro h; cases h
  cases hany : columns.any (fun c => c.is_nullable) <;> cases _aggr_phase <;>
    simp only [Bool.not_false, Bool.not_true, Bool.false_eq_true, if_true, if_false,
      true_and, false_and, or_false, slice_fx, Nat.add_zero, e4, e8, e16, f4, f8, f16,
      and_self, hne]

/-- Witness for C20 (amended): two non-nullable 2-byte columns, width 4, get the 4-byte
variant. -/
theorem fixed_width_variant_selection_witness :
    (_init_agg_hash_variant AggrPhase.AggrPhase1 (HashVariantType.unary 0)
        [⟨false, false, 2⟩, ⟨false, false, 2⟩]).2.1 =
      ([⟨false, false, 2⟩, ⟨false, false, 2⟩] : List GroupByColumn).any
        (fun c => c.is_nullable) :=
  (fixed_width_variant_selection AggrPhase.AggrPhase1 (HashVariantType.unary 0)
    [⟨false, false, 2⟩, ⟨false, false, 2⟩] (by decide) (by decide)).2.1

/-! ## Nullability of the resolved function types -/

/-- C21.  Same-as-input nullability: for an aggregate function that is neither `count` nor
`count_if`, is not in the always-nullable set, is not an `_if` combinator (`agg_state_desc` set
and the name ending in `_if`) and whose plan node has `is_nullable = true`, the type resolved by
`AggregatorParams::init` at the function's position has `is_result_nullable<false>()` true if
and only if the plan reports a nullable child for it or `has_outer_join_child` is set. -/
theorem same_as_input_nullability {θ τ : Type} (from_thrift : θ → τ) (TYPE_BIGINT : τ)
    (initializer : Bool) (params : AggregatorParams θ) (i : Nat) (desc : TAggregateFunction θ)
    (hdesc : params.aggregate_functions.get? i = some desc)
    (hcount : desc.function_name ≠ "count" ∧ desc.function_name ≠ "count_if")
    (halways : desc.function_name ∉ ALWAYS_NULLABLE_RESULT_AGG_FUNCS)
    (hif : ¬ (desc.isset_agg_state_desc = true ∧ ends_with desc.function_name "_if" = true))
    (hnullable : desc.is_nullable = true) :
    ∃ t : AggFunctionTypes τ,
      (AggregatorParams.init from_thrift TYPE_BIGINT initializer params).get? i = some t ∧
      t.result_type = from_thrift desc.ret_type ∧
      (AggFunctionTypes.is_result_nullable false t = true ↔
        (desc.has_nullable_child = true ∨ params.has_outer_join_child = true)) := by
  refine ⟨init_agg_fn_type from_thrift TYPE_BIGINT initializer params.has_outer_join_child desc,
    ?_, ?_, ?_⟩
  · rw [List.get?_eq_getElem?] at hdesc
    simp only [AggregatorParams.init, List.get?_eq_getElem?, List.getElem?_map, hdesc,
      Option.map_some']
  · have h1 : ¬ (desc.function_name = FUNCTION_COUNT ∨
        desc.function_name = FUNCTION_COUNT ++ AGG_STATE_IF_SUFFIX) := by
      rintro (h | h)
      · exact hcount.1 h
      · exact hcount.2 h
    simp only [init_agg_fn_type, h1, if_false]
  · have h1 : ¬ (desc.function_name = FUNCTION_COUNT ∨
        desc.function_name = FUNCTION_COUNT ++ AGG_STATE_IF_SUFFIX) := by
      rintro (h | h)
      · exact hcount.1 h
      · exact hcount.2 h
    have h2 : ALWAYS_NULLABLE_RESULT_AGG_FUNCS.contains desc.function_name = false := by
      cases hc : ALWAYS_NULLABLE_RESULT_AGG_FUNCS.contains desc.function_name
      · rfl
      · exact absurd (by simpa using hc) halways
    have h3 : (desc.isset_agg_state_desc &&
        ends_with desc.function_name AGG_STATE_IF_SUFFIX) = false := by
      cases ha : desc.isset_agg_state_desc
      · rfl
      · cases he : ends_with desc.function_name AGG_STATE_IF_SUFFIX
        · rfl
        · exact absurd ⟨ha, he⟩ hif
    simp only [init_agg_fn_type, h1, if_false, AggFunctionTypes.is_result_nullable, h2, h3,
      hnullable, Bool.false_eq_true, Bool.and_true, Bool.or_false, Bool.or_eq_true]
    exact Or.comm

/-- Witness for C21: `max` over a non-nullable child is nullable exactly under an outer join. -/
theorem same_as_input_nullability_witness :
    ∃ t : AggFunctionTypes Nat,
      (AggregatorParams.init (fun n => n + 100) 0 false (sample_params true)).get? 4 = some t ∧
      t.result_type = 105 ∧
      (AggFunctionTypes.is_result_nullable false t = true ↔
        (false = true ∨ (sample_params true).has_outer_join_child = true)) :=
  same_as_input_nullability (fun n => n + 100) 0 false (sample_params true) 4
    ⟨"max", false, true, false, 5, 5⟩ rfl (by decide) (by decide) (by decide) rfl

/-- C22.  `count` is always non-null: for an aggregate function named `count` or `count_if`,
whatever `has_outer_join_child`, `has_nullable_child` and `is_nullable` say in the plan, the
type resolved by `AggregatorParams::init` has result and intermediate type BIGINT,
`has_nullable_child` and `is_nullable` false, so `is_result_nullable<true>()` is false, and
`is_result_nullable<false>()` is the value of `is_always_nullable_result`, which the `count`
branch leaves as the declaration of `AggFunctionTypes` initialises it: false. -/
theorem count_is_never_nullable {θ τ : Type} (from_thrift : θ → τ) (TYPE_BIGINT : τ)
    (initializer : Bool) (params : AggregatorParams θ) (i : Nat) (desc : TAggregateFunction θ)
    (hdesc : params.aggregate_functions.get? i = some desc)
    (hname : desc.function_name = "count" ∨ desc.function_name = "count_if")
    (hinitializer : initializer = false) :
    ∃ t : AggFunctionTypes τ,
      (AggregatorParams.init from_thrift TYPE_BIGINT initializer params).get? i = some t ∧
      AggFunctionTypes.is_result_nullable false t = false ∧
      AggFunctionTypes.is_result_nullable true t = false ∧
      t.result_type = TYPE_BIGINT ∧ t.serde_type = TYPE_BIGINT := by
  have h1 : desc.function_name = FUNCTION_COUNT ∨
      desc.function_name = FUNCTION_COUNT ++ AGG_STATE_IF_SUFFIX := by
    rcases hname with h | h
    · exact Or.inl h
    · exact Or.inr h
  refine ⟨init_agg_fn_type from_thrift TYPE_BIGINT initializer params.has_outer_join_child desc,
    ?_, ?_, ?_, ?_, ?_⟩
  · rw [List.get?_eq_getElem?] at hdesc
    simp only [AggregatorParams.init, List.get?_eq_getElem?, List.getElem?_map, hdesc,
      Option.map_some']
  · simp only [init_agg_fn_type, h1, if_true, AggFunctionTypes.is_result_nullable, hinitializer,
      Bool.false_eq_true, if_false, Bool.and_self, Bool.or_self]
  · simp only [init_agg_fn_type, h1, if_true, AggFunctionTypes.is_result_nullable]
  · simp only [init_agg_fn_type, h1, if_true]
  · simp only [init_agg_fn_type, h1, if_true]

/-- Witness for C22: `count_if` over a nullable child under an outer join. -/
theorem count_is_never_nullable_witness :
    ∃ t : AggFunctionTypes Nat,
      (AggregatorParams.init (fun n => n + 100) 0 false (sample_params true)).get? 2 = some t ∧
      AggFunctionTypes.is_result_nullable false t = false ∧
      AggFunctionTypes.is_result_nullable true t = false ∧
      t.result_type = 0 ∧ t.serde_type = 0 :=
  count_is_never_nullable (fun n => n + 100) 0 false (sample_params true) 2
    ⟨"count_if", true, true, true, 7, 7⟩ rfl (Or.inr rfl) rfl

/-! ## The continuous limit -/

/-- C23.  `update_continuous_limit` doubles the continuous limit with a cap: for a current
value `c` whose double does not overflow, the new value is `min (2 * c) ContinuousUpperLimit`;
it never exceeds `ContinuousUpperLimit`, and for `c ≤ ContinuousUpperLimit` it is at least
`c`.  The bound by `ContinuousUpperLimit` holds for every `c`. -/
theorem update_continuous_limit_doubles_capped (ContinuousUpperLimit c : Nat)
    (hc : c * 2 < 2 ^ 64) :
    update_continuous_limit ContinuousUpperLimit c = min (2 * c) ContinuousUpperLimit ∧
      update_continuous_limit ContinuousUpperLimit c ≤ ContinuousUpperLimit ∧
      (c ≤ ContinuousUpperLimit → c ≤ update_continuous_limit ContinuousUpperLimit c) ∧
      (∀ d : Nat, update_continuous_limit ContinuousUpperLimit d ≤ ContinuousUpperLimit) := by
  have hmod : c * 2 % 2 ^ 64 = c * 2 := Nat.mod_eq_of_lt hc
  have hall : ∀ d : Nat, update_continuous_limit ContinuousUpperLimit d ≤ ContinuousUpperLimit := by
    intro d
    unfold update_continuous_limit
    split_ifs with h
    · exact Nat.le_refl _
    · omega
  have heq : update_continuous_limit ContinuousUpperLimit c = min (2 * c) ContinuousUpperLimit := by
    unfold update_continuous_limit
    rw [hmod]
    split_ifs with h
    · omega
    · omega
  refine ⟨heq, hall c, ?_, hall⟩
  intro hle
  rw [heq]
  omega

/-- Witness for C23: from 3000 with the cap 4096 the limit becomes 4096. -/
theorem update_continuous_limit_doubles_capped_witness :
    3000 * 2 < 2 ^ 64 ∧ update_continuous_limit 4096 3000 = min (2 * 3000) 4096 :=
  ⟨by decide, (update_continuous_limit_doubles_capped 4096 3000 (by decide)).1⟩

/-! ## The layout does not depend on earlier values -/

theorem layout_loop_in_place_eq (fns : List AggregateFunction) (pre suffix : List Nat)
    (total max_align : Nat) (hlen : suffix.length = fns.length) :
    layout_loop_in_place fns pre.length
        { _agg_states_offsets := pre ++ suffix
          _agg_states_total_size := total
          _max_agg_state_align_size := max_align } =
      layout_loop fns
        { _agg_states_offsets := pre
          _agg_states_total_size := total
          _max_agg_state_align_size := max_align } := by
  induction fns generalizing pre suffix total max_align with
  | nil =>
    have hs : suffix = [] := List.length_eq_zero.mp hlen
    simp [layout_loop_in_place, layout_loop, hs]
  | cons fn rest ih =>
    cases suffix with
    | nil => simp at hlen
    | cons s suffix1 =>
      have hlen1 : suffix1.length = rest.length := by simpa using hlen
      have hset : (pre ++ s :: suffix1).set pre.length total = (pre ++ [total]) ++ suffix1 := by
        simp
      have hlt : pre.length < (pre ++ s :: suffix1).length := by simp
      unfold layout_loop_in_place layout_loop
      simp only [hlt, if_true, hset]
      cases rest with
      | nil =>
        have hs : suffix1 = [] := List.length_eq_zero.mp hlen1
        simp [hs]
      | cons next tail =>
        simp only
        cases ha : ALIGN_TO (total + fn.size) next.alignof_size with
        | error fault => rfl
        | ok aligned =>
          simp only
          have hidx : pre.length + 1 = (pre ++ [total]).length := by simp
          rw [hidx]
          exact ih (pre ++ [total]) suffix1 aligned (max max_align fn.alignof_size) hlen1

theorem layout_loop_offsets_length (fns : List AggregateFunction)
    (layout result : AggregateStateLayout) (h : layout_loop fns layout = Except.ok result) :
    result._agg_states_offsets.length = layout._agg_states_offsets.length + fns.length := by
  induction fns generalizing layout with
  | nil =>
    simp only [layout_loop, Except.ok.injEq] at h
    simp [← h]
  | cons fn rest ih =>
    unfold layout_loop at h
    cases rest with
    | nil =>
      simp only [Except.ok.injEq] at h
      simp [← h]
    | cons next tail =>
      simp only at h
      cases ha : ALIGN_TO (layout._agg_states_total_size + fn.size) next.alignof_size with
      | error fault => rw [ha] at h; cases h
      | ok aligned =>
        rw [ha] at h
        have := ih _ h
        simp only [List.length_append, List.length_cons, List.length_nil] at this
        simp only [List.length_cons]
        omega

theorem open_layout_in_place_eq (num_group_by_exprs sizeof_KeyType alignof_KeyType : Nat)
    (_agg_functions : List AggregateFunction) (prior : AggregateStateLayout)
    (hsized : prior._agg_states_offsets.length = _agg_functions.length) :
    open_layout_in_place num_group_by_exprs sizeof_KeyType alignof_KeyType _agg_functions prior =
      open_layout num_group_by_exprs sizeof_KeyType alignof_KeyType _agg_functions := by
  unfold open_layout_in_place open_layout
  cases _agg_functions with
  | nil =>
    have hs : prior._agg_states_offsets = [] := List.length_eq_zero.mp hsized
    by_cases hn : num_group_by_exprs = 0
    · simp [hn]
    · simp [hn, hs]
  | cons fn0 rest =>
    simp only [List.isEmpty_cons, Bool.false_and, Bool.false_eq_true, if_false]
    cases hp : PAD sizeof_KeyType fn0.alignof_size with
    | error fault => rfl
    | ok pad =>
      simp only
      have hloop := layout_loop_in_place_eq (fn0 :: rest) [] prior._agg_states_offsets
        (sizeof_KeyType + pad) (max alignof_KeyType fn0.alignof_size) hsized
      simp only [List.length_nil, List.nil_append] at hloop
      rw [hloop]

theorem open_layout_offsets_length (num_group_by_exprs sizeof_KeyType alignof_KeyType : Nat)
    (_agg_functions : List AggregateFunction) (layout : AggregateStateLayout)
    (h : open_layout num_group_by_exprs sizeof_KeyType alignof_KeyType _agg_functions =
      Except.ok layout) :
    layout._agg_states_offsets.length = _agg_functions.length := by
  unfold open_layout at h
  cases _agg_functions with
  | nil =>
    by_cases hn : num_group_by_exprs = 0
    · simp [hn] at h
    · simp [hn] at h
      simp [← h]
  | cons fn0 rest =>
    simp only [List.isEmpty_cons, Bool.false_and, Bool.false_eq_true, if_false] at h
    cases hp : PAD sizeof_KeyType fn0.alignof_size with
    | error fault => rw [hp] at h; cases h
    | ok pad =>
      rw [hp] at h
      simp only at h
      cases hl : layout_loop (fn0 :: rest)
          { _agg_states_offsets := []
            _agg_states_total_size := sizeof_KeyType + pad
            _max_agg_state_align_size := max alignof_KeyType fn0.alignof_size } with
      | error fault => rw [hl] at h; cases h
      | ok l =>
        rw [hl] at h
        simp only at h
        have hlen := layout_loop_offsets_length _ _ _ hl
        cases ha : ALIGN_TO l._agg_states_total_size l._max_agg_state_align_size with
        | error fault => rw [ha] at h; cases h
        | ok total =>
          rw [ha] at h
          simp only [Except.ok.injEq] at h
          rw [← h]
          simpa using hlen

theorem layout_loop_no_index_fault (fns : List AggregateFunction) (layout : AggregateStateLayout) :
    layout_loop fns layout ≠ Except.error LayoutFault.index_out_of_range := by
  induction fns generalizing layout with
  | nil => simp [layout_loop]
  | cons fn rest ih =>
    unfold layout_loop
    cases rest with
    | nil => simp
    | cons next tail =>
      simp only
      unfold ALIGN_TO
      by_cases ha : next.alignof_size = 0
      · simp [ha]
      · simp only [ha, if_false]
        exact ih _

/-- C24.  Idempotence of the layout: the layout block of `open`, run on fields that hold
anything (with `_agg_states_offsets` sized to the number of functions, as `prepare` leaves it),
gives the layout computed from scratch, so two runs from different earlier values agree in
offsets, total size and maximum alignment, and a second run on the result of a first changes
nothing. -/
theorem open_layout_idempotent (num_group_by_exprs sizeof_KeyType alignof_KeyType : Nat)
    (_agg_functions : List AggregateFunction) (prior other : AggregateStateLayout)
    (hprior : prior._agg_states_offsets.length = _agg_functions.length)
    (hother : other._agg_states_offsets.length = _agg_functions.length) :
    open_layout_in_place num_group_by_exprs sizeof_KeyType alignof_KeyType _agg_functions prior =
        open_layout_in_place num_group_by_exprs sizeof_KeyType alignof_KeyType _agg_functions
          other ∧
      open_layout_in_place num_group_by_exprs sizeof_KeyType alignof_KeyType _agg_functions
          prior =
        open_layout num_group_by_exprs sizeof_KeyType alignof_KeyType _agg_functions ∧
      (∀ layout : AggregateStateLayout,
        open_layout_in_place num_group_by_exprs sizeof_KeyType alignof_KeyType _agg_functions
            prior = Except.ok layout →
          open_layout_in_place num_group_by_exprs sizeof_KeyType alignof_KeyType _agg_functions
            layout = Except.ok layout) := by
  have h1 := open_layout_in_place_eq num_group_by_exprs sizeof_KeyType alignof_KeyType
    _agg_functions prior hprior
  have h2 := open_layout_in_place_eq num_group_by_exprs sizeof_KeyType alignof_KeyType
    _agg_functions other hother
  refine ⟨by rw [h1, h2], h1, ?_⟩
  intro layout hlayout
  rw [h1] at hlayout
  have hlen := open_layout_offsets_length _ _ _ _ _ hlayout
  rw [open_layout_in_place_eq _ _ _ _ layout hlen]
  exact hlayout

/-- Witness for C24: two functions after an 8-byte key, started from fields holding leftovers
of another computation. -/
theorem open_layout_idempotent_witness :
    open_layout_in_place 1 8 8 [⟨4, 4⟩, ⟨16, 16⟩] ⟨[77, 99], 1234, 64⟩ =
        Except.ok ⟨[8, 16], 32, 16⟩ ∧
      open_layout_in_place 1 8 8 [⟨4, 4⟩, ⟨16, 16⟩] ⟨[77, 99], 1234, 64⟩ =
        open_layout_in_place 1 8 8 [⟨4, 4⟩, ⟨16, 16⟩] ⟨[0, 0], 0, 0⟩ :=
  ⟨rfl, (open_layout_idempotent 1 8 8 [⟨4, 4⟩, ⟨16, 16⟩] ⟨[77, 99], 1234, 64⟩ ⟨[0, 0], 0, 0⟩
    rfl rfl).1⟩

/-- C27.  The layout block of `open` reads `_agg_functions[0]` out of range exactly for the
plan with no group-by expression and no aggregate function: `_is_only_group_by_columns` is
false there, so the branch is taken with an empty list.  For every other plan the indices `0`
and `i + 1` read are within the list. -/
theorem open_layout_index_out_of_range (sizeof_KeyType alignof_KeyType : Nat) :
    open_layout 0 sizeof_KeyType alignof_KeyType [] =
        Except.error LayoutFault.index_out_of_range ∧
      (∀ (num_group_by_exprs : Nat) (_agg_functions : List AggregateFunction),
        open_layout num_group_by_exprs sizeof_KeyType alignof_KeyType _agg_functions =
            Except.error LayoutFault.index_out_of_range ↔
          (_agg_functions = [] ∧ num_group_by_exprs = 0)) := by
  refine ⟨rfl, ?_⟩
  intro n fns
  cases fns with
  | nil =>
    by_cases hn : n = 0
    · simp [open_layout, hn]
    · simp [open_layout, hn]
  | cons fn0 rest =>
    simp only [false_and, iff_false, reduceCtorEq]
    unfold open_layout
    simp only [List.isEmpty_cons, Bool.false_and, Bool.false_eq_true, if_false]
    unfold PAD
    by_cases ha : fn0.alignof_size = 0
    · simp [ha]
    · simp only [ha, if_false]
      cases hl : layout_loop (fn0 :: rest)
          { _agg_states_offsets := []
            _agg_states_total_size :=
              sizeof_KeyType + (fn0.alignof_size - sizeof_KeyType % fn0.alignof_size) %
                fn0.alignof_size
            _max_agg_state_align_size := max alignof_KeyType fn0.alignof_size } with
      | error fault =>
        simp only
        intro hf
        rw [hf] at hl
        exact layout_loop_no_index_fault _ _ hl
      | ok l =>
        simp only
        unfold ALIGN_TO
        by_cases hb : l._max_agg_state_align_size = 0
        · simp [hb]
        · simp [hb]

/-! ## Applying the limit -/

theorem wrap_int64_of_range (z : Int) (h0 : -(2 ^ 63) ≤ z) (h1 : z < 2 ^ 63) :
    wrap_int64 z = z := by
  unfold wrap_int64
  have h : (z + 2 ^ 63) % 2 ^ 64 = z + 2 ^ 63 := Int.emod_eq_of_lt (by omega) (by omega)
  omega

/-- C28.  `process_limit` truncates to exactly the limit.  If the limit is not reached nothing
changes.  If it is reached, `_is_ht_eos` is set, the counter is set to `_limit`, and the chunk
is cut to `num_rows() - (_num_rows_returned - _limit)` rows; when the limit reached means
`_limit ≤ _num_rows_returned`, the rows of the chunk are counted in `_num_rows_returned`, and
fewer than `_limit` rows had been returned before this chunk, the cut chunk is the chunk's
first rows, it is not empty, it has `_num_rows_returned - _limit` rows fewer, and the rows
returned before it plus its rows are `_limit`. -/
theorem process_limit_truncates {ρ : Type} (default_row : ρ) (_reached_limit : Bool)
    (agg : LimitFields) (chunk : List ρ) :
    (_reached_limit = false → process_limit default_row _reached_limit agg chunk = (agg, chunk)) ∧
      (_reached_limit = true →
        (process_limit default_row _reached_limit agg chunk).1 =
          { agg with rows_returned_counter := agg._limit, _is_ht_eos := true } ∧
        (process_limit default_row _reached_limit agg chunk).2 =
          set_num_rows default_row
            (((chunk.length : Int) - wrap_int64 (agg._num_rows_returned - agg._limit))
              % 2 ^ 64).toNat chunk) ∧
      (_reached_limit = true → agg._limit ≤ agg._num_rows_returned →
        chunk.length < 2 ^ 63 → (chunk.length : Int) ≤ agg._num_rows_returned →
        agg._num_rows_returned - chunk.length < agg._limit →
        (process_limit default_row _reached_limit agg chunk).2 =
            chunk.take (chunk.length - (agg._num_rows_returned - agg._limit).toNat) ∧
          0 < (process_limit default_row _reached_limit agg chunk).2.length ∧
          ((process_limit default_row _reached_limit agg chunk).2.length : Int) +
              (agg._num_rows_returned - agg._limit) = chunk.length ∧
          (agg._num_rows_returned - chunk.length) +
              (process_limit default_row _reached_limit agg chunk).2.length = agg._limit) := by
  refine ⟨?_, ?_, ?_⟩
  · intro h
    simp [process_limit, h]
  · intro h
    simp [process_limit, h]
  · intro h hreached hsize hcounted hbefore
    have hover : wrap_int64 (agg._num_rows_returned - agg._limit) =
        agg._num_rows_returned - agg._limit :=
      wrap_int64_of_range _ (by omega) (by omega)
    have hmod : ((chunk.length : Int) - (agg._num_rows_returned - agg._limit)) % 2 ^ 64 =
        (chunk.length : Int) - (agg._num_rows_returned - agg._limit) :=
      Int.emod_eq_of_lt (by omega) (by omega)
    have hnat : ((chunk.length : Int) - (agg._num_rows_returned - agg._limit)).toNat =
        chunk.length - (agg._num_rows_returned - agg._limit).toNat := by omega
    have hout : (process_limit default_row _reached_limit agg chunk).2 =
        chunk.take (chunk.length - (agg._num_rows_returned - agg._limit).toNat) := by
      simp only [process_limit, h, if_true, hover, hmod, hnat, set_num_rows]
      have hz : chunk.length - (agg._num_rows_returned - agg._limit).toNat - chunk.length = 0 := by
        omega
      rw [hz]
      simp
    rw [hout]
    refine ⟨rfl, ?_, ?_, ?_⟩
    · rw [List.length_take]; omega
    · rw [List.length_take]; omega
    · rw [List.length_take]; omega

/-- Witness for C28: the limit is 10, 12 rows are counted and the chunk holds the last 5 of
them: 3 rows stay. -/
theorem process_limit_truncates_witness :
    process_limit 0 true ⟨10, 12, false, 0⟩ [1, 2, 3, 4, 5] =
        (⟨10, 12, true, 10⟩, [1, 2, 3]) ∧
      ((12 : Int) - ([1, 2, 3, 4, 5] : List Nat).length) +
        (process_limit 0 true ⟨10, 12, false, 0⟩ [1, 2, 3, 4, 5]).2.length = 10 :=
  ⟨by decide,
    ((process_limit_truncates 0 true ⟨10, 12, false, 0⟩ [1, 2, 3, 4, 5]).2.2 rfl (by decide)
      (by decide) (by decide) (by decide)).2.2.2⟩

/-! ## Truncating binary values -/

theorem SLICE_SIZE_MIN_eq_min (width : Int) (size : Nat) (h0 : 0 ≤ width) (h1 : width < 2 ^ 31) :
    SLICE_SIZE_MIN width size = min width.toNat size := by
  unfold SLICE_SIZE_MIN
  have h : width % 2 ^ 64 = width := Int.emod_eq_of_lt h0 (by omega)
  rw [h]
  split_ifs with hlt
  · omega
  · omega

/-- C29.  `iceberg_truncate_binary` returns one row per input row: NULL when the input row is
null and otherwise the first `min(width, size)` bytes of the value, for every width `>= 0`.
So no output value is longer than `width` bytes, and truncating the output again with the
same width leaves it unchanged. -/
theorem iceberg_truncate_binary_takes_min (width : Int) (rows : List (Nat × List Nat))
    (h0 : 0 ≤ width) (h1 : width < 2 ^ 31) :
    (iceberg_truncate_binary width rows).length = rows.length ∧
      (∀ (i null_flag : Nat) (src_value : List Nat),
        rows.get? i = some (null_flag, src_value) →
        (iceberg_truncate_binary width rows).get? i =
          some (if null_flag ≠ 0 then none
            else some (src_value.take (min width.toNat src_value.length)))) ∧
      (∀ value : List Nat, some value ∈ iceberg_truncate_binary width rows →
        value.length ≤ width.toNat) ∧
      iceberg_truncate_binary width (as_input_column (iceberg_truncate_binary width rows)) =
        iceberg_truncate_binary width rows := by
  induction rows with
  | nil =>
    refine ⟨rfl, ?_, ?_, rfl⟩
    · intro i f v h
      simp at h
    · intro v h
      simp [iceberg_truncate_binary] at h
  | cons row rest ih =>
    obtain ⟨null_flag, src_value⟩ := row
    obtain ⟨ih1, ih2, ih3, ih4⟩ := ih
    have hmin := SLICE_SIZE_MIN_eq_min width src_value.length h0 h1
    refine ⟨?_, ?_, ?_, ?_⟩
    · simp [iceberg_truncate_binary, ih1]
    · intro i f v h
      cases i with
      | zero =>
        simp only [List.get?_cons_zero, Option.some.injEq, Prod.mk.injEq] at h
        obtain ⟨hf, hv⟩ := h
        subst hf hv
        simp only [iceberg_truncate_binary, List.get?_cons_zero, hmin]
      | succ j =>
        simp only [List.get?_cons_succ] at h
        simp only [iceberg_truncate_binary, List.get?_cons_succ]
        exact ih2 j f v h
    · intro v h
      simp only [iceberg_truncate_binary, List.mem_cons] at h
      rcases h with h | h
      · by_cases hf : null_flag ≠ 0
        · simp [hf] at h
        · simp only [hf, if_false, Option.some.injEq] at h
          rw [h, hmin, List.length_take]
          omega
      · exact ih3 v h
    · by_cases hz : null_flag = 0
      · have hagain := SLICE_SIZE_MIN_eq_min width
          (src_value.take (SLICE_SIZE_MIN width src_value.length)).length h0 h1
        simp only [iceberg_truncate_binary, hz, ne_eq, not_true_eq_false, if_false,
          as_input_column, ih4, hagain, List.cons.injEq, Option.some.injEq, and_true]
        rw [hmin, List.take_take, List.length_take]
        congr 1
        omega
      · simp only [iceberg_truncate_binary, ne_eq, hz, not_false_eq_true, if_true,
          as_input_column, ih4, one_ne_zero]

/-- Witness for C29: width 3 over a long value, a null row and a short value. -/
theorem iceberg_truncate_binary_takes_min_witness :
    iceberg_truncate_binary 3 [(0, [10, 20, 30, 40, 50]), (1, []), (0, [7])] =
        [some [10, 20, 30], none, some [7]] ∧
      iceberg_truncate_binary 3
          (as_input_column
            (iceberg_truncate_binary 3 [(0, [10, 20, 30, 40, 50]), (1, []), (0, [7])])) =
        iceberg_truncate_binary 3 [(0, [10, 20, 30, 40, 50]), (1, []), (0, [7])] :=
  ⟨by decide,
    (iceberg_truncate_binary_takes_min 3 [(0, [10, 20, 30, 40, 50]), (1, []), (0, [7])]
      (by decide) (by decide)).2.2.2⟩

/-! ## The thread pool: submission at capacity -/

/-- C25.  `ThreadPool::do_submit` rejects a task when the pool is at capacity: when the size
check is reached (the pool's status is OK and the token may submit) and `capacity_remaining`,
which is `max_threads - active_threads + max_queue_size - total_queued_tasks` for
`max_threads >= active_threads` and `max_queue_size - total_queued_tasks` otherwise, is
below 1 (after the sync point callback, the identity outside tests), the call returns
`ServiceUnavailable` and leaves the pool as it was: queue, tokens with their entries and
states, the count of queued tasks and the count of pending threads are unchanged. -/
theorem do_submit_rejects_at_capacity {τ : Type} (env : SubmitEnv τ) (create_thread : Status)
    (pool : ThreadPool τ) (r : τ) (token : Nat) (pri : Nat) (t : ThreadPoolToken τ)
    (htoken : pool._tokens.get? token = some t)
    (hstatus : pool._pool_status.ok = true)
    (hmay : env.may_submit_new_tasks t._state = true)
    (hcapacity : env.sync_point_do_submit_1 (capacity_remaining pool) < 1) :
    pool.do_submit env create_thread r token pri =
        some (Status.ServiceUnavailable (at_capacity_message pool), pool) ∧
      capacity_remaining pool =
        (if pool._max_threads ≥ pool._active_threads then
          pool._max_threads - pool._active_threads + pool._max_queue_size -
            pool._total_queued_tasks
         else pool._max_queue_size - pool._total_queued_tasks) ∧
      ∀ result : Status × ThreadPool τ,
        pool.do_submit env create_thread r token pri = some result →
          result.1.ok = false ∧ result.2._queue = pool._queue ∧
          result.2._tokens = pool._tokens ∧
          result.2._total_queued_tasks = pool._total_queued_tasks ∧
          result.2._num_threads_pending_start = pool._num_threads_pending_start := by
  have hresult : pool.do_submit env create_thread r token pri =
      some (Status.ServiceUnavailable (at_capacity_message pool), pool) := by
    unfold ThreadPool.do_submit
    simp only [htoken, hstatus, hmay, Bool.not_true, Bool.false_eq_true, if_false, hcapacity,
      if_true]
  refine ⟨hresult, rfl, ?_⟩
  intro result h
  rw [hresult] at h
  simp only [Option.some.injEq] at h
  subst h
  exact ⟨rfl, rfl, rfl, rfl, rfl⟩

/-- Witness for C25: a pool of one thread and no queue room, whose thread runs a task. -/
theorem do_submit_rejects_at_capacity_witness :
    capacity_remaining
        (pool_run sample_submit_env
          [PoolEvent.init (fun _ => Status.OK), PoolEvent.do_submit 7 0 0 Status.OK,
           PoolEvent.thread_start, PoolEvent.worker_take] (ThreadPool.construct 0 1 0)) = 0 ∧
      (ThreadPool.do_submit sample_submit_env Status.OK
          (pool_run sample_submit_env
            [PoolEvent.init (fun _ => Status.OK), PoolEvent.do_submit 7 0 0 Status.OK,
             PoolEvent.thread_start, PoolEvent.worker_take] (ThreadPool.construct 0 1 0))
          8 0 0 =
        some (Status.ServiceUnavailable
            (at_capacity_message
              (pool_run sample_submit_env
                [PoolEvent.init (fun _ => Status.OK), PoolEvent.do_submit 7 0 0 Status.OK,
                 PoolEvent.thread_start, PoolEvent.worker_take] (ThreadPool.construct 0 1 0))),
          pool_run sample_submit_env
            [PoolEvent.init (fun _ => Status.OK), PoolEvent.do_submit 7 0 0 Status.OK,
             PoolEvent.thread_start, PoolEvent.worker_take] (ThreadPool.construct 0 1 0))) :=
  ⟨by decide,
    (do_submit_rejects_at_capacity sample_submit_env Status.OK
      (pool_run sample_submit_env
        [PoolEvent.init (fun _ => Status.OK), PoolEvent.do_submit 7 0 0 Status.OK,
         PoolEvent.thread_start, PoolEvent.worker_take] (ThreadPool.construct 0 1 0))
      8 0 0 ⟨ExecutionMode.CONCURRENT, TokenState.RUNNING, [], 1⟩ rfl rfl rfl (by decide)).1⟩

/-! ## The thread pool: invariant of the reachable pools -/

theorem pq_front_index_lt {τ : Type} (entries : List (Nat × τ)) (h : entries ≠ []) :
    pq_front_index entries < entries.length := by
  induction entries with
  | nil => exact absurd rfl h
  | cons entry rest ih =>
    unfold pq_front_index
    by_cases hall : rest.all (fun other => decide (other.1 ≤ entry.1)) = true
    · simp [hall]
    · have hrest : rest ≠ [] := by
        intro hnil
        apply hall
        simp [hnil]
      have := ih hrest
      simp only [hall, Bool.false_eq_true, if_false, List.length_cons]
      omega

theorem pq_pop_front_length {τ : Type} (entries : List (Nat × τ)) (h : entries ≠ []) :
    (pq_pop_front entries).length + 1 = entries.length := by
  unfold pq_pop_front
  rw [List.length_eraseIdx]
  have := pq_front_index_lt entries h
  simp only [this, if_true]
  omega

theorem token_inv_of_counts {τ : Type} (queue queue1 running running1 : List Nat) (id : Nat)
    (t : ThreadPoolToken τ) (hq : queue1.count id = queue.count id)
    (hr : running1.count id = running.count id) (h : TokenInv queue running id t) :
    TokenInv queue1 running1 id t := by
  unfold TokenInv at h ⊢
  rw [hq, hr]
  exact h

theorem pool_inv_set {τ : Type} (pool pool1 : ThreadPool τ) (k : Nat) (t1 : ThreadPoolToken τ)
    (hinv : PoolInv pool) (hlt : k < pool._tokens.length)
    (htokens : pool1._tokens = pool._tokens.set k t1)
    (hq : ∀ id, id ≠ k → pool1._queue.count id = pool._queue.count id)
    (hr : ∀ id, id ≠ k → pool1.running.count id = pool.running.count id)
    (hk : TokenInv pool1._queue pool1.running k t1) : PoolInv pool1 := by
  constructor
  · intro id t hget
    rw [htokens, List.get?_eq_getElem?, List.getElem?_set] at hget
    by_cases hid : k = id
    · subst hid
      simp only [hlt, if_true, Option.some.injEq] at hget
      rw [← hget]
      exact hk
    · simp only [hid, if_false] at hget
      have hne : id ≠ k := fun h => hid h.symm
      exact token_inv_of_counts pool._queue pool1._queue pool.running pool1.running id t
        (hq id hne) (hr id hne) (hinv.1 id t (by rw [List.get?_eq_getElem?]; exact hget))
  · intro id hid
    rw [htokens, List.length_set] at hid
    have hne : id ≠ k := by omega
    rw [hq id hne, hr id hne]
    exact hinv.2 id hid

theorem pool_inv_congr {τ : Type} (pool pool1 : ThreadPool τ) (hinv : PoolInv pool)
    (htokens : pool1._tokens = pool._tokens) (hq : pool1._queue = pool._queue)
    (hr : pool1.running = pool.running) : PoolInv pool1 := by
  unfold PoolInv
  rw [htokens, hq, hr]
  exact hinv

theorem pool_inv_construct {τ : Type} (_min_threads _max_threads _max_queue_size : Int) :
    PoolInv (ThreadPool.construct _min_threads _max_threads _max_queue_size : ThreadPool τ) := by
  constructor
  · intro id t hget
    cases id with
    | zero =>
      simp only [ThreadPool.construct, List.get?_cons_zero, Option.some.injEq] at hget
      subst hget
      simp [TokenInv, ThreadPool.construct]
    | succ j => simp [ThreadPool.construct] at hget
  · intro id _
    simp [ThreadPool.construct]

theorem pool_inv_new_token {τ : Type} (pool : ThreadPool τ) (mode : ExecutionMode)
    (hinv : PoolInv pool) : PoolInv (pool.new_token mode) := by
  constructor
  · intro id t hget
    simp only [ThreadPool.new_token, List.get?_eq_getElem?] at hget
    by_cases hid : id < pool._tokens.length
    · rw [List.getElem?_append_left hid] at hget
      exact hinv.1 id t (by rw [List.get?_eq_getElem?]; exact hget)
    · have hge : pool._tokens.length ≤ id := by omega
      rw [List.getElem?_append_right hge] at hget
      obtain ⟨hq, hr⟩ := hinv.2 id hge
      cases hsub : id - pool._tokens.length with
      | zero =>
        rw [hsub] at hget
        simp only [List.getElem?_cons_zero, Option.some.injEq] at hget
        subst hget
        simp only [ThreadPool.new_token]
        simp [TokenInv, hq, hr]
      | succ j =>
        rw [hsub] at hget
        simp at hget
  · intro id hid
    simp only [ThreadPool.new_token, List.length_append, List.length_cons, List.length_nil]
      at hid
    exact hinv.2 id (by omega)

theorem count_append_singleton_of_ne (l : List Nat) (k id : Nat) (h : id ≠ k) :
    (l ++ [k]).count id = l.count id := by
  rw [List.count_append, List.count_cons, List.count_nil]
  have hk : ¬ (k == id) = true := by
    intro hb
    exact h (beq_iff_eq.mp hb).symm
  simp [hk]

theorem count_append_singleton_self (l : List Nat) (k : Nat) :
    (l ++ [k]).count k = l.count k + 1 := by
  simp [List.count_append]

theorem count_filter_ne_of_ne (l : List Nat) (k id : Nat) (h : id ≠ k) :
    (l.filter (fun queued => decide (queued ≠ k))).count id = l.count id := by
  apply List.count_filter
  simpa using h

theorem count_filter_ne_self (l : List Nat) (k : Nat) :
    (l.filter (fun queued => decide (queued ≠ k))).count k = 0 := by
  rw [List.count_eq_zero]
  intro hmem
  have := (List.mem_filter.mp hmem).2
  simp at this

theorem count_nonneg_cast (l : List Nat) (id : Nat) : (0 : Int) ≤ (l.count id : Int) :=
  Int.ofNat_nonneg _

theorem shutdown_token_fields {τ : Type} (t : ThreadPoolToken τ) :
    (shutdown_token t)._active_threads = t._active_threads ∧
      (shutdown_token t)._entries = [] ∧ (shutdown_token t)._mode = t._mode ∧
      (shutdown_token t)._state ≠ TokenState.IDLE ∧
      (shutdown_token t)._state ≠ TokenState.RUNNING ∧
      (t._state = TokenState.QUIESCED → (shutdown_token t)._state = TokenState.QUIESCED) ∧
      ((shutdown_token t)._state = TokenState.QUIESCED →
        t._state = TokenState.QUIESCED ∨ t._state = TokenState.IDLE ∨
          ¬ t._active_threads > 0) := by
  unfold shutdown_token
  cases hs : t._state with
  | IDLE => simp [ThreadPoolToken.transition]
  | RUNNING =>
    by_cases hact : t._active_threads > 0
    · simp [ThreadPoolToken.transition, hact]
    · simp [ThreadPoolToken.transition, hact]
  | QUIESCING => simp [hs]
  | QUIESCED => simp [hs]

theorem pool_inv_shutdown {τ : Type} (pool : ThreadPool τ) (hinv : PoolInv pool) :
    PoolInv pool.shutdown := by
  constructor
  · intro id t1 hget
    simp only [ThreadPool.shutdown, List.get?_eq_getElem?, List.getElem?_map] at hget
    cases hold : pool._tokens[id]? with
    | none => rw [hold] at hget; simp at hget
    | some t =>
      rw [hold] at hget
      simp only [Option.map_some', Option.some.injEq] at hget
      obtain ⟨h1, h2, h3, h4, h5, h6⟩ := hinv.1 id t (by rw [List.get?_eq_getElem?]; exact hold)
      obtain ⟨f1, f2, f3, f4, f5, f6, f7⟩ := shutdown_token_fields t
      have hnn := count_nonneg_cast pool._queue id
      have hrn := count_nonneg_cast pool.running id
      subst hget
      simp only [ThreadPool.shutdown]
      refine ⟨?_, ?_, ?_, ?_, ?_, ?_⟩
      · rw [f1]; exact h1
      · simp
      · intro hmode
        rw [f3] at hmode
        have := h3 hmode
        rw [f1]
        simp only [List.count_nil, Nat.cast_zero]
        omega
      · intro hstate
        exact absurd hstate f4
      · intro hstate
        refine ⟨rfl, ?_, f2⟩
        rw [f1]
        rcases f7 hstate with h | h | h
        · exact (h5 h).2.1
        · exact (h4 h).2
        · omega
      · intro _
        exact ⟨rfl, f2⟩
  · intro id hid
    simp only [ThreadPool.shutdown, List.length_map] at hid
    simp only [ThreadPool.shutdown, List.count_nil, true_and]
    exact (hinv.2 id hid).2

theorem token_shutdown_effect {τ : Type} (pool : ThreadPool τ) (k : Nat) (t : ThreadPoolToken τ)
    (hget : pool._tokens.get? k = some t) :
    ∃ t1 : ThreadPoolToken τ,
      (ThreadPoolToken.shutdown pool k)._tokens = pool._tokens.set k t1 ∧
      (ThreadPoolToken.shutdown pool k).running = pool.running ∧
      t1._active_threads = t._active_threads ∧ t1._entries = [] ∧ t1._mode = t._mode ∧
      ((t._state = TokenState.IDLE ∧ t1._state = TokenState.QUIESCED ∧
          (ThreadPoolToken.shutdown pool k)._queue = pool._queue) ∨
        (t._state = TokenState.RUNNING ∧
          t1._state = (if t._active_threads = 0 then TokenState.QUIESCED
            else TokenState.QUIESCING) ∧
          (ThreadPoolToken.shutdown pool k)._queue =
            pool._queue.filter (fun queued => decide (queued ≠ k))) ∨
        ((t._state = TokenState.QUIESCING ∨ t._state = TokenState.QUIESCED) ∧
          t1._state = t._state ∧ (ThreadPoolToken.shutdown pool k)._queue = pool._queue)) := by
  unfold ThreadPoolToken.shutdown
  simp only [hget]
  cases hs : t._state with
  | IDLE =>
    exact ⟨_, rfl, rfl, rfl, rfl, rfl, Or.inl ⟨rfl, rfl, rfl⟩⟩
  | RUNNING =>
    refine ⟨_, rfl, rfl, ?_, ?_, ?_, Or.inr (Or.inl ⟨rfl, ?_, rfl⟩)⟩
    · by_cases hz : t._active_threads = 0 <;> simp [hz, ThreadPoolToken.transition]
    · by_cases hz : t._active_threads = 0 <;> simp [hz, ThreadPoolToken.transition]
    · by_cases hz : t._active_threads = 0 <;> simp [hz, ThreadPoolToken.transition]
    · by_cases hz : t._active_threads = 0 <;> simp [hz, ThreadPoolToken.transition]
  | QUIESCING =>
    exact ⟨_, rfl, rfl, rfl, rfl, rfl, Or.inr (Or.inr ⟨Or.inl rfl, rfl, rfl⟩)⟩
  | QUIESCED =>
    exact ⟨_, rfl, rfl, rfl, rfl, rfl, Or.inr (Or.inr ⟨Or.inr rfl, rfl, rfl⟩)⟩

theorem get?_some_lt {α : Type} (l : List α) (k : Nat) (a : α) (h : l.get? k = some a) :
    k < l.length := by
  rw [List.get?_eq_getElem?] at h
  exact (List.getElem?_eq_some.mp h).1

theorem pool_inv_token_shutdown {τ : Type} (pool : ThreadPool τ) (k : Nat)
    (hinv : PoolInv pool) : PoolInv (ThreadPoolToken.shutdown pool k) := by
  cases hget : pool._tokens.get? k with
  | none =>
    have : ThreadPoolToken.shutdown pool k = pool := by
      unfold ThreadPoolToken.shutdown
      simp only [hget]
    rw [this]
    exact hinv
  | some t =>
    obtain ⟨t1, htokens, hrunning, f1, f2, f3, hcases⟩ := token_shutdown_effect pool k t hget
    obtain ⟨h1, h2, h3, h4, h5, h6⟩ := hinv.1 k t hget
    have hlt := get?_some_lt _ _ _ hget
    have hnn := count_nonneg_cast pool._queue k
    have hrn := count_nonneg_cast pool.running k
    rcases hcases with ⟨hs, hs1, hq⟩ | ⟨hs, hs1, hq⟩ | ⟨hs, hs1, hq⟩
    · obtain ⟨h4a, h4b⟩ := h4 hs
      apply pool_inv_set pool _ k t1 hinv hlt htokens
      · intro id _; rw [hq]
      · intro id _; rw [hrunning]
      · rw [hq, hrunning]
        unfold TokenInv
        refine ⟨by rw [f1]; exact h1, by rw [h4a]; exact Nat.zero_le _, ?_, ?_, ?_, ?_⟩
        · intro _; rw [f1, h4a, h4b]; decide
        · intro _; exact ⟨h4a, by rw [f1]; exact h4b⟩
        · intro _; exact ⟨h4a, by rw [f1]; exact h4b, f2⟩
        · intro _; exact ⟨h4a, f2⟩
    · have hzero := count_filter_ne_self pool._queue k
      apply pool_inv_set pool _ k t1 hinv hlt htokens
      · intro id hne; rw [hq]; exact count_filter_ne_of_ne _ _ _ hne
      · intro id _; rw [hrunning]
      · rw [hq, hrunning]
        unfold TokenInv
        rw [hzero]
        refine ⟨by rw [f1]; exact h1, Nat.zero_le _, ?_, ?_, ?_, ?_⟩
        · intro hmode
          rw [f3] at hmode
          have := h3 hmode
          rw [f1]
          simp only [Nat.cast_zero]
          omega
        · intro hstate
          rw [hs1] at hstate
          by_cases hz : t._active_threads = 0
          · simp [hz] at hstate
          · simp [hz] at hstate
        · intro hstate
          rw [hs1] at hstate
          by_cases hz : t._active_threads = 0
          · exact ⟨rfl, by rw [f1]; exact hz, f2⟩
          · simp [hz] at hstate
        · intro _; exact ⟨rfl, f2⟩
    · have hcount : pool._queue.count k = 0 := by
        rcases hs with hs | hs
        · exact (h6 hs).1
        · exact (h5 hs).1
      apply pool_inv_set pool _ k t1 hinv hlt htokens
      · intro id _; rw [hq]
      · intro id _; rw [hrunning]
      · rw [hq, hrunning]
        unfold TokenInv
        refine ⟨by rw [f1]; exact h1, by rw [hcount]; exact Nat.zero_le _, ?_, ?_, ?_, ?_⟩
        · intro hmode
          rw [f3] at hmode
          rw [f1]
          exact h3 hmode
        · intro hstate
          rw [hs1] at hstate
          rcases hs with hs | hs <;> rw [hs] at hstate <;> cases hstate
        · intro hstate
          rw [hs1] at hstate
          exact ⟨hcount, by rw [f1]; exact (h5 hstate).2.1, f2⟩
        · intro _; exact ⟨hcount, f2⟩

theorem pool_inv_take {τ : Type} (pool : ThreadPool τ) (hinv : PoolInv pool) :
    PoolInv (dispatch_thread_take pool) := by
  unfold dispatch_thread_take
  by_cases hok : pool._pool_status.ok = true
  · simp only [hok, if_true]
    cases hqueue : pool._queue with
    | nil => simp only; exact hinv
    | cons k queue =>
      simp only
      cases hget : pool._tokens.get? k with
      | none => simp only; exact hinv
      | some t =>
        simp only
        obtain ⟨h1, h2, h3, h4, h5, h6⟩ := hinv.1 k t hget
        have hlt := get?_some_lt _ _ _ hget
        have hcq : pool._queue.count k = queue.count k + 1 := by
          rw [hqueue, List.count_cons_self]
        have hne : t._entries ≠ [] := by
          intro hnil
          rw [hnil] at h2
          simp only [List.length_nil] at h2
          omega
        have hpop := pq_pop_front_length t._entries hne
        apply pool_inv_set pool _ k _ hinv hlt rfl
        · intro id hid
          simp only
          rw [hqueue, List.count_cons_of_ne hid]
        · intro id hid
          simp only
          rw [List.count_cons_of_ne hid]
        · unfold TokenInv
          simp only [List.count_cons_self]
          refine ⟨?_, ?_, ?_, ?_, ?_, ?_⟩
          · rw [h1]; simp
          · omega
          · intro hmode
            have := h3 hmode
            omega
          · intro hstate
            have := (h4 hstate).1
            omega
          · intro hstate
            have := (h5 hstate).1
            omega
          · intro hstate
            have := (h6 hstate).1
            omega
  · simp only [hok, Bool.false_eq_true, if_false]
    exact hinv

theorem finish_token_fields {τ : Type} (t : ThreadPoolToken τ) :
    (finish_token t)._active_threads = t._active_threads - 1 ∧
      (finish_token t)._entries = t._entries ∧ (finish_token t)._mode = t._mode ∧
      (finish_token t)._state =
        (if t._active_threads - 1 = 0 then
          if t._state = TokenState.QUIESCING then TokenState.QUIESCED
          else if t._entries.isEmpty = true then TokenState.IDLE else t._state
         else t._state) ∧
      (finish_requeues t = true ↔
        (t._active_threads - 1 = 0 ∧ t._state ≠ TokenState.QUIESCING ∧ t._entries ≠ [] ∧
          t._mode = ExecutionMode.SERIAL)) := by
  unfold finish_token finish_requeues
  have hiff : t._entries.isEmpty = true ↔ t._entries = [] := List.isEmpty_iff
  by_cases hz : t._active_threads - 1 = 0
  · by_cases hs : t._state = TokenState.QUIESCING
    · simp [hz, hs, ThreadPoolToken.transition]
    · by_cases he : t._entries.isEmpty = true
      · have hnil := hiff.mp he
        simp [hz, hs, he, hnil, ThreadPoolToken.transition]
      · have he1 : t._entries.isEmpty = false := by
          cases hb : t._entries.isEmpty
          · rfl
          · exact absurd hb he
        have hne : t._entries ≠ [] := fun hnil => he (hiff.mpr hnil)
        simp [hz, hs, he1, hne]
  · simp [hz]

theorem pool_inv_finish {τ : Type} (pool : ThreadPool τ) (k : Nat) (hinv : PoolInv pool) :
    PoolInv (dispatch_thread_finish pool k) := by
  unfold dispatch_thread_finish
  by_cases hmem : k ∈ pool.running
  · simp only [hmem, if_true]
    cases hget : pool._tokens.get? k with
    | none => simp only; exact hinv
    | some t =>
      simp only
      obtain ⟨h1, h2, h3, h4, h5, h6⟩ := hinv.1 k t hget
      obtain ⟨f1, f2, f3, f4, f5⟩ := finish_token_fields t
      have hlt := get?_some_lt _ _ _ hget
      have hpos : 0 < pool.running.count k := List.count_pos_iff.mpr hmem
      have herase : (pool.running.erase k).count k = pool.running.count k - 1 :=
        List.count_erase_self k pool.running
      have hnn := count_nonneg_cast pool._queue k
      have hnotidle : t._state ≠ TokenState.IDLE := by
        intro hs
        have := (h4 hs).2
        omega
      have hnotquiesced : t._state ≠ TokenState.QUIESCED := by
        intro hs
        have := (h5 hs).2.1
        omega
      apply pool_inv_set pool _ k _ hinv hlt rfl
      · intro id hid
        simp only
        split_ifs
        · exact count_append_singleton_of_ne _ _ _ hid
        · rfl
      · intro id hid
        simp only
        exact List.count_erase_of_ne hid _
      · unfold TokenInv
        simp only [herase]
        rw [f1, f2, f3, f4]
        by_cases hrq : finish_requeues t = true
        · obtain ⟨hz, hs, he, hm⟩ := f5.mp hrq
          have hq0 : pool._queue.count k = 0 := by
            have := h3 hm
            omega
          have hlen : 0 < t._entries.length := List.length_pos.mpr he
          have he1 : ¬ t._entries.isEmpty = true := fun hb => he (List.isEmpty_iff.mp hb)
          simp only [hrq, if_true, count_append_singleton_self, hq0, hz, hs, he1, if_false]
          refine ⟨by omega, by omega, ?_, ?_, ?_, ?_⟩
          · intro _; simp
          · intro hstate; exact absurd hstate hnotidle
          · intro hstate; exact absurd hstate hnotquiesced
          · intro hstate; exact absurd hstate hs
        · have hrq1 : finish_requeues t = false := by
            cases hb : finish_requeues t
            · rfl
            · exact absurd hb hrq
          simp only [hrq1, Bool.false_eq_true, if_false]
          refine ⟨by omega, h2, ?_, ?_, ?_, ?_⟩
          · intro hmode
            have := h3 hmode
            omega
          · intro hstate
            by_cases hz : t._active_threads - 1 = 0
            · simp only [hz, if_true] at hstate
              by_cases hs : t._state = TokenState.QUIESCING
              · simp [hs] at hstate
              · simp only [hs, if_false] at hstate
                by_cases he : t._entries.isEmpty = true
                · rw [List.isEmpty_iff.mp he] at h2
                  simp only [List.length_nil, Nat.le_zero] at h2
                  exact ⟨h2, by omega⟩
                · simp only [he, if_false] at hstate
                  exact absurd hstate hnotidle
            · simp only [hz, if_false] at hstate
              exact absurd hstate hnotidle
          · intro hstate
            by_cases hz : t._active_threads - 1 = 0
            · simp only [hz, if_true] at hstate
              by_cases hs : t._state = TokenState.QUIESCING
              · obtain ⟨h6a, h6b⟩ := h6 hs
                exact ⟨h6a, by omega, h6b⟩
              · simp only [hs, if_false] at hstate
                by_cases he : t._entries.isEmpty = true
                · simp [he] at hstate
                · simp only [he, if_false] at hstate
                  exact absurd hstate hnotquiesced
            · simp only [hz, if_false] at hstate
              exact absurd hstate hnotquiesced
          · intro hstate
            by_cases hz : t._active_threads - 1 = 0
            · simp only [hz, if_true] at hstate
              by_cases hs : t._state = TokenState.QUIESCING
              · simp [hs] at hstate
              · simp only [hs, if_false] at hstate
                by_cases he : t._entries.isEmpty = true
                · simp [he] at hstate
                · simp only [he, if_false] at hstate
                  exact absurd hstate hs
            · simp only [hz, if_false] at hstate
              exact h6 hstate
  · simp only [hmem, if_false]
    exact hinv

theorem do_submit_effect {τ : Type} (env : SubmitEnv τ) (create_thread : Status)
    (pool : ThreadPool τ) (r : τ) (k : Nat) (pri : Nat) (result : Status × ThreadPool τ)
    (h : pool.do_submit env create_thread r k pri = some result) :
    (result.2 = pool ∧ result.1.ok = false) ∨
      ∃ t : ThreadPoolToken τ,
        pool._tokens.get? k = some t ∧ env.may_submit_new_tasks t._state = true ∧
        pool._pool_status.ok = true ∧ result.2.running = pool.running ∧
        result.2._tokens =
          pool._tokens.set k (submit_token pri (env.sync_point_replace_task r) t) ∧
        result.2._queue = (if submit_enqueues t then pool._queue ++ [k] else pool._queue) := by
  unfold ThreadPool.do_submit at h
  cases hget : pool._tokens.get? k with
  | none => rw [hget] at h; cases h
  | some t =>
    rw [hget] at h
    simp only at h
    by_cases hok : pool._pool_status.ok = true
    · by_cases hmay : env.may_submit_new_tasks t._state = true
      · by_cases hcap : env.sync_point_do_submit_1 (capacity_remaining pool) < 1
        · simp only [hok, hmay, hcap, Bool.not_true, Bool.false_eq_true, if_false, if_true,
            Option.some.injEq] at h
          left
          rw [← h]
          exact ⟨rfl, rfl⟩
        · simp only [hok, hmay, hcap, Bool.not_true, Bool.false_eq_true, if_false] at h
          right
          refine ⟨t, rfl, hmay, hok, ?_⟩
          split_ifs at h <;> simp only [Option.some.injEq] at h <;> rw [← h] <;>
            refine ⟨rfl, rfl, ?_⟩ <;> simp only [*, if_true, if_false, Bool.false_eq_true]
      · have hmay1 : env.may_submit_new_tasks t._state = false := by
          cases hb : env.may_submit_new_tasks t._state
          · rfl
          · exact absurd hb hmay
        simp only [hok, hmay1, Bool.not_true, Bool.false_eq_true, if_false, Bool.not_false,
          if_true, Option.some.injEq] at h
        left
        rw [← h]
        exact ⟨rfl, rfl⟩
    · have hok1 : pool._pool_status.ok = false := by
        cases hb : pool._pool_status.ok
        · rfl
        · exact absurd hb hok
      simp only [hok1, Bool.not_false, if_true, Option.some.injEq] at h
      left
      rw [← h]
      exact ⟨rfl, hok1⟩

theorem submit_token_fields {τ : Type} (pri : Nat) (task : τ) (t : ThreadPoolToken τ) :
    (submit_token pri task t)._active_threads = t._active_threads ∧
      (submit_token pri task t)._entries = t._entries ++ [(pri, task)] ∧
      (submit_token pri task t)._mode = t._mode ∧
      (t._state = TokenState.IDLE → (submit_token pri task t)._state = TokenState.RUNNING) ∧
      (t._state ≠ TokenState.IDLE → (submit_token pri task t)._state = t._state) ∧
      (submit_enqueues t = true ↔
        (t._state = TokenState.IDLE ∨ t._mode = ExecutionMode.CONCURRENT)) := by
  unfold submit_token submit_enqueues
  by_cases hs : t._state = TokenState.IDLE
  · simp [hs, ThreadPoolToken.transition]
  · by_cases hm : t._mode = ExecutionMode.CONCURRENT
    · simp [hs, hm]
    · simp [hs, hm]

theorem pool_inv_do_submit {τ : Type} (env : SubmitEnv τ)
    (henv : ∀ state, env.may_submit_new_tasks state = true →
      state = TokenState.IDLE ∨ state = TokenState.RUNNING)
    (create_thread : Status) (pool : ThreadPool τ) (r : τ) (k : Nat) (pri : Nat)
    (result : Status × ThreadPool τ)
    (h : pool.do_submit env create_thread r k pri = some result) (hinv : PoolInv pool) :
    PoolInv result.2 := by
  rcases do_submit_effect env create_thread pool r k pri result h with
    ⟨hsame, -⟩ | ⟨t, hget, hmay, -, hrunning, htokens, hqueue⟩
  · rw [hsame]; exact hinv
  · obtain ⟨h1, h2, h3, h4, h5, h6⟩ := hinv.1 k t hget
    obtain ⟨f1, f2, f3, f4, f5, f6⟩ :=
      submit_token_fields pri (env.sync_point_replace_task r) t
    have hlt := get?_some_lt _ _ _ hget
    have hstate := henv _ hmay
    apply pool_inv_set pool _ k _ hinv hlt htokens
    · intro id hid
      rw [hqueue]
      split_ifs
      · exact count_append_singleton_of_ne _ _ _ hid
      · rfl
    · intro id _
      rw [hrunning]
    · rw [hqueue, hrunning]
      unfold TokenInv
      rw [f1, f2, f3]
      have hstate1 : (submit_token pri (env.sync_point_replace_task r) t)._state =
          TokenState.RUNNING := by
        rcases hstate with hs | hs
        · exact f4 hs
        · rw [f5 (by rw [hs]; decide), hs]
      rw [hstate1]
      simp only [List.length_append, List.length_cons, List.length_nil, reduceCtorEq,
        false_implies, and_true]
      by_cases henq : submit_enqueues t = true
      · simp only [henq, if_true, count_append_singleton_self]
        refine ⟨h1, by omega, ?_⟩
        intro hmode
        rcases f6.mp henq with hs | hm
        · obtain ⟨h4a, h4b⟩ := h4 hs
          rw [h4a, h4b]
          decide
        · rw [hm] at hmode
          cases hmode
      · have henq1 : submit_enqueues t = false := by
          cases hb : submit_enqueues t
          · rfl
          · exact absurd hb henq
        simp only [henq1, Bool.false_eq_true, if_false]
        exact ⟨h1, by omega, h3⟩

theorem init_threads_effect {τ : Type} (create_thread : Nat → Status) (l : List Nat)
    (pool : ThreadPool τ) :
    (init_threads create_thread l pool).2 = pool ∨
      (init_threads create_thread l pool).2 = pool.shutdown := by
  induction l with
  | nil => exact Or.inl rfl
  | cons i rest ih =>
    unfold init_threads
    split_ifs with hok
    · exact ih
    · exact Or.inr rfl

theorem pool_inv_init_threads {τ : Type} (create_thread : Nat → Status) (l : List Nat)
    (pool : ThreadPool τ) (hinv : PoolInv pool) :
    PoolInv (init_threads create_thread l pool).2 := by
  rcases init_threads_effect create_thread l pool with h | h
  · rw [h]; exact hinv
  · rw [h]; exact pool_inv_shutdown _ hinv

theorem pool_inv_init {τ : Type} (create_thread : Nat → Status) (pool : ThreadPool τ)
    (hinv : PoolInv pool) : PoolInv (pool.init create_thread).2 := by
  unfold ThreadPool.init
  split_ifs with hun
  · exact hinv
  · apply pool_inv_init_threads
    exact pool_inv_congr pool _ hinv rfl rfl rfl

theorem pool_inv_step {τ : Type} (env : SubmitEnv τ)
    (henv : ∀ state, env.may_submit_new_tasks state = true →
      state = TokenState.IDLE ∨ state = TokenState.RUNNING)
    (pool : ThreadPool τ) (event : PoolEvent τ) (hinv : PoolInv pool) :
    PoolInv (pool_step env pool event) := by
  cases event with
  | init create_thread => exact pool_inv_init create_thread pool hinv
  | new_token mode => exact pool_inv_new_token pool mode hinv
  | do_submit r token pri create_thread =>
    simp only [pool_step]
    cases h : pool.do_submit env create_thread r token pri with
    | none => exact hinv
    | some result => exact pool_inv_do_submit env henv create_thread pool r token pri result h hinv
  | token_shutdown token => exact pool_inv_token_shutdown pool token hinv
  | pool_shutdown => exact pool_inv_shutdown pool hinv
  | update_max_threads max_threads =>
    simp only [pool_step, ThreadPool.update_max_threads]
    split_ifs
    · exact hinv
    · exact pool_inv_congr pool _ hinv rfl rfl rfl
  | thread_start =>
    simp only [pool_step, dispatch_thread_start]
    split_ifs
    · exact pool_inv_congr pool _ hinv rfl rfl rfl
    · exact hinv
  | worker_idle me =>
    simp only [pool_step, dispatch_thread_idle]
    split_ifs
    · exact pool_inv_congr pool _ hinv rfl rfl rfl
    · exact hinv
  | worker_wake me => exact pool_inv_congr pool _ hinv rfl rfl rfl
  | worker_take => exact pool_inv_take pool hinv
  | worker_finish token => exact pool_inv_finish pool token hinv
  | worker_exit => exact pool_inv_congr pool _ hinv rfl rfl rfl

theorem pool_inv_run {τ : Type} (env : SubmitEnv τ)
    (henv : ∀ state, env.may_submit_new_tasks state = true →
      state = TokenState.IDLE ∨ state = TokenState.RUNNING)
    (events : List (PoolEvent τ)) (pool : ThreadPool τ) (hinv : PoolInv pool) :
    PoolInv (pool_run env events pool) := by
  induction events generalizing pool with
  | nil => exact hinv
  | cons event rest ih => exact ih _ (pool_inv_step env henv pool event hinv)

/-! ## The thread pool: QUIESCED is terminal -/

theorem get?_set_of_ne {α : Type} (l : List α) (k id : Nat) (a : α) (h : k ≠ id) :
    (l.set k a).get? id = l.get? id := by
  rw [List.get?_eq_getElem?, List.get?_eq_getElem?, List.getElem?_set]
  simp only [h, if_false]

theorem get?_set_self {α : Type} (l : List α) (k : Nat) (a b : α) (h : l.get? k = some b) :
    (l.set k a).get? k = some a := by
  have hlt := get?_some_lt l k b h
  rw [List.get?_eq_getElem?, List.getElem?_set]
  simp only [hlt, if_true]

theorem quiesced_step {τ : Type} (env : SubmitEnv τ)
    (henv : ∀ state, env.may_submit_new_tasks state = true →
      state = TokenState.IDLE ∨ state = TokenState.RUNNING)
    (pool : ThreadPool τ) (event : PoolEvent τ) (hinv : PoolInv pool) (id : Nat)
    (t : ThreadPoolToken τ) (hget : pool._tokens.get? id = some t)
    (hstate : t._state = TokenState.QUIESCED) :
    ∃ t1 : ThreadPoolToken τ,
      (pool_step env pool event)._tokens.get? id = some t1 ∧
      t1._state = TokenState.QUIESCED := by
  obtain ⟨h1, h2, h3, h4, h5, h6⟩ := hinv.1 id t hget
  obtain ⟨h5a, h5b, h5c⟩ := h5 hstate
  have hshutdown : ∃ t1 : ThreadPoolToken τ,
      pool.shutdown._tokens.get? id = some t1 ∧ t1._state = TokenState.QUIESCED := by
    refine ⟨shutdown_token t, ?_, (shutdown_token_fields t).2.2.2.2.2.1 hstate⟩
    rw [List.get?_eq_getElem?] at hget
    simp only [ThreadPool.shutdown, List.get?_eq_getElem?, List.getElem?_map, hget,
      Option.map_some']
  cases event with
  | init create_thread =>
    simp only [pool_step, ThreadPool.init]
    split_ifs with hun
    · exact ⟨t, hget, hstate⟩
    · rcases init_threads_effect create_thread (List.range pool._min_threads.toNat)
        { pool with _pool_status := Status.OK
                    _num_threads_pending_start := pool._min_threads } with h | h
      · rw [h]; exact ⟨t, hget, hstate⟩
      · rw [h]; exact hshutdown
  | new_token mode =>
    refine ⟨t, ?_, hstate⟩
    have hlt := get?_some_lt _ _ _ hget
    rw [List.get?_eq_getElem?] at hget
    simp only [pool_step, ThreadPool.new_token, List.get?_eq_getElem?]
    rw [List.getElem?_append_left hlt]
    exact hget
  | do_submit r token pri create_thread =>
    simp only [pool_step]
    cases h : pool.do_submit env create_thread r token pri with
    | none => exact ⟨t, hget, hstate⟩
    | some result =>
      simp only
      rcases do_submit_effect env create_thread pool r token pri result h with
        ⟨hsame, -⟩ | ⟨t0, hget0, hmay, -, -, htokens, -⟩
      · rw [hsame]; exact ⟨t, hget, hstate⟩
      · by_cases hk : token = id
        · subst hk
          rw [hget] at hget0
          simp only [Option.some.injEq] at hget0
          subst hget0
          rcases henv _ hmay with hs | hs
          · rw [hs] at hstate; cases hstate
          · rw [hs] at hstate; cases hstate
        · rw [htokens, get?_set_of_ne _ _ _ _ hk]
          exact ⟨t, hget, hstate⟩
  | token_shutdown token =>
    simp only [pool_step]
    cases hget0 : pool._tokens.get? token with
    | none =>
      have : ThreadPoolToken.shutdown pool token = pool := by
        unfold ThreadPoolToken.shutdown
        simp only [hget0]
      rw [this]
      exact ⟨t, hget, hstate⟩
    | some t0 =>
      obtain ⟨t1, htokens, -, -, -, -, hcases⟩ := token_shutdown_effect pool token t0 hget0
      by_cases hk : token = id
      · subst hk
        rw [hget] at hget0
        simp only [Option.some.injEq] at hget0
        subst hget0
        refine ⟨t1, by rw [htokens]; exact get?_set_self _ _ _ _ hget, ?_⟩
        rcases hcases with ⟨hs, -, -⟩ | ⟨hs, -, -⟩ | ⟨-, hs1, -⟩
        · rw [hs] at hstate; cases hstate
        · rw [hs] at hstate; cases hstate
        · rw [hs1]; exact hstate
      · rw [htokens, get?_set_of_ne _ _ _ _ hk]
        exact ⟨t, hget, hstate⟩
  | pool_shutdown => exact hshutdown
  | update_max_threads max_threads =>
    simp only [pool_step, ThreadPool.update_max_threads]
    split_ifs <;> exact ⟨t, hget, hstate⟩
  | thread_start =>
    simp only [pool_step, dispatch_thread_start]
    split_ifs <;> exact ⟨t, hget, hstate⟩
  | worker_idle me =>
    simp only [pool_step, dispatch_thread_idle]
    split_ifs <;> exact ⟨t, hget, hstate⟩
  | worker_wake me => exact ⟨t, hget, hstate⟩
  | worker_take =>
    simp only [pool_step, dispatch_thread_take]
    split_ifs with hok
    · cases hqueue : pool._queue with
      | nil => exact ⟨t, hget, hstate⟩
      | cons k queue =>
        simp only
        cases hget0 : pool._tokens.get? k with
        | none => exact ⟨t, hget, hstate⟩
        | some t0 =>
          simp only
          have hk : k ≠ id := by
            intro hk
            rw [hqueue, hk, List.count_cons_self] at h5a
            omega
          rw [get?_set_of_ne _ _ _ _ hk]
          exact ⟨t, hget, hstate⟩
    · exact ⟨t, hget, hstate⟩
  | worker_finish token =>
    simp only [pool_step, dispatch_thread_finish]
    split_ifs with hmem
    · cases hget0 : pool._tokens.get? token with
      | none => exact ⟨t, hget, hstate⟩
      | some t0 =>
        simp only
        have hk : token ≠ id := by
          intro hk
          rw [hk] at hmem
          have hpos : 0 < pool.running.count id := List.count_pos_iff.mpr hmem
          omega
        rw [get?_set_of_ne _ _ _ _ hk]
        exact ⟨t, hget, hstate⟩
    · exact ⟨t, hget, hstate⟩
  | worker_exit => exact ⟨t, hget, hstate⟩

theorem quiesced_run {τ : Type} (env : SubmitEnv τ)
    (henv : ∀ state, env.may_submit_new_tasks state = true →
      state = TokenState.IDLE ∨ state = TokenState.RUNNING)
    (events : List (PoolEvent τ)) (pool : ThreadPool τ) (hinv : PoolInv pool) (id : Nat)
    (t : ThreadPoolToken τ) (hget : pool._tokens.get? id = some t)
    (hstate : t._state = TokenState.QUIESCED) :
    ∃ t1 : ThreadPoolToken τ,
      (pool_run env events pool)._tokens.get? id = some t1 ∧
      t1._state = TokenState.QUIESCED := by
  induction events generalizing pool t with
  | nil => exact ⟨t, hget, hstate⟩
  | cons event rest ih =>
    obtain ⟨t1, hget1, hstate1⟩ := quiesced_step env henv pool event hinv id t hget hstate
    exact ih _ (pool_inv_step env henv pool event hinv) t1 hget1 hstate1

/-- C26.  QUIESCED is a terminal state of a `ThreadPoolToken`.  In every pool reached from a
newly constructed one by steps of the pool (`init`, `new_token`, `do_submit`,
`ThreadPoolToken::shutdown`, `ThreadPool::shutdown`, `update_max_threads`, and the steps of
worker threads in `dispatch_thread`: start, going idle, waking, taking a task, finishing a
task, exit), a token that is QUIESCED stays QUIESCED under every further step and every
sequence of steps, and holds no entry; `do_submit` on it returns a status that is not OK and
leaves the pool as it was.  `may_submit_new_tasks()` is taken to hold only of tokens that are
IDLE or RUNNING, as `do_submit` asserts. -/
theorem quiesced_is_terminal {τ : Type} (env : SubmitEnv τ)
    (henv : ∀ state, env.may_submit_new_tasks state = true →
      state = TokenState.IDLE ∨ state = TokenState.RUNNING)
    (_min_threads _max_threads _max_queue_size : Int) (before after : List (PoolEvent τ))
    (token : Nat) (t : ThreadPoolToken τ)
    (hget : (pool_run env before
      (ThreadPool.construct _min_threads _max_threads _max_queue_size))._tokens.get? token =
        some t)
    (hstate : t._state = TokenState.QUIESCED) :
    (∀ event : PoolEvent τ, ∃ t1 : ThreadPoolToken τ,
        (pool_step env (pool_run env before
          (ThreadPool.construct _min_threads _max_threads _max_queue_size)) event)._tokens.get?
            token = some t1 ∧
        t1._state = TokenState.QUIESCED) ∧
      (∃ t1 : ThreadPoolToken τ,
        (pool_run env after (pool_run env before
          (ThreadPool.construct _min_threads _max_threads _max_queue_size)))._tokens.get?
            token = some t1 ∧
        t1._state = TokenState.QUIESCED ∧ t1._entries = []) ∧
      (∀ (r : τ) (pri : Nat) (create_thread : Status), ∃ status : Status,
        ThreadPool.do_submit env create_thread
            (pool_run env before
              (ThreadPool.construct _min_threads _max_threads _max_queue_size)) r token pri =
          some (status, pool_run env before
            (ThreadPool.construct _min_threads _max_threads _max_queue_size)) ∧
        status.ok = false) := by
  have hinv : PoolInv (pool_run env before
      (ThreadPool.construct _min_threads _max_threads _max_queue_size)) :=
    pool_inv_run env henv before _ (pool_inv_construct _ _ _)
  refine ⟨?_, ?_, ?_⟩
  · intro event
    exact quiesced_step env henv _ event hinv token t hget hstate
  · obtain ⟨t1, hget1, hstate1⟩ := quiesced_run env henv after _ hinv token t hget hstate
    have hinv1 := pool_inv_run env henv after _ hinv
    obtain ⟨-, -, -, -, h5, -⟩ := hinv1.1 token t1 hget1
    exact ⟨t1, hget1, hstate1, (h5 hstate1).2.2⟩
  · intro r pri create_thread
    have hmay : env.may_submit_new_tasks t._state = false := by
      cases hb : env.may_submit_new_tasks t._state
      · rfl
      · rcases henv _ hb with hs | hs
        · rw [hs] at hstate; cases hstate
        · rw [hs] at hstate; cases hstate
    unfold ThreadPool.do_submit
    simp only [hget]
    cases hok : (pool_run env before
        (ThreadPool.construct _min_threads _max_threads _max_queue_size))._pool_status.ok
    · simp only [Bool.not_false, if_true]
      exact ⟨_, rfl, hok⟩
    · simp only [Bool.not_true, Bool.false_eq_true, if_false, hmay, Bool.not_false, if_true]
      exact ⟨_, rfl, rfl⟩

/-- Witness for C26: the tokenless token runs one task, is shut down while the task runs
(QUIESCING) and quiesces when the task ends; a later submission, a pool shutdown and a worker
step leave it QUIESCED. -/
theorem quiesced_is_terminal_witness :
    ∃ t1 : ThreadPoolToken Nat,
      (pool_run sample_submit_env
        [PoolEvent.do_submit 9 0 0 Status.OK, PoolEvent.pool_shutdown, PoolEvent.worker_take]
        (pool_run sample_submit_env
          [PoolEvent.init (fun _ => Status.OK), PoolEvent.do_submit 7 0 0 Status.OK,
           PoolEvent.thread_start, PoolEvent.worker_take, PoolEvent.token_shutdown 0,
           PoolEvent.worker_finish 0]
          (ThreadPool.construct 0 1 0)))._tokens.get? 0 = some t1 ∧
      t1._state = TokenState.QUIESCED ∧ t1._entries = [] :=
  (quiesced_is_terminal sample_submit_env (by intro state; cases state <;> decide) 0 1 0
    [PoolEvent.init (fun _ => Status.OK), PoolEvent.do_submit 7 0 0 Status.OK,
     PoolEvent.thread_start, PoolEvent.worker_take, PoolEvent.token_shutdown 0,
     PoolEvent.worker_finish 0]
    [PoolEvent.do_submit 9 0 0 Status.OK, PoolEvent.pool_shutdown, PoolEvent.worker_take]
    0 ⟨ExecutionMode.CONCURRENT, TokenState.QUIESCED, [], 0⟩ rfl rfl).2.1

/-! ## Splitting a chunk over segment writers -/

theorem to_uint32_of_lt (n : Nat) (h : n < 2 ^ 32) : to_uint32 n = n :=
  Nat.mod_eq_of_lt h

theorem uint32_capacity (written rows : Nat) (h1 : written ≤ rows) (h2 : rows < 2 ^ 32) :
    to_uint32 (to_uint32 rows + 2 ^ 32 - to_uint32 written) = rows - written := by
  rw [to_uint32_of_lt rows h2, to_uint32_of_lt written (by omega)]
  unfold to_uint32
  have h : rows + 2 ^ 32 - written = (rows - written) + 2 ^ 32 := by omega
  rw [h, Nat.add_mod_right]
  exact Nat.mod_eq_of_lt (by omega)

theorem split_reference_nil {ρ : Type} (index : Nat) (capacities : List Nat) :
    split_reference index capacities ([] : List ρ) = [] := by
  cases capacities <;> rfl

theorem split_reference_cons {ρ : Type} (index capacity : Nat) (capacities : List Nat)
    (rows : List ρ) (h : rows ≠ []) :
    split_reference index (capacity :: capacities) rows =
      (index, rows.take capacity) ::
        split_reference (index + 1) capacities (rows.drop capacity) := by
  cases rows with
  | nil => exact absurd rfl h
  | cons row rest => rfl

theorem write_split_loop_from_full {W ρ : Type} (ops : SegmentWriterOps W ρ) (data : List ρ)
    (happend : ∀ (w : W) (chunk : List ρ), (ops.append_chunk w chunk).1.ok = true →
      ops.num_rows_written (ops.append_chunk w chunk).2 =
        ops.num_rows_written w + chunk.length)
    (following : List W) :
    ∀ (fuel : Nat) (before : List W) (current : W)
      (num_rows_written segment_num_rows num_left_rows offset : Nat)
      (appends : List (Nat × List ρ)),
      (num_left_rows = 0 ∨ segment_num_rows = num_rows_written) →
      (∀ w ∈ following, counters_ok ops (ops.init false w).2) →
      offset + num_left_rows = data.length →
      num_left_rows ≤
        (following.map (fun w => remaining_capacity ops (ops.init false w).2)).sum →
      following.length + 1 ≤ fuel →
      ∃ out : SplitOutcome W ρ,
        write_split_loop ops data fuel before current following num_rows_written
            segment_num_rows num_left_rows offset appends = Except.ok out ∧
          out.before.length + out.following.length = before.length + following.length ∧
          (out.status.ok = true →
            out.appends = appends ++
              split_reference (before.length + 1)
                (following.map (fun w => remaining_capacity ops (ops.init false w).2))
                (data.drop offset)) := by
  induction following with
  | nil =>
    intro fuel before current nrw snr left offset appends _ _ hoffset hleft hfuel
    obtain ⟨f, rfl⟩ : ∃ f, fuel = f + 1 := ⟨fuel - 1, by simp at hfuel; omega⟩
    have hz : left = 0 := by simpa using hleft
    unfold write_split_loop
    simp only [hz, if_true]
    refine ⟨_, rfl, rfl, ?_⟩
    intro _
    have hdrop : data.drop offset = [] := List.drop_eq_nil_of_le (by omega)
    simp [hdrop, split_reference_nil]
  | cons next rest ih =>
    intro fuel before current nrw snr left offset appends hstate hcounters hoffset hleft hfuel
    obtain ⟨f, rfl⟩ : ∃ f, fuel = f + 1 := ⟨fuel - 1, by simp at hfuel; omega⟩
    unfold write_split_loop
    by_cases hz : left = 0
    · simp only [hz, if_true]
      refine ⟨_, rfl, rfl, ?_⟩
      intro _
      have hdrop : data.drop offset = [] := List.drop_eq_nil_of_le (by omega)
      simp [hdrop, split_reference_nil]
    · have hfull : snr = nrw := by
        rcases hstate with h | h
        · exact absurd h hz
        · exact h
      simp only [hz, if_false, hfull, if_true]
      by_cases hflush : (ops.flush_columns current).1.ok = true
      · simp only [hflush, if_true]
        by_cases hinit : (ops.init false next).1.ok = true
        · simp only [hinit, if_true]
          obtain ⟨hc1, hc2⟩ := hcounters next (List.mem_cons_self _ _)
          have hcap := uint32_capacity _ _ hc1 hc2
          rw [hcap]
          have hcapdef : remaining_capacity ops (ops.init false next).2 =
              ops.num_rows (ops.init false next).2 -
                ops.num_rows_written (ops.init false next).2 := rfl
          rw [← hcapdef]
          generalize hcv : remaining_capacity ops (ops.init false next).2 = c at *
          have hlen : (data.drop offset).length = left := by
            rw [List.length_drop]; omega
          have hne : data.drop offset ≠ [] := by
            intro hnil
            rw [hnil] at hlen
            simp at hlen
            omega
          have hws : (if c > left then left else c) = min c left := by
            split_ifs <;> omega
          rw [hws]
          have htake : (data.drop offset).take (min c left) = (data.drop offset).take c := by
            by_cases hcl : c ≤ left
            · rw [Nat.min_eq_left hcl]
            · rw [Nat.min_eq_right (by omega), List.take_of_length_le (by omega),
                List.take_of_length_le (by omega)]
          have hdrop : data.drop (offset + min c left) = (data.drop offset).drop c := by
            rw [List.drop_drop]
            by_cases hcl : c ≤ left
            · rw [Nat.min_eq_left hcl]
            · rw [Nat.min_eq_right (by omega), List.drop_eq_nil_of_le (by omega),
                List.drop_eq_nil_of_le (by omega)]
          by_cases happ : (ops.append_chunk (ops.init false next).2
              ((data.drop offset).take (min c left))).1.ok = true
          · simp only [happ, if_true]
            have hwritten := happend _ _ happ
            have hchunk : ((data.drop offset).take (min c left)).length = min c left := by
              rw [List.length_take, hlen]
              omega
            rw [hchunk] at hwritten
            simp only [List.map_cons, List.sum_cons, hcv] at hleft
            obtain ⟨out, hout, hlen1, happs⟩ := ih f (before ++ [(ops.flush_columns current).2])
              (ops.append_chunk (ops.init false next).2
                ((data.drop offset).take (min c left))).2
              (to_uint32 (ops.num_rows_written (ops.append_chunk (ops.init false next).2
                ((data.drop offset).take (min c left))).2))
              (to_uint32 (ops.num_rows (ops.init false next).2))
              (left - min c left) (offset + min c left)
              (appends ++ [(before.length + 1, (data.drop offset).take (min c left))])
              (by
                by_cases hcl : c ≤ left
                · right
                  rw [hwritten, Nat.min_eq_left hcl, to_uint32_of_lt _ hc2,
                    to_uint32_of_lt _ (by omega)]
                  omega
                · left
                  omega)
              (fun w hw => hcounters w (List.mem_cons_of_mem _ hw))
              (by omega) (by omega) (by simp at hfuel ⊢; omega)
            refine ⟨out, hout, ?_, ?_⟩
            · simp only [List.length_append, List.length_cons, List.length_nil] at hlen1 ⊢
              omega
            · intro hok
              rw [happs hok]
              simp only [List.map_cons, hcv]
              rw [split_reference_cons _ _ _ _ hne, htake, hdrop]
              simp only [List.length_append, List.length_cons, List.length_nil,
                List.append_assoc, List.singleton_append]
          · simp only [happ, Bool.false_eq_true, if_false]
            refine ⟨_, rfl, ?_, ?_⟩
            · simp
              omega
            · intro hok
              exact absurd hok happ
        · simp only [hinit, Bool.false_eq_true, if_false]
          refine ⟨_, rfl, ?_, ?_⟩
          · simp
            omega
          · intro hok
            exact absurd hok hinit
      · simp only [hflush, Bool.false_eq_true, if_false]
        refine ⟨_, rfl, rfl, ?_⟩
        intro hok
        exact absurd hok hflush

theorem split_reference_flatten {ρ : Type} (capacities : List Nat) (index : Nat)
    (data : List ρ) :
    ((split_reference index capacities data).map Prod.snd).flatten =
      data.take capacities.sum := by
  induction capacities generalizing index data with
  | nil => cases data <;> simp [split_reference]
  | cons capacity rest ih =>
    cases data with
    | nil => simp [split_reference]
    | cons row rows =>
      rw [split_reference_cons _ _ _ _ (List.cons_ne_nil _ _)]
      simp only [List.map_cons, List.flatten_cons, ih, List.sum_cons]
      rw [List.take_add]

theorem split_reference_entry {ρ : Type} (capacities : List Nat) (index : Nat) (data : List ρ)
    (i : Nat) (entry : Nat × List ρ)
    (h : (split_reference index capacities data).get? i = some entry) :
    ∃ capacity : Nat, capacities.get? i = some capacity ∧ entry.1 = index + i ∧
      entry.2 = (data.drop (capacities.take i).sum).take capacity ∧
      entry.2.length = min capacity (data.length - (capacities.take i).sum) := by
  induction capacities generalizing index data i with
  | nil => cases data <;> simp [split_reference] at h
  | cons capacity rest ih =>
    cases data with
    | nil => simp [split_reference] at h
    | cons row rows =>
      rw [split_reference_cons _ _ _ _ (List.cons_ne_nil _ _)] at h
      cases i with
      | zero =>
        simp only [List.get?_cons_zero, Option.some.injEq] at h
        subst h
        refine ⟨capacity, rfl, rfl, by simp, ?_⟩
        simp only [List.take_zero, List.sum_nil, Nat.sub_zero, List.length_take]
      | succ j =>
        simp only [List.get?_cons_succ] at h
        obtain ⟨c, hc, h1, h2, h3⟩ := ih (index + 1) ((row :: rows).drop capacity) j h
        refine ⟨c, by simpa using hc, by omega, ?_, ?_⟩
        · rw [h2, List.drop_drop]
          simp only [List.take_succ_cons, List.sum_cons]
        · rw [h3, List.length_drop]
          simp only [List.take_succ_cons, List.sum_cons]
          omega

theorem uint32_difference (written rows : Nat) (h1 : written ≤ rows) (h2 : rows < 2 ^ 32) :
    to_uint32 (rows + 2 ^ 32 - written) = rows - written := by
  have h := uint32_capacity written rows h1 h2
  rw [to_uint32_of_lt rows h2, to_uint32_of_lt written (by omega)] at h
  exact h

theorem write_split_loop_spec {W ρ : Type} (ops : SegmentWriterOps W ρ) (data : List ρ)
    (happend : ∀ (w : W) (chunk : List ρ), (ops.append_chunk w chunk).1.ok = true →
      ops.num_rows_written (ops.append_chunk w chunk).2 =
        ops.num_rows_written w + chunk.length)
    (following : List W) (fuel : Nat) (before : List W) (current : W)
    (num_rows_written segment_num_rows : Nat)
    (hwritten : num_rows_written = ops.num_rows_written current)
    (hle : num_rows_written ≤ segment_num_rows) (hlt : segment_num_rows < 2 ^ 32)
    (hnofit : segment_num_rows < num_rows_written + data.length)
    (hcounters : ∀ w ∈ following, counters_ok ops (ops.init false w).2)
    (hcap : data.length ≤ (segment_num_rows - num_rows_written) +
      (following.map (fun w => remaining_capacity ops (ops.init false w).2)).sum)
    (hfuel : following.length + 2 ≤ fuel) :
    ∃ out : SplitOutcome W ρ,
      write_split_loop ops data fuel before current following num_rows_written
          segment_num_rows data.length 0 [] = Except.ok out ∧
        out.before.length + out.following.length = before.length + following.length ∧
        (out.status.ok = true →
          out.appends =
            if segment_num_rows - num_rows_written = 0 then
              split_reference (before.length + 1)
                (following.map (fun w => remaining_capacity ops (ops.init false w).2)) data
            else
              split_reference before.length
                ((segment_num_rows - num_rows_written) ::
                  following.map (fun w => remaining_capacity ops (ops.init false w).2))
                data) := by
  by_cases hfull : segment_num_rows = num_rows_written
  · obtain ⟨out, hout, hlen, happs⟩ := write_split_loop_from_full ops data happend following
      fuel before current num_rows_written segment_num_rows data.length 0 []
      (Or.inr hfull) hcounters (by omega) (by omega) (by omega)
    refine ⟨out, hout, hlen, ?_⟩
    intro hok
    rw [happs hok]
    have hz : segment_num_rows - num_rows_written = 0 := by omega
    simp only [hz, if_true, List.nil_append, List.drop_zero]
  · obtain ⟨f, rfl⟩ : ∃ f, fuel = f + 1 := ⟨fuel - 1, by omega⟩
    have hpos : 0 < segment_num_rows - num_rows_written := by omega
    have hne : data ≠ [] := by
      intro hnil
      rw [hnil] at hnofit
      simp at hnofit
      omega
    have hlenpos : ¬ data.length = 0 := by
      intro h0
      exact hne (List.length_eq_zero.mp h0)
    unfold write_split_loop
    simp only [hlenpos, if_false, hfull, uint32_difference _ _ hle hlt, List.drop_zero]
    have hws : (if segment_num_rows - num_rows_written > data.length then data.length
        else segment_num_rows - num_rows_written) = segment_num_rows - num_rows_written := by
      split_ifs <;> omega
    rw [hws]
    by_cases happ : (ops.append_chunk current
        (data.take (segment_num_rows - num_rows_written))).1.ok = true
    · simp only [happ, if_true]
      have hlaw := happend _ _ happ
      rw [List.length_take, Nat.min_eq_left (by omega), ← hwritten] at hlaw
      obtain ⟨out, hout, hlen, happs⟩ := write_split_loop_from_full ops data happend following
        f before (ops.append_chunk current
          (data.take (segment_num_rows - num_rows_written))).2
        (to_uint32 (ops.num_rows_written (ops.append_chunk current
          (data.take (segment_num_rows - num_rows_written))).2))
        segment_num_rows (data.length - (segment_num_rows - num_rows_written))
        (0 + (segment_num_rows - num_rows_written))
        ([] ++ [(before.length, data.take (segment_num_rows - num_rows_written))])
        (by
          right
          rw [hlaw, to_uint32_of_lt _ (by omega)]
          omega)
        hcounters (by omega) (by omega) (by omega)
      refine ⟨out, hout, hlen, ?_⟩
      intro hok
      rw [happs hok]
      have hnz : ¬ segment_num_rows - num_rows_written = 0 := by omega
      simp only [hnz, if_false, List.nil_append, Nat.zero_add, List.singleton_append]
      rw [split_reference_cons _ _ _ _ hne]
    · simp only [happ, Bool.false_eq_true, if_false]
      refine ⟨_, rfl, rfl, ?_⟩
      intro hok
      exact absurd hok happ

theorem status_ok_iff (status : Status) : status.ok = true ↔ status = Status.OK := by
  cases status <;> simp [Status.ok]

theorem write_columns_non_key {W ρ : Type} (ops : SegmentWriterOps W ρ) (fuel : Nat)
    (tw : VerticalGeneralTabletWriter W) (data : List ρ) (current current0 : W)
    (hcurrent : tw._segment_writers.get? tw._current_writer_index = some current)
    (hcounters : counters_ok ops current)
    (hinit : (if tw._current_writer_index = 0 ∧ ops.num_rows_written current = 0
      then ops.init false current else (Status.OK, current)) = (Status.OK, current0))
    (hnofit : ops.num_rows current < ops.num_rows_written current + data.length) :
    write_columns ops fuel tw data false =
      match write_split_loop ops data fuel
          (tw._segment_writers.take tw._current_writer_index) current0
          (tw._segment_writers.drop (tw._current_writer_index + 1))
          (ops.num_rows_written current) (ops.num_rows current) data.length 0 [] with
      | Except.error fault => Except.error fault
      | Except.ok outcome =>
        Except.ok
          { status := outcome.status
            writer :=
              { tw with
                _segment_writers := outcome.before ++ outcome.current :: outcome.following
                _current_writer_index := outcome.before.length }
            appends := outcome.appends } := by
  have hne : tw._segment_writers.isEmpty = false := by
    cases hw : tw._segment_writers with
    | nil => rw [hw] at hcurrent; simp at hcurrent
    | cons a l => rfl
  obtain ⟨hc1, hc2⟩ := hcounters
  have hnofit1 : ¬ (ops.num_rows_written current + data.length ≤ ops.num_rows current) := by
    omega
  have hokk : (Status.OK : Status).ok = true := rfl
  unfold write_columns
  simp only [hne, Bool.false_eq_true, if_false, hcurrent,
    to_uint32_of_lt _ hc2, to_uint32_of_lt (ops.num_rows_written current) (by omega), hnofit1]
  simp only [hinit, hokk, if_true]
  cases hloop : write_split_loop ops data fuel
      (tw._segment_writers.take tw._current_writer_index) current0
      (tw._segment_writers.drop (tw._current_writer_index + 1))
      (ops.num_rows_written current) (ops.num_rows current) data.length 0 [] with
  | error fault => rfl
  | ok outcome =>
    simp only
    split_ifs with hok
    · have hst : outcome.status = Status.OK := (status_ok_iff _).mp hok
      simp only [write_columns_done, Bool.false_eq_true, if_false, hst]
    · rfl

theorem write_columns_split_from {W ρ : Type} (ops : SegmentWriterOps W ρ) (fuel : Nat)
    (tw : VerticalGeneralTabletWriter W) (data : List ρ) (current current0 : W)
    (happend : ∀ (w : W) (chunk : List ρ), (ops.append_chunk w chunk).1.ok = true →
      ops.num_rows_written (ops.append_chunk w chunk).2 =
        ops.num_rows_written w + chunk.length)
    (hcurrent : tw._segment_writers.get? tw._current_writer_index = some current)
    (hcounters : counters_ok ops current)
    (hinit : (if tw._current_writer_index = 0 ∧ ops.num_rows_written current = 0
      then ops.init false current else (Status.OK, current)) = (Status.OK, current0))
    (hwritten : ops.num_rows_written current = ops.num_rows_written current0)
    (hnofit : ops.num_rows current < ops.num_rows_written current + data.length)
    (hfollowing : ∀ w ∈ tw._segment_writers.drop (tw._current_writer_index + 1),
      counters_ok ops (ops.init false w).2)
    (hcap : data.length ≤ remaining_capacity ops current +
      ((tw._segment_writers.drop (tw._current_writer_index + 1)).map
        (fun w => remaining_capacity ops (ops.init false w).2)).sum)
    (hfuel : tw._segment_writers.length + 1 ≤ fuel) :
    ∃ out : WriteOutcome W ρ,
      write_columns ops fuel tw data false = Except.ok out ∧
        out.writer._segment_writers.length = tw._segment_writers.length ∧
        out.writer._current_writer_index < out.writer._segment_writers.length ∧
        (out.status.ok = true →
          out.appends =
            if remaining_capacity ops current = 0 then
              split_reference (tw._current_writer_index + 1)
                ((tw._segment_writers.drop (tw._current_writer_index + 1)).map
                  (fun w => remaining_capacity ops (ops.init false w).2)) data
            else
              split_reference tw._current_writer_index
                (remaining_capacity ops current ::
                  (tw._segment_writers.drop (tw._current_writer_index + 1)).map
                    (fun w => remaining_capacity ops (ops.init false w).2)) data) := by
  have hidx := get?_some_lt _ _ _ hcurrent
  have hc := hcounters
  obtain ⟨hc1, hc2⟩ := hc
  have hdrop : (tw._segment_writers.drop (tw._current_writer_index + 1)).length + 2 ≤ fuel := by
    rw [List.length_drop]
    omega
  have htake : (tw._segment_writers.take tw._current_writer_index).length =
      tw._current_writer_index := by
    rw [List.length_take]
    omega
  obtain ⟨outcome, hloop, hlen, happs⟩ := write_split_loop_spec ops data happend
    (tw._segment_writers.drop (tw._current_writer_index + 1)) fuel
    (tw._segment_writers.take tw._current_writer_index) current0
    (ops.num_rows_written current) (ops.num_rows current) hwritten hc1 hc2 hnofit hfollowing
    hcap hdrop
  rw [write_columns_non_key ops fuel tw data current current0 hcurrent hcounters hinit hnofit,
    hloop]
  refine ⟨_, rfl, ?_, ?_, ?_⟩
  · simp only [List.length_append, List.length_cons]
    rw [htake, List.length_drop] at hlen
    omega
  · simp only [List.length_append, List.length_cons]
    omega
  · intro hok
    have := happs hok
    rw [htake] at this
    exact this

/-- C30.  `write_columns` for non-key columns, when the chunk does not fit in the current
segment writer: provided `append_chunk` adds the rows of its chunk to `num_rows_written()`,
the counters of the current writer and (once initialised) of the following writers satisfy
`num_rows_written() <= num_rows() < 2 ^ 32`, and the remaining capacities of the current and
the following writers sum to at least the chunk's row count, the call returns (the loop ends
within one iteration per writer), `_current_writer_index` stays within `_segment_writers`,
and when the status is OK the chunks appended are the split of the rows over the consecutive
writers from the current one on, each writer receiving `min(its remaining capacity, rows
left)` rows in the original order (no call is made on a current writer without room), and
the rows appended are the rows of the chunk. -/
theorem write_columns_splits_chunk {W ρ : Type} (ops : SegmentWriterOps W ρ) (fuel : Nat)
    (tw : VerticalGeneralTabletWriter W) (data : List ρ) (current : W)
    (happend : ∀ (w : W) (chunk : List ρ), (ops.append_chunk w chunk).1.ok = true →
      ops.num_rows_written (ops.append_chunk w chunk).2 =
        ops.num_rows_written w + chunk.length)
    (hcurrent : tw._segment_writers.get? tw._current_writer_index = some current)
    (hcounters : counters_ok ops current)
    (hfirst : tw._current_writer_index = 0 → ops.num_rows_written current = 0 →
      (ops.init false current).1.ok = true →
      ops.num_rows_written (ops.init false current).2 = 0)
    (hnofit : ops.num_rows current < ops.num_rows_written current + data.length)
    (hfollowing : ∀ w ∈ tw._segment_writers.drop (tw._current_writer_index + 1),
      counters_ok ops (ops.init false w).2)
    (hcap : data.length ≤ remaining_capacity ops current +
      ((tw._segment_writers.drop (tw._current_writer_index + 1)).map
        (fun w => remaining_capacity ops (ops.init false w).2)).sum)
    (hfuel : tw._segment_writers.length + 1 ≤ fuel) :
    ∃ out : WriteOutcome W ρ,
      write_columns ops fuel tw data false = Except.ok out ∧
        out.writer._segment_writers.length = tw._segment_writers.length ∧
        out.writer._current_writer_index < out.writer._segment_writers.length ∧
        (out.status.ok = true →
          out.appends =
            (if remaining_capacity ops current = 0 then
              split_reference (tw._current_writer_index + 1)
                ((tw._segment_writers.drop (tw._current_writer_index + 1)).map
                  (fun w => remaining_capacity ops (ops.init false w).2)) data
            else
              split_reference tw._current_writer_index
                (remaining_capacity ops current ::
                  (tw._segment_writers.drop (tw._current_writer_index + 1)).map
                    (fun w => remaining_capacity ops (ops.init false w).2)) data) ∧
          (out.appends.map Prod.snd).flatten = data ∧
          (out.appends.map (fun entry => entry.2.length)).sum = data.length ∧
          ∀ (i : Nat) (entry : Nat × List ρ), out.appends.get? i = some entry →
            tw._current_writer_index ≤ entry.1 ∧ entry.1 < tw._segment_writers.length ∧
            ∃ capacity : Nat,
              (remaining_capacity ops current ::
                (tw._segment_writers.drop (tw._current_writer_index + 1)).map
                  (fun w => remaining_capacity ops (ops.init false w).2)).get?
                (entry.1 - tw._current_writer_index) = some capacity ∧
              entry.2.length = min capacity
                (data.length -
                  ((remaining_capacity ops current ::
                    (tw._segment_writers.drop (tw._current_writer_index + 1)).map
                      (fun w => remaining_capacity ops (ops.init false w).2)).take
                    (entry.1 - tw._current_writer_index)).sum)) := by
  have hidx := get?_some_lt _ _ _ hcurrent
  have hbase : ∃ out : WriteOutcome W ρ,
      write_columns ops fuel tw data false = Except.ok out ∧
        out.writer._segment_writers.length = tw._segment_writers.length ∧
        out.writer._current_writer_index < out.writer._segment_writers.length ∧
        (out.status.ok = true →
          out.appends =
            if remaining_capacity ops current = 0 then
              split_reference (tw._current_writer_index + 1)
                ((tw._segment_writers.drop (tw._current_writer_index + 1)).map
                  (fun w => remaining_capacity ops (ops.init false w).2)) data
            else
              split_reference tw._current_writer_index
                (remaining_capacity ops current ::
                  (tw._segment_writers.drop (tw._current_writer_index + 1)).map
                    (fun w => remaining_capacity ops (ops.init false w).2)) data) := by
    by_cases hcond : tw._current_writer_index = 0 ∧ ops.num_rows_written current = 0
    · by_cases hiok : (ops.init false current).1.ok = true
      · have hst := (status_ok_iff _).mp hiok
        have hpair : ops.init false current = (Status.OK, (ops.init false current).2) := by
          rw [← hst]
        exact write_columns_split_from ops fuel tw data current (ops.init false current).2
          happend hcurrent hcounters (by rw [if_pos hcond]; exact hpair)
          (by rw [hcond.2, hfirst hcond.1 hcond.2 hiok]) hnofit hfollowing hcap hfuel
      · have hne : tw._segment_writers.isEmpty = false := by
          cases hw : tw._segment_writers with
          | nil => rw [hw] at hcurrent; simp at hcurrent
          | cons a l => rfl
        obtain ⟨hc1, hc2⟩ := hcounters
        unfold write_columns
        simp only [hne, Bool.false_eq_true, if_false, hcurrent, to_uint32_of_lt _ hc2,
          to_uint32_of_lt (ops.num_rows_written current) (by omega)]
        simp only [if_pos hcond, hiok, Bool.false_eq_true, if_false]
        refine ⟨_, rfl, ?_, ?_, ?_⟩
        · simp
        · simp only [List.length_set]
          exact hidx
        · intro hok
          exact absurd hok hiok
    · exact write_columns_split_from ops fuel tw data current current happend hcurrent
        hcounters (by rw [if_neg hcond]) rfl hnofit hfollowing hcap hfuel
  obtain ⟨out, hout, hlen, hindex, happs⟩ := hbase
  refine ⟨out, hout, hlen, hindex, ?_⟩
  intro hok
  have heq := happs hok
  have hne : data ≠ [] := by
    intro hnil
    rw [hnil] at hnofit
    have := hcounters.1
    simp at hnofit
    omega
  have hfull : ∀ capacities : List Nat, remaining_capacity ops current = 0 →
      split_reference tw._current_writer_index
        (remaining_capacity ops current :: capacities) data =
      (tw._current_writer_index, []) ::
        split_reference (tw._current_writer_index + 1) capacities data := by
    intro capacities hz
    rw [split_reference_cons _ _ _ _ hne, hz]
    simp
  have hflat : (out.appends.map Prod.snd).flatten = data := by
    rw [heq]
    split_ifs with hz
    · have h := split_reference_flatten
        (remaining_capacity ops current ::
          (tw._segment_writers.drop (tw._current_writer_index + 1)).map
            (fun w => remaining_capacity ops (ops.init false w).2))
        tw._current_writer_index data
      rw [hfull _ hz] at h
      simp only [List.map_cons, List.flatten_cons, List.nil_append] at h
      rw [h, List.take_of_length_le]
      simpa using hcap
    · rw [split_reference_flatten, List.take_of_length_le]
      simpa using hcap
  refine ⟨heq, hflat, ?_, ?_⟩
  · have := congrArg List.length hflat
    rw [List.length_flatten] at this
    rw [← this]
    simp only [List.map_map]
    rfl
  · intro i entry hentry
    rw [heq] at hentry
    split_ifs at hentry with hz
    · have hentry1 : (split_reference tw._current_writer_index
          (remaining_capacity ops current ::
            (tw._segment_writers.drop (tw._current_writer_index + 1)).map
              (fun w => remaining_capacity ops (ops.init false w).2)) data).get? (i + 1) =
          some entry := by
        rw [hfull _ hz, List.get?_cons_succ]
        exact hentry
      obtain ⟨capacity, h1, h2, -, h4⟩ := split_reference_entry _ _ _ _ _ hentry1
      have hi := get?_some_lt _ _ _ h1
      simp only [List.length_cons, List.length_map, List.length_drop] at hi
      have hsub : entry.1 - tw._current_writer_index = i + 1 := by omega
      rw [hsub]
      exact ⟨by omega, by omega, capacity, h1, h4⟩
    · obtain ⟨capacity, h1, h2, -, h4⟩ := split_reference_entry _ _ _ _ _ hentry
      have hi := get?_some_lt _ _ _ h1
      simp only [List.length_cons, List.length_map, List.length_drop] at hi
      have hsub : entry.1 - tw._current_writer_index = i := by omega
      rw [hsub]
      exact ⟨by omega, by omega, capacity, h1, h4⟩

/-- Witness for C30: eight rows over writers with room for 2, 4, 0 and 6 rows. -/
theorem write_columns_splits_chunk_witness :
    (match write_columns sample_segment_ops 5
        ⟨[(5, 3, [1, 2, 3]), (4, 9, []), (0, 0, []), (6, 0, [])], 0, 100, 0, 4⟩
        [11, 12, 13, 14, 15, 16, 17, 18] false with
      | Except.ok out => out.appends
      | Except.error _ => []) =
        [(0, [11, 12]), (1, [13, 14, 15, 16]), (2, []), (3, [17, 18])] ∧
      ∃ out : WriteOutcome (Nat × Nat × List Nat) Nat,
        write_columns sample_segment_ops 5
            ⟨[(5, 3, [1, 2, 3]), (4, 9, []), (0, 0, []), (6, 0, [])], 0, 100, 0, 4⟩
            [11, 12, 13, 14, 15, 16, 17, 18] false = Except.ok out ∧
          out.writer._current_writer_index < out.writer._segment_writers.length := by
  refine ⟨by decide, ?_⟩
  obtain ⟨out, h1, -, h3, -⟩ := write_columns_splits_chunk sample_segment_ops 5
    ⟨[(5, 3, [1, 2, 3]), (4, 9, []), (0, 0, []), (6, 0, [])], 0, 100, 0, 4⟩
    [11, 12, 13, 14, 15, 16, 17, 18] (5, 3, [1, 2, 3])
    (by
      intro w chunk h
      unfold sample_segment_ops at h ⊢
      by_cases h0 : 0 ∈ chunk
      · simp [h0, Status.ok] at h
      · simp [h0])
    rfl ⟨by decide, by decide⟩ (fun _ h => absurd h (by decide)) (by decide)
    (by
      intro w hw
      simp only [List.drop_succ_cons, List.drop_zero, List.mem_cons, List.mem_singleton,
        List.not_mem_nil, or_false] at hw
      rcases hw with rfl | rfl | rfl <;> exact ⟨by decide, by decide⟩)
    (by decide) (by decide)
  exact ⟨out, h1, h3⟩

end starrocks
